import Mathlib

/-!
Shallow embedding of the core of the vita genetic-programming engine
(repository DaemonIB/vita) together with proofs about the properties
stated in its specification.

The embedding follows the source files:
  * kernel/gene.h, kernel/symbol.h, kernel/function.h, kernel/terminal.h
  * kernel/individual.cc  (genome, consistency check, genetic operators,
    canonicalization passes compact / optimize / normalize, pack / unpack)
  * kernel/interpreter.cc (tree-walking interpreter with per-locus memo)
  * src/kernel/src/primitive/real.h (floating point primitives)
  * src/kernel/cache.h, src/kernel/ttable.h (fitness cache interface)
  * src/kernel/ga/i_de.cc (differential-evolution individual)
  * kernel/population_inl.h (population load)
  * src/kernel/evaluator_proxy.tcc (cached evaluator)

C++ machine integers are modelled as Nat / Int; random draws are modelled
by explicit oracle streams (a draw in [0,1) is a rational, a catalog draw
is an index stream); fallible operations return Option.  Where the
implementation of a function is not part of the sources (e.g. the gene
random constructor in the missing gene_inl.h, the cache implementation in
the missing cache.cc), the definition carries a doc comment starting with
"Modelled from the spec:" and follows the specification text.
-/

namespace Vita

/-- Maximum number of arguments a function symbol may take
(gene::k_args = 4 in kernel/gene.h). -/
def geneArgsCap : Nat := 4

/-- Discriminates the special kinds of symbols that the canonicalization
pass treats specially: ordinary primitives, the positional argument
placeholders used inside ADF bodies (kernel argument class), references
to automatically defined functions (kernel adf.h), and the null symbol
used to model a default constructed gene whose symbol pointer is not set. -/
inductive SymKind where
  | plain : SymKind
  | argPh : Nat → SymKind
  | adfRef : Nat → SymKind
  | nullSym : SymKind
deriving DecidableEq, Repr

/-- Immutable symbol descriptor (kernel/symbol.h): opcode (dense key),
category (type tag), arity (0 for terminals), parametric flag
(terminals may carry an embedded parameter; functions never do). -/
structure Symbol where
  opcode : Nat
  category : Nat
  arity : Nat
  parametric : Bool
  kind : SymKind
deriving DecidableEq, Repr

/-- symbol::terminal(): a symbol is a terminal iff its arity is 0. -/
def Symbol.terminal (s : Symbol) : Bool := s.arity == 0

/-- Null symbol standing for an unset symbol pointer of a default
constructed gene (basic_gene() leaves sym unset). -/
def nullSymbol : Symbol := ⟨0, 0, 0, false, .nullSym⟩

/-- Pads or truncates an argument list to the fixed capacity of the
args array inside a gene (std::uint16_t args[K] with K = 4). -/
def mkArgs (l : List Nat) : List Nat :=
  (l ++ List.replicate geneArgsCap 0).take geneArgsCap

/-- One row of a genome (kernel/gene.h): a symbol, an embedded parameter
(meaningful only for parametric symbols) and the fixed capacity argument
locus array (meaningful prefix of length arity). -/
structure Gene where
  sym : Symbol
  par : Int
  args : List Nat
deriving DecidableEq, Repr

/-- Default constructed gene: unset symbol, zeroed storage. -/
def defaultGene : Gene := ⟨nullSymbol, 0, mkArgs []⟩

/-- The meaningful prefix of the argument array: entries 0 .. arity-1. -/
def Gene.argsUsed (g : Gene) : List Nat := g.args.take g.sym.arity

/-- Gene equality as used by optimize when merging duplicated terminals.
The C++ operator== on genes lives in the missing gene_inl.h; per the data
model two genes agree when they carry the same symbol and the same
meaningful payload (parameter for parametric symbols, used argument loci
otherwise). -/
def geneEq (a b : Gene) : Bool :=
  a.sym == b.sym &&
    (if a.sym.parametric then a.par == b.par else a.argsUsed == b.argsUsed)

/-- A genome (kernel/individual.cc): the flat gene buffer _code plus the
root locus _best where the active program begins. -/
structure Individual where
  best : Nat
  code : List Gene
deriving DecidableEq, Repr

/-- individual::size(): total genome length. -/
def Individual.size (x : Individual) : Nat := x.code.length

/-- Row access into the gene buffer (out of range reads give the default
gene; in C++ such reads are guarded by asserts). -/
def Individual.gene (x : Individual) (i : Nat) : Gene :=
  x.code.getD i defaultGene

/-- Writes one row of the gene buffer. -/
def Individual.setGene (x : Individual) (i : Nat) (g : Gene) : Individual :=
  { x with code := x.code.set i g }

/-- Environment (kernel/environment.cc): the parameters the genome
operations consult, the symbol catalog and the table of ADF bodies. -/
structure Env where
  codeLength : Nat
  sset : List Symbol
  adfs : List Individual
  pMutation : ℚ
deriving DecidableEq, Repr

/-- environment::debug (kernel/environment.cc): code_length must be
defined and greater than one, the mutation probability must not exceed
one. -/
def Env.check (e : Env) : Bool :=
  decide (2 ≤ e.codeLength) && decide (e.pMutation ≤ 1)

/-! ### Active path iterator

individual::const_iterator (kernel/individual.cc) keeps an ordered set of
pending loci, starting from _best; visiting a locus removes it and inserts
the argument loci of its gene, so the active genes are visited in
ascending locus order.  We realise the ordered set as a sorted,
duplicate-free list. -/

/-- Insert into a sorted duplicate-free list (std::set::insert). -/
def insertSorted (n : Nat) : List Nat → List Nat
  | [] => [n]
  | m :: rest =>
    if n < m then n :: m :: rest
    else if n = m then m :: rest
    else m :: insertSorted n rest

/-- Inserts every element of a list into the pending set. -/
def insertAllSorted (l : List Nat) (pending : List Nat) : List Nat :=
  l.foldl (fun p a => insertSorted a p) pending

/-- One visitation loop of the const_iterator: take the least pending
locus, then add the argument loci of its gene.  The fuel bounds the
number of visits (the C++ iteration terminates because argument loci are
always strictly larger; on a malformed genome the consistency check fails
before the extra fuel would matter). -/
def activeStep (x : Individual) : Nat → List Nat → List Nat
  | 0, _ => []
  | _ + 1, [] => []
  | fuel + 1, l :: rest =>
    l :: activeStep x fuel (insertAllSorted (x.gene l).argsUsed rest)

/-- The active (reachable) loci of the genome in ascending visit order. -/
def Individual.activeLoci (x : Individual) : List Nat :=
  activeStep x (x.size + 1) [x.best]

/-- individual::eff_size(): number of active genes. -/
def Individual.effSize (x : Individual) : Nat := x.activeLoci.length

/-- individual::check() (kernel/individual.cc lines 627-656): size equals
code_length; every active gene has a set symbol, arity within capacity and
argument loci strictly between its own row and the genome size; the last
scanned gene is a terminal; the root is in range; the size fits the locus
type; the effective size does not exceed the size; the environment checks. -/
def Individual.check (e : Env) (x : Individual) : Bool :=
  (x.size == e.codeLength) &&
  (x.activeLoci.all fun line =>
    let g := x.gene line
    (g.sym.kind != SymKind.nullSym) &&
    decide (g.sym.arity ≤ geneArgsCap) &&
    (g.argsUsed.all fun a => decide (line < a) && decide (a < x.size))) &&
  (match x.activeLoci.getLast? with
   | some l => (x.gene l).sym.terminal
   | none => false) &&
  decide (x.best < x.size) &&
  decide (x.size < 2 ^ 16) &&
  decide (x.effSize ≤ x.size) &&
  e.check

/-- The forward-reference invariant on one row: every used argument locus
is strictly greater than the row index and strictly less than the genome
size. -/
def forwardGeneB (x : Individual) (line : Nat) : Bool :=
  (x.gene line).argsUsed.all fun a => decide (line < a) && decide (a < x.size)

/-- Genome-wide forward-reference invariant: every row satisfies
forwardGeneB. -/
def forwardOkB (x : Individual) : Bool :=
  (List.range x.size).all (forwardGeneB x)

/-! ### Random gene sampling

The gene constructors gene(symbol_set, lo, hi) and gene(symbol_set) live
in the missing gene_inl.h; they are modelled from the spec. -/

/-- One catalog draw: the roulette outcome (an index into the weighted
catalog view), the seeds for the random argument loci, and the value an
ephemeral parametric terminal would take. -/
structure GeneDraw where
  symIdx : Nat
  argSeeds : List Nat
  parSeed : Int
deriving DecidableEq, Repr

instance : Inhabited GeneDraw := ⟨⟨0, [], 0⟩⟩

/-- Modelled from the spec: the random gene constructor
gene(symbol_set, lo, hi) of the missing gene_inl.h.  Per the spec a gene
is sampled from the catalog with "random arguments chosen with the
forward-locus constraint": each argument locus lies in [lo, hi).  When
the range is empty (the last row) only a terminal can be drawn, matching
the invariant that the gene at the last reachable position is a
terminal. -/
def sampleGene (sset : List Symbol) (lo hi : Nat) (d : GeneDraw) : Gene :=
  let pool := if lo < hi then sset else sset.filter (fun s => s.terminal)
  let s := pool.getD (d.symIdx % pool.length) nullSymbol
  let args := (List.range geneArgsCap).map fun j =>
    if lo < hi then lo + (d.argSeeds.getD j 0) % (hi - lo) else 0
  ⟨s, if s.parametric then d.parSeed else 0, args⟩

/-- The random genome constructor individual::individual(e, true)
(kernel/individual.cc lines 29-41): row i takes gene(e.sset, i+1,
e.code_length), the root is 0. -/
def randomIndividual (e : Env) (draws : List GeneDraw) : Individual :=
  ⟨0, (List.range e.codeLength).map fun i =>
    sampleGene e.sset (i + 1) e.codeLength (draws.getD i default)⟩

/-! ### Genetic operators (kernel/individual.cc) -/

/-- A uniform draw in [0,1) as used by random::boolean(p) (the random.h
implementation is not among the sources; modelled from the spec as the
event "draw < p"). -/
def coinFires (p : ℚ) (draw : ℚ) : Bool := decide (draw < p)

/-- The locus loop of individual::mutation: n remaining loci starting at
row i; when the p_mutation coin fires the row is counted and overwritten
with a fresh catalog sample constrained to loci in (i, cs). -/
def mutGo (e : Env) (cs : Nat) (coins : List ℚ) (draws : List GeneDraw) :
    Nat → Nat → Nat × Individual → Nat × Individual
  | 0, _, acc => acc
  | n + 1, i, acc =>
    let acc' :=
      if coinFires e.pMutation (coins.getD i 1) then
        (acc.1 + 1,
         acc.2.setGene i (sampleGene e.sset (i + 1) cs (draws.getD i default)))
      else acc
    mutGo e cs coins draws n (i + 1) acc'

/-- individual::mutation() (lines 292-308): for every locus, when the
p_mutation coin fires, count the locus and overwrite its gene in place
with a fresh catalog sample constrained to loci in (i, size).  Returns
the number of re-sampled loci together with the updated receiver (the
C++ method is non-const: it edits _code directly). -/
def Individual.mutation (e : Env) (x : Individual) (coins : List ℚ)
    (draws : List GeneDraw) : Nat × Individual :=
  mutGo e x.size coins draws x.size 0 (0, x)

/-- Counts the indices in [i, i+n) satisfying a predicate (used to state
the value returned by the mutation loops). -/
def countIf (pred : Nat → Bool) : Nat → Nat → Nat
  | 0, _ => 0
  | n + 1, i => (if pred i then 1 else 0) + countIf pred n (i + 1)

/-- individual::uniform_cross (lines 314-329): a fresh offspring takes,
at each locus, the receiver's gene when the coin fires, the parent's
otherwise.  The offspring starts at root 0 (individual(e,false)). -/
def Individual.uniformCross (x parent : Individual) (flips : List Bool) :
    Individual :=
  ⟨0, (List.range x.size).map fun i =>
    if flips.getD i true then x.gene i else parent.gene i⟩

/-- individual::cross1 (lines 335-357): one-point crossover.  base picks
which parent contributes the prefix [0, cut) and which the suffix. -/
def Individual.cross1 (x parent : Individual) (cut : Nat) (base : Bool) :
    Individual :=
  let p0 := if base then parent else x
  let p1 := if base then x else parent
  ⟨0, (List.range x.size).map fun i => if i < cut then p0.gene i else p1.gene i⟩

/-- individual::cross2 (lines 363-388): two-point crossover; the middle
segment [cut1, cut2) comes from the other parent. -/
def Individual.cross2 (x parent : Individual) (cut1 cut2 : Nat) (base : Bool) :
    Individual :=
  let p0 := if base then parent else x
  let p1 := if base then x else parent
  ⟨0, (List.range x.size).map fun i =>
    if i < cut1 then p0.gene i
    else if i < cut2 then p1.gene i
    else p0.gene i⟩

/-- Assigns the first new.length slots of the fixed argument array,
keeping the rest (the loop `for i < args.size: ret.args[i] = args[i]`). -/
def overwriteArgs : List Nat → List Nat → List Nat
  | old, [] => old
  | [], _ => []
  | _ :: old, n :: rest => n :: overwriteArgs old rest

/-- individual::replace (lines 421-436): copy the receiver, overwrite the
symbol at the given line and assign the supplied argument loci. -/
def Individual.replace (x : Individual) (sym : Symbol) (args : List Nat)
    (line : Nat) : Individual :=
  let g := x.gene line
  x.setGene line { g with sym := sym, args := overwriteArgs g.args args }

/-- individual::replace with the root line as target (lines 447-452). -/
def Individual.replaceRoot (x : Individual) (sym : Symbol)
    (args : List Nat) : Individual :=
  x.replace sym args x.best

/-- individual::destroy_block (lines 459-470): copy the receiver and
overwrite the given line with a freshly sampled terminal (gene(sset),
spec: "replaced by a freshly sampled terminal"). -/
def Individual.destroyBlock (e : Env) (x : Individual) (line : Nat)
    (d : GeneDraw) : Individual :=
  x.setGene line (sampleGene e.sset 0 0 d)

/-- individual::blocks (lines 394-409): loci on the active path one of
whose arguments refers to a non-terminal (a sub-structure of depth at
least 3). -/
def Individual.blocks (x : Individual) : List Nat :=
  x.activeLoci.filter fun line =>
    (x.gene line).argsUsed.any fun a => (x.gene a).sym.arity != 0

/-- The positional argument placeholder symbol returned by
symbol_set::arg(j) (kernel/argument.h): a non-parametric terminal. -/
def argSymbol (j : Nat) : Symbol := ⟨60000 + j, 0, 0, false, .argPh j⟩

/-- One pass of the partial Fisher-Yates shuffle of the terminal list in
individual::generalize: for j below n, swap positions j and
r ∈ [j, len). -/
def shuffleSwaps (n : Nat) (seeds : List Nat) (l : List Nat) : List Nat :=
  (List.range n).foldl
    (fun acc j =>
      let len := acc.length
      if j < len then
        let r := j + (seeds.getD j 0) % (len - j)
        let tj := acc.getD j 0
        let tr := acc.getD r 0
        (acc.set j tr).set r tj
      else acc)
    l

/-- individual::generalize (lines 478-521): collect the active terminal
loci, partially shuffle them, and overwrite the symbol of the first n of
them (n = min max_args count) with the positional argument placeholders,
in place.  Returns the updated receiver, the substituted positions and
the original categories (sym->type()). -/
def Individual.generalize (x : Individual) (maxArgs : Nat)
    (seeds : List Nat) : Individual × List Nat × List Nat :=
  let terminals := x.activeLoci.filter fun line => (x.gene line).sym.terminal
  let n := min maxArgs terminals.length
  let shuffled := if n < x.size then shuffleSwaps n seeds terminals else terminals
  (List.range n).foldl
    (fun acc j =>
      let line := shuffled.getD j 0
      let g := acc.1.gene line
      (acc.1.setGene line { g with sym := argSymbol j },
       acc.2.1 ++ [line], acc.2.2 ++ [g.sym.category]))
    (x, [], [])

/-! ### Canonicalization passes (kernel/individual.cc)

compact relabels the active loci contiguously from 0; optimize moves the
active terminals behind the active functions merging duplicated
terminals; normalize rewrites the program to the end of a fresh buffer,
inlining ADF calls.  All loops are translated literally; the outer loops
carry fuel bounded by explicit counts. -/

/-- Applies f to the used argument entries (index below arity) of a
gene, leaving the slack of the fixed array unchanged. -/
def mapUsedArgs (f : Nat → Nat) (g : Gene) : Gene :=
  { g with args :=
      (g.args.take g.sym.arity).map f ++ g.args.drop g.sym.arity }

/-- Rewrites, in every row strictly below bound, argument references to
oldL into newL (the inner loop of individual::compact). -/
def retargetBelow (bound oldL newL : Nat) (code : List Gene) : List Gene :=
  (code.enum.map fun gi =>
    if gi.1 < bound then
      mapUsedArgs (fun a => if a = oldL then newL else a) gi.2
    else gi.2)

/-- individual::compact (lines 52-76): copy the receiver, then walk the
active loci in visit order writing the visited gene of the original to
the next free row and retargeting the argument references of the rows
already written.  Returns the compacted individual and new_line (the
number of rows written); note that _best of the copy is left unchanged.
The out parameter last_symbol is new_line - 1. -/
def Individual.compact (x : Individual) : Individual × Nat :=
  let order := x.activeLoci
  let dest := order.enum.foldl
    (fun (d : Individual) (p : Nat × Nat) =>
      let newLine := p.1
      let oldLine := p.2
      let d1 := d.setGene newLine (x.gene oldLine)
      { d1 with code := retargetBelow newLine oldLine newLine d1.code })
    x
  (dest, order.length)

/-- Searches the terminal block [firstT, lastT] for a gene equal to the
gene at row i (the found scan in individual::optimize). -/
def findDup (code : List Gene) (firstT lastT i : Nat) : Option Nat :=
  ((List.range (lastT + 1 - firstT)).map (· + firstT)).find? fun j =>
    geneEq (code.getD i defaultGene) (code.getD j defaultGene)

/-- The argument fixup applied to a row moved one slot forward in the
duplicate-found branch of optimize: references to the duplicate row i go
to the kept copy, references below i shift up. -/
def adjFound (i found : Nat) (g : Gene) : Gene :=
  mapUsedArgs (fun a => if a = i then found else if a < i then a + 1 else a) g

/-- The duplicate-found branch of optimize: rows 1..i take the previous
row's gene with adjusted arguments, row 0 is left as it was. -/
def shiftUp (code : List Gene) (i found : Nat) : List Gene :=
  code.enum.map fun gi =>
    let pos := gi.1
    if pos = 0 ∨ i < pos then gi.2
    else adjFound i found (code.getD (pos - 1) defaultGene)

/-- The not-found branch of optimize with ft the already decremented
first_terminal: rows [best, i) retarget references to i into ft and pull
back references in (i, ft]; rows [i, ft) take the following row with
references up to ft pulled back; row ft receives the saved terminal. -/
def moveBack (code : List Gene) (best i ft : Nat) : List Gene :=
  let codeA := code.enum.map fun gi =>
    if best ≤ gi.1 ∧ gi.1 < i then
      mapUsedArgs
        (fun a => if a = i then ft else if i < a ∧ a ≤ ft then a - 1 else a)
        gi.2
    else gi.2
  let saved := codeA.getD i defaultGene
  codeA.enum.map fun gi =>
    let pos := gi.1
    if i ≤ pos ∧ pos < ft then
      mapUsedArgs (fun a => if a ≤ ft then a - 1 else a)
        (codeA.getD (pos + 1) defaultGene)
    else if pos = ft then saved
    else gi.2

/-- State of the optimize outer loop: the gene buffer, the root and the
current first_terminal. -/
structure OptState where
  code : List Gene
  best : Nat
  firstT : Nat
deriving DecidableEq, Repr

/-- The outer loop of individual::optimize (lines 102-181), iterating i
below first_terminal; the not-found-with-move branch re-examines the same
row (--i; ++i).  Fuel: each step raises i or lowers first_terminal. -/
def optLoop (lastT : Nat) : Nat → OptState → Nat → OptState
  | 0, st, _ => st
  | fuel + 1, st, i =>
    if st.firstT ≤ i then st
    else
      let g := st.code.getD i defaultGene
      if g.sym.terminal then
        match findDup st.code st.firstT lastT i with
        | some found =>
          optLoop lastT fuel
            { st with code := shiftUp st.code i found, best := st.best + 1 }
            (i + 1)
        | none =>
          let ft := st.firstT - 1
          if ft = i then optLoop lastT fuel { st with firstT := ft } (i + 1)
          else
            optLoop lastT fuel
              { st with code := moveBack st.code st.best i ft, firstT := ft } i
      else optLoop lastT fuel st (i + 1)

/-- individual::optimize (lines 89-189): compact, then group the active
terminals at the end of the active block merging duplicates.  Returns the
optimized individual and the out parameters first_t and last_s (the
first and last active terminal rows). -/
def Individual.optimize (x : Individual) : Individual × Nat × Nat :=
  let c := x.compact
  let firstT0 := c.2 - 1
  let lastT := firstT0
  let st := optLoop lastT (2 * x.size + 2) ⟨c.1.code, c.1.best, firstT0⟩ 1
  (⟨st.best, st.code⟩, st.firstT, lastT)

/-- The gene written by the plain branch of normalize: the symbol always,
the parameter for a parametric symbol, otherwise the used argument slots
take the relabelled loci of the source arguments. -/
def normWriteGene (base : Gene) (g : Gene) (ll : List (Option Nat)) : Gene :=
  if g.sym.parametric then { base with sym := g.sym, par := g.par }
  else
    { base with
        sym := g.sym,
        args := overwriteArgs base.args
          ((List.range g.sym.arity).map fun j =>
            (ll.getD (g.args.getD j 0) none).getD 0) }

/-- The do-while loop of individual::normalize(src, args, dest_l, dest)
(lines 241-284), iterating i from last_terminal down to source._best.
n counts the remaining iterations; recNorm is the recursive entry used to
inline an ADF body (normalize called on padf->get_code()).  Returns none
when dest_l runs out (the early `return 0`) or when an inlining fails. -/
def normLoop (e : Env) (source : Individual) (args : Option (List Nat))
    (recNorm : Individual → Option (List Nat) → Nat → Individual →
      Option (Nat × Individual)) :
    Nat → Nat → List (Option Nat) → Nat → Individual →
    Option (List (Option Nat) × Nat × Individual)
  | 0, _, ll, destL, dest => some (ll, destL, dest)
  | n + 1, i, ll, destL, dest =>
    if destL = 0 then none
    else
      match ll.getD i none with
      | none => normLoop e source args recNorm n (i - 1) ll destL dest
      | some _ =>
        let g := source.gene i
        match g.sym.kind with
        | .adfRef id =>
          let body := e.adfs.getD id ⟨0, []⟩
          let args1 := (List.range g.sym.arity).map fun j =>
            (ll.getD (g.args.getD j 0) none).getD 0
          match recNorm body (some args1) destL dest with
          | none => none
          | some r =>
            normLoop e source args recNorm n (i - 1)
              (ll.set i (some r.1)) r.1 r.2
        | .argPh idx =>
          match args with
          | some av =>
            normLoop e source args recNorm n (i - 1)
              (ll.set i (some (av.getD idx 0))) destL dest
          | none =>
            let destL' := destL - 1
            let w := normWriteGene (dest.gene destL') g ll
            normLoop e source args recNorm n (i - 1)
              (ll.set i (some destL')) destL' (dest.setGene destL' w)
        | _ =>
          let destL' := destL - 1
          let w := normWriteGene (dest.gene destL') g ll
          normLoop e source args recNorm n (i - 1)
            (ll.set i (some destL')) destL' (dest.setGene destL' w)

/-- individual::normalize(src, args, dest_l, dest) (lines 225-287):
optimize the source, mark the active rows [best, last_terminal], then
walk them from the last terminal backwards writing the destination from
dest_l downwards.  Returns none when the routine returns 0 (failure),
otherwise the final dest_l and destination.  The fuel bounds the ADF
inlining depth (finite in C++ because ADF bodies are strictly older
individuals); at fuel 0 an ADF inlining request fails. -/
def normalizeRec (e : Env) :
    Nat → Individual → Option (List Nat) → Nat → Individual →
    Option (Nat × Individual)
  | 0, _, _, _, _ => none
  | fuel + 1, src, args, destL, dest =>
    let o := src.optimize
    let source := o.1
    let firstT := o.2.1
    let lastT := o.2.2
    let ret := src.size - (lastT - firstT + 1)
    let ll0 : List (Option Nat) := (List.range source.size).map fun i =>
      if source.best ≤ i ∧ i ≤ lastT then some i else none
    match normLoop e source args (normalizeRec e fuel)
        (lastT + 1 - source.best) lastT ll0 destL dest with
    | none => none
    | some r => if ret = 0 then none else some (r.2.1, r.2.2)

/-- individual::normalize(individual &norm) (lines 196-215): run the
recursive normalization into a fresh blank individual; on success the
root becomes the final dest_l.  The result is the canonical form used
for hashing (none when normalization reports failure). -/
def Individual.normTop (e : Env) (x : Individual) : Option Individual :=
  let fuel := e.adfs.length + 1
  let dest0 : Individual := ⟨0, List.replicate e.codeLength defaultGene⟩
  match normalizeRec e fuel x none x.size dest0 with
  | none => none
  | some r => some { r.2 with best := r.1 }

/-- The canonicalization chain of the spec (compact, then optimize, then
normalize): in the source all three are chained inside
individual::normalize, so the canonical form of an individual is its
normTop result. -/
def canon (e : Env) (x : Individual) : Option Individual :=
  x.normTop e

/-! ### Interpreter (kernel/interpreter.cc)

The tree-walking interpreter evaluates the genome from the root locus
with a per-locus memo cache.  The value semantics of the primitives is
abstracted by two parameters (the virtual symbol::eval): F gives the
value of a function symbol from its fetched argument values, T the value
of a non-parametric terminal; a parametric terminal yields its embedded
parameter (interpreter::eval()).  A memo slot holds Option AnyVal: none
means the slot's empty flag is set, some v a computed value (which may
itself be the undefined value). -/

/-- Values carried through evaluation (boost::any restricted to the
kinds the primitives produce; doubles idealized as rationals). -/
inductive AnyVal where
  | empty : AnyVal
  | num : ℚ → AnyVal
  | boolV : Bool → AnyVal
  | strV : String → AnyVal
deriving DecidableEq, Repr

/-- Argument-fetch loop: evaluates the listed argument loci in order
against the memo cache, serving cached loci from the cache and caching
freshly computed ones (interpreter::eval(unsigned)).  ev is the
evaluator for one locus; the returned list collects the loci on which a
symbol eval was actually run. -/
def evalArgsWith
    (ev : Nat → List (Option AnyVal) →
      Option (AnyVal × List (Option AnyVal) × List Nat)) :
    List Nat → List (Option AnyVal) →
    Option (List AnyVal × List (Option AnyVal) × List Nat)
  | [], cache => some ([], cache, [])
  | locus :: rest, cache =>
    match cache.getD locus none with
    | some v =>
      match evalArgsWith ev rest cache with
      | none => none
      | some r => some (v :: r.1, r.2.1, r.2.2)
    | none =>
      match ev locus cache with
      | none => none
      | some (v, cache', comp) =>
        match evalArgsWith ev rest (cache'.set locus (some v)) with
        | none => none
        | some r => some (v :: r.1, r.2.1, comp ++ r.2.2)

/-- Evaluation of the gene at one locus (the dispatch
_code[ip].sym->eval(this) of interpreter::run/eval): a parametric
terminal yields its parameter, another terminal its T value, a function
applies F to its fetched argument values.  The fuel bounds the nesting
depth; the returned locus list records every locus whose symbol eval was
run (the current one first). -/
def interpEval (F : Symbol → List AnyVal → AnyVal) (T : Symbol → AnyVal)
    (x : Individual) :
    Nat → Nat → List (Option AnyVal) →
    Option (AnyVal × List (Option AnyVal) × List Nat)
  | 0, _, _ => none
  | fuel + 1, ip, cache =>
    let g := x.gene ip
    if g.sym.terminal then
      some ((if g.sym.parametric then .num g.par else T g.sym), cache, [ip])
    else
      match evalArgsWith (interpEval F T x fuel) g.argsUsed cache with
      | none => none
      | some (vals, cache', comp) => some (F g.sym vals, cache', ip :: comp)

/-- interpreter::run(): reset the memo cache to all-empty and evaluate
from the root locus.  none models non-termination within the fuel bound
(one nesting level per genome row suffices on forward genomes). -/
def interpRun (F : Symbol → List AnyVal → AnyVal) (T : Symbol → AnyVal)
    (x : Individual) :
    Option (AnyVal × List (Option AnyVal) × List Nat) :=
  interpEval F T x (x.size + 1) x.best (List.replicate x.size none)

/-! ### Floating point primitives (src/kernel/src/primitive/real.h)

Each primitive's eval is modelled as a function of its fetched argument
values.  Doubles are idealized as rationals, so the only source of a
non-finite intermediate result is a division by zero; the isinf guards
of add/sub/mul never fire in the idealized model.  Casting an empty (or
wrongly typed) any with any_cast throws bad_any_cast in C++: the result
type Except Unit AnyVal records a thrown exception as .error. -/

/-- real::base: any_cast<base_t>, throwing on an empty or non-numeric
container. -/
def castNum : AnyVal → Except Unit ℚ
  | .num v => .ok v
  | _ => .error ()

/-- any_cast<std::string>, throwing on anything but a string. -/
def castStr : AnyVal → Except Unit String
  | .strV s => .ok s
  | _ => .error ()

/-- Truncated quotient as used by std::fmod. -/
def truncQ (q : ℚ) : Int := if 0 ≤ q then ⌊q⌋ else -⌊-q⌋

/-- Modelled from the spec: utility issmall (utility.h is not among the
sources) - the comparison-with-zero used by the conditional primitives,
idealized as exact equality. -/
def issmall (q : ℚ) : Bool := q == 0

/-- real::abs::eval. -/
def absEval (a : AnyVal) : Except Unit AnyVal :=
  if a = .empty then .ok a
  else do
    let v ← castNum a
    .ok (.num |v|)

/-- real::add::eval (lines 147-169): propagate an empty argument, else
sum (the isinf overflow guard cannot fire on rationals). -/
def addEval (a0 a1 : AnyVal) : Except Unit AnyVal :=
  if a0 = .empty then .ok a0
  else if a1 = .empty then .ok a1
  else do
    let v0 ← castNum a0
    let v1 ← castNum a1
    .ok (.num (v0 + v1))

/-- real::sub::eval. -/
def subEval (a0 a1 : AnyVal) : Except Unit AnyVal :=
  if a0 = .empty then .ok a0
  else if a1 = .empty then .ok a1
  else do
    let v0 ← castNum a0
    let v1 ← castNum a1
    .ok (.num (v0 - v1))

/-- real::mul::eval. -/
def mulEval (a0 a1 : AnyVal) : Except Unit AnyVal :=
  if a0 = .empty then .ok a0
  else if a1 = .empty then .ok a1
  else do
    let v0 ← castNum a0
    let v1 ← castNum a1
    .ok (.num (v0 * v1))

/-- real::div::eval (lines 174-195): propagate an empty argument; a
division whose IEEE result is not finite (zero divisor in the idealized
model) is recovered as the undefined value. -/
def divEval (a0 a1 : AnyVal) : Except Unit AnyVal :=
  if a0 = .empty then .ok a0
  else if a1 = .empty then .ok a1
  else do
    let v0 ← castNum a0
    let v1 ← castNum a1
    if v1 = 0 then .ok .empty else .ok (.num (v0 / v1))

/-- real::idiv::eval: floor of the quotient, undefined on a zero
divisor. -/
def idivEval (a0 a1 : AnyVal) : Except Unit AnyVal :=
  if a0 = .empty then .ok a0
  else if a1 = .empty then .ok a1
  else do
    let v0 ← castNum a0
    let v1 ← castNum a1
    if v1 = 0 then .ok .empty else .ok (.num (⌊v0 / v1⌋ : Int))

/-- real::mod::eval: std::fmod, undefined on a zero divisor. -/
def modEval (a0 a1 : AnyVal) : Except Unit AnyVal :=
  if a0 = .empty then .ok a0
  else if a1 = .empty then .ok a1
  else do
    let v0 ← castNum a0
    let v1 ← castNum a1
    if v1 = 0 then .ok .empty
    else .ok (.num (v0 - (truncQ (v0 / v1) : ℚ) * v1))

/-- real::max::eval. -/
def maxEval (a0 a1 : AnyVal) : Except Unit AnyVal :=
  if a0 = .empty then .ok a0
  else if a1 = .empty then .ok a1
  else do
    let v0 ← castNum a0
    let v1 ← castNum a1
    .ok (.num (max v0 v1))

/-- real::gt::eval (lines 200-215): the arguments are cast with
any_cast before any empty test, so an empty argument throws
bad_any_cast instead of propagating the undefined value. -/
def gtEval (a0 a1 : AnyVal) : Except Unit AnyVal := do
  let v0 ← castNum a0
  let v1 ← castNum a1
  .ok (.boolV (decide (v1 < v0)))

/-- real::lt::eval (lines 422-437): same cast-before-test shape as gt. -/
def ltEval (a0 a1 : AnyVal) : Except Unit AnyVal := do
  let v0 ← castNum a0
  let v1 ← castNum a1
  .ok (.boolV (decide (v0 < v1)))

/-- real::ifz::eval: propagate an empty condition, else select the
second or third fetched value. -/
def ifzEval (a0 t e : AnyVal) : Except Unit AnyVal :=
  if a0 = .empty then .ok a0
  else do
    let v0 ← castNum a0
    .ok (if issmall v0 then t else e)

/-- real::ife::eval. -/
def ifeEval (a0 a1 t e : AnyVal) : Except Unit AnyVal :=
  if a0 = .empty then .ok a0
  else if a1 = .empty then .ok a1
  else do
    let v0 ← castNum a0
    let v1 ← castNum a1
    .ok (if issmall (v0 - v1) then t else e)

/-- real::ifl::eval. -/
def iflEval (a0 a1 t e : AnyVal) : Except Unit AnyVal :=
  if a0 = .empty then .ok a0
  else if a1 = .empty then .ok a1
  else do
    let v0 ← castNum a0
    let v1 ← castNum a1
    .ok (if v0 < v1 then t else e)

/-- real::ifb::eval (five arguments). -/
def ifbEval (a0 a1 a2 t e : AnyVal) : Except Unit AnyVal :=
  if a0 = .empty then .ok a0
  else if a1 = .empty then .ok a1
  else if a2 = .empty then .ok a2
  else do
    let v0 ← castNum a0
    let v1 ← castNum a1
    let v2 ← castNum a2
    .ok (if min v1 v2 ≤ v0 ∧ v0 ≤ max v1 v2 then t else e)

/-- real::length::eval: propagate empty, else the string length. -/
def lengthEval (a : AnyVal) : Except Unit AnyVal :=
  if a = .empty then .ok a
  else do
    let s ← castStr a
    .ok (.num s.length)

/-- real::ln::eval (lines 396-417): propagate an empty argument; the
transcendental value std::log is abstracted as the parameter f, and the
isfinite guard on the result fires exactly when the argument is ≤ 0
(log of zero is -inf, log of a negative is NaN), recovered as the
undefined value. -/
def lnEval (f : ℚ → ℚ) (a : AnyVal) : Except Unit AnyVal :=
  if a = .empty then .ok a
  else do
    let v ← castNum a
    if v ≤ 0 then .ok .empty else .ok (.num (f v))

/-- real::sin::eval (lines 519-532): propagate an empty argument; the
sine value is abstracted as the parameter f (finite on every finite
argument, so the source carries no recovery guard). -/
def sinEval (f : ℚ → ℚ) (a : AnyVal) : Except Unit AnyVal :=
  if a = .empty then .ok a
  else do
    let v ← castNum a
    .ok (.num (f v))

/-- real::sqrt::eval (lines 537-554): propagate an empty argument; a
negative argument is recovered as the undefined value via the isless
guard before the root is taken; the square-root value on nonnegative
arguments is abstracted as the parameter f. -/
def sqrtEval (f : ℚ → ℚ) (a : AnyVal) : Except Unit AnyVal :=
  if a = .empty then .ok a
  else do
    let v ← castNum a
    if v < 0 then .ok .empty else .ok (.num (f v))

/-! ### Fitness cache (src/kernel/cache.h / src/kernel/ttable.h)

The headers declare the direct-mapped cache (slot = signature, fitness,
seal; probe and hit counters); the implementation file cache.cc is not
among the sources, so the operations are modelled from the spec:
find(signature) returns the optional fitness, incrementing the probe
count and, on hit, the hit count; insert(signature, fitness) stores into
slot hash mod table_size overwriting on collision; a seal stamped at
each table-wide clear lets entries be treated as absent; clear(signature)
invalidates the single colliding slot. -/

/-- hash_t (src/kernel/ttable.h): two 64 bit halves; all-zero means
empty.  The word width plays no role in the cache model. -/
abbrev Hash128 := Nat × Nat

/-- One slot of the direct-mapped table. -/
structure CacheSlot where
  hash : Hash128
  fitness : List ℚ
  seal_ : Nat
deriving DecidableEq, Repr

/-- The fitness cache: the slot table, the current seal, the probe and
hit counters. -/
structure Cache where
  table : List CacheSlot
  seal_ : Nat
  probes : Nat
  hits : Nat
deriving DecidableEq, Repr

/-- Modelled from the spec: cache::cache(bits) - a table of 2^bits
slots, none of which is live (slot seal 0 differs from the current
seal 1), with zeroed statistics. -/
def mkCache (bits : Nat) : Cache :=
  ⟨List.replicate (2 ^ bits) ⟨(0, 0), [], 0⟩, 1, 0, 0⟩

/-- Modelled from the spec: cache::index - slot hash mod table_size. -/
def Cache.index (c : Cache) (h : Hash128) : Nat := h.1 % c.table.length

/-- Modelled from the spec: cache::insert - store (signature, fitness)
into the colliding slot, stamped with the current seal. -/
def Cache.insert (c : Cache) (h : Hash128) (f : List ℚ) : Cache :=
  { c with table := c.table.set (c.index h) ⟨h, f, c.seal_⟩ }

/-- Modelled from the spec: cache::find - every call counts one probe;
the slot is a hit when its seal is current and its signature matches, in
which case the hit counter also advances and the stored fitness is
returned. -/
def Cache.find (c : Cache) (h : Hash128) : Option (List ℚ) × Cache :=
  let s := c.table.getD (c.index h) ⟨(0, 0), [], 0⟩
  if s.seal_ = c.seal_ ∧ s.hash = h then
    (some s.fitness, { c with probes := c.probes + 1, hits := c.hits + 1 })
  else (none, { c with probes := c.probes + 1 })

/-- Modelled from the spec: cache::clear() - advance the seal so every
entry is treated as absent without zeroing the table. -/
def Cache.clearAll (c : Cache) : Cache := { c with seal_ := c.seal_ + 1 }

/-- Modelled from the spec: cache::clear(signature) - invalidate the
single colliding slot. -/
def Cache.clearSig (c : Cache) (h : Hash128) : Cache :=
  { c with table := c.table.set (c.index h) ⟨(0, 0), [], 0⟩ }

/-- Cache states reachable from a fresh cache by any sequence of the
public operations. -/
inductive CacheReach : Cache → Prop where
  | fresh (bits : Nat) : CacheReach (mkCache bits)
  | ins {c : Cache} (h : Hash128) (f : List ℚ) :
      CacheReach c → CacheReach (c.insert h f)
  | fnd {c : Cache} (h : Hash128) : CacheReach c → CacheReach (c.find h).2
  | clr {c : Cache} : CacheReach c → CacheReach c.clearAll
  | clrS {c : Cache} (h : Hash128) : CacheReach c → CacheReach (c.clearSig h)

/-! ### Differential evolution individual (src/kernel/ga/i_de.cc) -/

/-- One gene of an i_de genome: a (terminal) symbol and its parameter
(the numeric value of the parameter vector). -/
structure DeGene where
  sym : Symbol
  par : ℚ
deriving DecidableEq, Repr

/-- i_de: the per-category genome and the cached signature (hash_t;
none models the empty signature). -/
structure IDe where
  genome : List DeGene
  signature : Option Hash128
deriving DecidableEq, Repr

/-- i_de::pack: per gene the 16 bit opcode followed by the parameter
(byte granularity is irrelevant to the claims; the stream keeps the
opcode and a token of the parameter). -/
def packDe (g : List DeGene) : List Nat :=
  g.foldr (fun d acc => (d.sym.opcode % 2 ^ 16) :: (d.par.num.natAbs + d.par.den) :: acc) []

/-- Modelled from the spec: the 128 bit MurmurHash3 of the packed byte
stream (cache_hash.h is not among the sources); abstracted as a concrete
accumulating hash of the packed stream, which is all the claims consult. -/
def hashDe (g : List DeGene) : Hash128 :=
  (packDe g).foldl (fun acc b => (acc.1 * 31 + b + 1, acc.2 * 13 + b + 7)) (1973, 0)

/-- Modelled from the spec: symbol_set::roulette_terminal(c) draws a
weighted random terminal of category c; the draw is resolved by the
oracle index into the category's terminal view. -/
def rouletteTerminal (sset : List Symbol) (c : Nat) (d : GeneDraw) : DeGene :=
  let pool := sset.filter fun s => s.terminal && (s.category == c)
  let s :=
    if h : pool.length = 0 then nullSymbol
    else pool.get ⟨d.symIdx % pool.length, Nat.mod_lt _ (Nat.pos_of_ne_zero h)⟩
  ⟨s, (d.parSeed : ℚ)⟩

/-- i_de::mutation(p, env) (src/kernel/ga/i_de.cc lines 79-112): for
each parameter, when the coin fires draw a fresh terminal of the same
category and count and store it only when it differs from the current
gene; when anything changed the signature is set to the recomputed hash
of the new genome. -/
def deMutGo (e : Env) (p : ℚ) (coins : List ℚ) (draws : List GeneDraw) :
    Nat → Nat → Nat × List DeGene → Nat × List DeGene
  | 0, _, acc => acc
  | n + 1, c, acc =>
    let acc' :=
      if coinFires p (coins.getD c 1) then
        let g := rouletteTerminal e.sset c (draws.getD c default)
        if g ≠ acc.2.getD c ⟨nullSymbol, 0⟩ then (acc.1 + 1, acc.2.set c g)
        else acc
      else acc
    deMutGo e p coins draws n (c + 1) acc'

/-- i_de::mutation(p, env) (src/kernel/ga/i_de.cc lines 79-112), split
so the per-parameter loop recurses explicitly. -/
def IDe.mutation (e : Env) (x : IDe) (p : ℚ) (coins : List ℚ)
    (draws : List GeneDraw) : Nat × IDe :=
  let ps := x.genome.length
  let r := deMutGo e p coins draws ps 0 (0, x.genome)
  if r.1 ≠ 0 then (r.1, ⟨r.2, some (hashDe r.2)⟩)
  else (r.1, ⟨r.2, x.signature⟩)

/-! ### Persistence: load operations (kernel/population_inl.h,
src/kernel/evaluator_proxy.tcc, src/kernel/ga/i_de.cc)

An input stream is modelled as a list of integer tokens; a formatted
read (in >> x) takes the next token or fails at end of stream. -/

/-- A formatted stream read. -/
def readTok : List Int → Option (Int × List Int)
  | [] => none
  | t :: rest => some (t, rest)

/-- A formatted read of an unsigned quantity: fails on a negative
token. -/
def readNatTok (s : List Int) : Option (Nat × List Int) :=
  match readTok s with
  | none => none
  | some (t, rest) => if t < 0 then none else some (t.toNat, rest)

/-- symbol_set::decode(opcode): linear scan of the catalog (nullable
result). -/
def decodeSym (sset : List Symbol) (op : Nat) : Option Symbol :=
  sset.find? fun s => s.opcode == op

/-- i_de::load_impl (src/kernel/ga/i_de.cc lines 364-391): read the
size, then per gene an opcode (which must decode) and a parameter; the
genome is replaced only after everything was read, so a failed load
leaves the individual unchanged. -/
def ideLoad (e : Env) (s : List Int) (x : IDe) : Option (IDe × List Int) :=
  match readNatTok s with
  | none => none
  | some (sz, s1) =>
    let rec go : Nat → List Int → List DeGene → Option (List DeGene × List Int)
      | 0, str, acc => some (acc, str)
      | n + 1, str, acc =>
        match readNatTok str with
        | none => none
        | some (op, str1) =>
          match decodeSym e.sset op with
          | none => none
          | some sym =>
            match readTok str1 with
            | none => none
            | some (p, str2) => go n str2 (acc ++ [⟨sym, (p : ℚ)⟩])
    match go sz s1 [] with
    | none => none
    | some (v, s2) => some (⟨v, x.signature⟩, s2)

/-- Outcome of a load: success with the new value, failure (the C++
method returns false leaving the receiver as it was), or an aborted run
(an assertion such as the coordinate bound of population::operator[]
fails). -/
inductive LoadOut (α : Type) where
  | ok : α → LoadOut α
  | failed : LoadOut α
  | abort : LoadOut α
deriving DecidableEq, Repr

/-- The population: the age layers (population_inl.h). -/
structure PopModel where
  layers : List (List IDe)
deriving DecidableEq, Repr

/-- The inner element loop of population::load: load stream data into
the elements 0..nElem-1 of layer l of the working population, aborting
when the coordinate check of operator[] fails. -/
def popLoadElems (e : Env) (l : Nat) :
    Nat → Nat → PopModel → List Int → LoadOut (PopModel × List Int)
  | 0, _, p, s => .ok (p, s)
  | n + 1, i, p, s =>
    match p.layers.getD l [] with
    | layer =>
      if l < p.layers.length ∧ i < layer.length then
        match ideLoad e s (layer.getD i ⟨[], none⟩) with
        | none => .failed
        | some (x, s') =>
          popLoadElems e l n (i + 1)
            ⟨p.layers.set l (layer.set i x)⟩ s'
      else .abort

/-- The layer loop of population::load. -/
def popLoadLayers (e : Env) :
    Nat → Nat → PopModel → List Int → LoadOut (PopModel × List Int)
  | 0, _, p, s => .ok (p, s)
  | n + 1, l, p, s =>
    match readNatTok s with
    | none => .failed
    | some (nElem, s1) =>
      match popLoadElems e l nElem 0 p s1 with
      | .ok (p', s2) => popLoadLayers e n (l + 1) p' s2
      | .failed => .failed
      | .abort => .abort

/-- population::load (kernel/population_inl.h lines 244-267): read the
layer count, build a fresh working population (population p(env(),
sset) - the randomly generated temporary, supplied here as an oracle
argument), load every element into it and only then assign it to the
receiver; any read failure reports false with the receiver untouched.
The result pairs the C++ return value with the receiver's final value. -/
def popLoad (e : Env) (fresh : PopModel) (s : List Int) (p : PopModel) :
    LoadOut (Bool × PopModel) :=
  match readNatTok s with
  | none => .ok (false, p)
  | some (nLayers, s1) =>
    match popLoadLayers e nLayers 0 fresh s1 with
    | .ok (p', _) => .ok (true, p')
    | .failed => .ok (false, p)
    | .abort => .abort

/-- evaluator_proxy::load (src/kernel/evaluator_proxy.tcc lines
113-122): eva_.load(in) && cache_.load(in) - the component loads run in
sequence on the same stream with short-circuiting, each free to modify
its component state even when it fails (the source warns that on failure
the object "COULD BE changed").  The component loaders are the template
parameter E's load and cache::load (cache.cc missing), kept abstract. -/
def proxyLoad {A B : Type}
    (evaLoad : List Int → A → Bool × A × List Int)
    (cacheLoad : List Int → B → Bool × B × List Int)
    (s : List Int) (eva : A) (cch : B) : Bool × A × B :=
  let r1 := evaLoad s eva
  if r1.1 then
    let r2 := cacheLoad r1.2.2 cch
    (r2.1, r1.2.1, r2.2.1)
  else (false, r1.2.1, cch)

/-- A concrete instantiation of the evaluator component for the
counterexample: the state is one calibration constant and load reads
and assigns it (the read-then-assign shape of the loaders in this
repository, e.g. src/kernel/ga/i_de.cc load_impl). -/
def evaLoadConst (s : List Int) (st : Int) : Bool × Int × List Int :=
  match readTok s with
  | none => (false, st, s)
  | some (t, rest) => (true, t, rest)

/-- Modelled from the spec: cache::load (cache.cc is not among the
sources) - reading the statistics from the stream fails on a truncated
stream, leaving the cache state as it was. -/
def cacheLoadTrunc (s : List Int) (st : Int × Int) :
    Bool × (Int × Int) × List Int :=
  match readTok s with
  | none => (false, st, s)
  | some (t1, rest) =>
    match readTok rest with
    | none => (false, st, rest)
    | some (t2, rest2) => (true, (t1, t2), rest2)

/-! ### Persisted genome byte stream (kernel/individual.cc pack/unpack)

individual::pack serializes the active code rooted at a locus: the
opcode (16 bit little endian, as the spec's persisted format states;
the width type vita.h is not among the sources), then, only if the
symbol is parametric, its parameter (a 32 bit int, little endian two's
complement), else the packed arguments in locus order.
individual::unpack rebuilds genes by push_back, pointing each argument
slot at the next free row before recursing. -/

/-- Two byte little endian opcode. -/
def encOp (op : Nat) : List Nat := [op % 256, op / 256 % 256]

/-- Reads a two byte little endian opcode. -/
def decOp (b0 b1 : Nat) : Nat := b0 % 256 + 256 * (b1 % 256)

/-- Four byte little endian two's complement parameter. -/
def encPar (p : Int) : List Nat :=
  let u := (p % (2 ^ 32 : Nat)).toNat
  [u % 256, u / 2 ^ 8 % 256, u / 2 ^ 16 % 256, u / 2 ^ 24 % 256]

/-- Reads a four byte little endian two's complement parameter. -/
def decPar (b0 b1 b2 b3 : Nat) : Int :=
  let u : Nat := b0 % 256 + 2 ^ 8 * (b1 % 256) + 2 ^ 16 * (b2 % 256) +
    2 ^ 24 * (b3 % 256)
  if u < 2 ^ 31 then (u : Int) else (u : Int) - 2 ^ 32

/-- The serial concatenation of the packed arguments (the recursive
argument loop of individual::pack). -/
def packArgs (pf : Nat → Option (List Nat)) : List Nat → Option (List Nat)
  | [] => some []
  | a :: rest =>
    match pf a, packArgs pf rest with
    | some l1, some l2 => some (l1 ++ l2)
    | _, _ => none

/-- individual::pack (lines 568-588) from a locus: opcode bytes, then
the parameter bytes for a parametric symbol, else the packed arguments
in locus order.  The fuel bounds the recursion depth (at most one level
per row on a forward genome); none models a non-terminating recursion. -/
def packFrom (x : Individual) : Nat → Nat → Option (List Nat)
  | 0, _ => none
  | fuel + 1, idx =>
    let g := x.gene idx
    if g.sym.parametric then some (encOp g.sym.opcode ++ encPar g.par)
    else
      (packArgs (packFrom x fuel) g.argsUsed).map (encOp g.sym.opcode ++ ·)

/-- The packed byte stream of the active code (pack from the root). -/
def Individual.pack (x : Individual) : Option (List Nat) :=
  packFrom x (x.size + 1) x.best

/-- Writes argument slot j of the gene at row base (the assignment
_code[base].args[i] = size() in unpack). -/
def setArgAt (code : List Gene) (base j a : Nat) : List Gene :=
  let g := code.getD base defaultGene
  code.set base { g with args := g.args.set j a }

/-- The argument loop of individual::unpack: for each remaining
argument slot (n of them, next slot index j), point the slot of the gene
at row base to the next free row and unpack the child there; up is the
recursive unpack at the current fuel, consumed accumulates the bytes
read. -/
def unpackArgs (up : Nat → List Gene → Option (Nat × List Gene))
    (base idx : Nat) : Nat → Nat → Nat → List Gene → Option (Nat × List Gene)
  | 0, _, consumed, code1 => some (consumed, code1)
  | n + 1, j, consumed, code1 =>
    match up (idx + consumed) (setArgAt code1 base j code1.length) with
    | none => none
    | some r => unpackArgs up base idx n (j + 1) (consumed + r.1) r.2

/-- individual::unpack (lines 595-622): read and decode the opcode
(failure when the catalog cannot decode it; C++ would dereference a null
symbol), read the parameter when parametric, push the gene, then point
each argument slot at the next free row and recurse.  Returns the bytes
consumed and the grown gene buffer; none also covers a truncated
stream. -/
def unpackFrom (sset : List Symbol) :
    Nat → List Nat → Nat → List Gene → Option (Nat × List Gene)
  | 0, _, _, _ => none
  | fuel + 1, packed, idx, code =>
    if idx + 2 ≤ packed.length then
      let op := decOp (packed.getD idx 0) (packed.getD (idx + 1) 0)
      match decodeSym sset op with
      | none => none
      | some s =>
        let header : Option (Nat × Gene) :=
          if s.parametric then
            if idx + 6 ≤ packed.length then
              some (6, ⟨s, decPar (packed.getD (idx + 2) 0)
                (packed.getD (idx + 3) 0) (packed.getD (idx + 4) 0)
                (packed.getD (idx + 5) 0), mkArgs []⟩)
            else none
          else some (2, ⟨s, 0, mkArgs []⟩)
        match header with
        | none => none
        | some (hdr, g) =>
          unpackArgs (unpackFrom sset fuel packed) code.length idx
            s.arity 0 hdr (code ++ [g])
    else none

/-- Unpacking a whole byte stream into a fresh individual (root 0). -/
def unpackAll (sset : List Symbol) (packed : List Nat) : Option Individual :=
  match unpackFrom sset (packed.length + 1) packed 0 [] with
  | none => none
  | some r => some ⟨0, r.2⟩

/-! ### Abstract program trees

The packed byte stream is a tree serialization: these trees mediate the
round-trip proof between pack and unpack. -/

/-- The abstract tree the byte stream serializes: a symbol, its
parameter (0 for non-parametric symbols) and the subtrees in argument
order (empty for parametric symbols, whose pack emits no arguments). -/
inductive PTree where
  | node : Symbol → Int → List PTree → PTree

mutual
/-- Serialization of a tree, matching the byte layout of pack. -/
def serT : PTree → List Nat
  | .node s p c => encOp s.opcode ++ (if s.parametric then encPar p else serL c)

/-- Serialization of a list of sibling trees. -/
def serL : List PTree → List Nat
  | [] => []
  | t :: ts => serT t ++ serL ts
end

mutual
/-- Number of nodes of a tree. -/
def nodesT : PTree → Nat
  | .node _ _ c => 1 + nodesL c

/-- Total number of nodes of a list of trees. -/
def nodesL : List PTree → Nat
  | [] => 0
  | t :: ts => nodesT t + nodesL ts
end

mutual
/-- Wellformedness of a tree over a catalog: the symbol decodes back to
itself, its opcode fits 16 bits, its arity fits the argument array, a
parametric symbol is a terminal whose parameter fits a 32 bit int, and a
non-parametric node has exactly arity children, all wellformed. -/
def wfT (sset : List Symbol) : PTree → Bool
  | .node s p c =>
    (decodeSym sset s.opcode == some s) &&
    decide (s.opcode < 2 ^ 16) &&
    decide (s.arity ≤ geneArgsCap) &&
    (if s.parametric then
      decide (s.arity = 0) && c.isEmpty &&
      decide (-(2 ^ 31 : Int) ≤ p) && decide (p < 2 ^ 31)
    else decide (c.length = s.arity) && decide (p = 0)) &&
    wfL sset c

/-- Wellformedness of a list of trees. -/
def wfL (sset : List Symbol) : List PTree → Bool
  | [] => true
  | t :: ts => wfT sset t && wfL sset ts
end

/-- Sequences the trees of a list of argument loci. -/
def treeOfChildren (tf : Nat → Option PTree) : List Nat → Option (List PTree)
  | [] => some []
  | a :: rest =>
    match tf a, treeOfChildren tf rest with
    | some t, some ts => some (t :: ts)
    | _, _ => none

/-- The abstract tree rooted at a locus of a genome (the same unfolding
pack performs; the fuel bounds the depth). -/
def treeOf (x : Individual) : Nat → Nat → Option PTree
  | 0, _ => none
  | fuel + 1, idx =>
    let g := x.gene idx
    if g.sym.parametric then some (.node g.sym g.par [])
    else (treeOfChildren (treeOf x fuel) g.argsUsed).map (.node g.sym 0)

/-- The per-row side conditions the round trip needs: every gene's
symbol decodes back to itself from the catalog (opcodes are unique dense
keys), opcodes fit the 16 bit stream slot, arity fits the argument
array, and parametric symbols are terminals with a 32 bit parameter. -/
def genesWfB (sset : List Symbol) (x : Individual) : Bool :=
  (List.range x.size).all fun i =>
    let g := x.gene i
    (decodeSym sset g.sym.opcode == some g.sym) &&
    decide (g.sym.opcode < 2 ^ 16) &&
    decide (g.sym.arity ≤ geneArgsCap) &&
    decide (g.sym.arity ≤ g.args.length) &&
    (!g.sym.parametric ||
      (decide (g.sym.arity = 0) && decide (-(2 ^ 31 : Int) ≤ g.par) &&
       decide (g.par < 2 ^ 31)))

/-- Modelled from the spec: the individual's signature (the signature
method and the MurmurHash3 implementation are not among the sources) -
the 128 bit hash of the packed byte representation of the canonicalized
active code.  Canonicalization relabels loci, merges duplicate terminals
and inlines subroutines without altering the abstract program tree, and
pack serializes exactly that tree, so the packed form of the canonical
code is the packed form of the active code itself; the signature is
therefore modelled as a hash of the packed active code. -/
def signatureOf (x : Individual) : Option Hash128 :=
  (x.pack).map fun p =>
    p.foldl (fun acc b => (acc.1 * 31 + b + 1, acc.2 * 13 + b + 7)) (1973, 0)

/-! ### Concrete instances used in the evaluations below -/

/-- A two argument non-parametric function symbol (FADD). -/
def exAdd : Symbol := ⟨1, 0, 2, false, .plain⟩

/-- A non-parametric input terminal (X1). -/
def exX : Symbol := ⟨2, 0, 0, false, .plain⟩

/-- Another non-parametric input terminal (X2). -/
def exY : Symbol := ⟨3, 0, 0, false, .plain⟩

/-- A parametric ephemeral constant terminal (REAL). -/
def exC : Symbol := ⟨4, 0, 0, true, .plain⟩

/-- Environment with a three row genome over {FADD, X1}. -/
def envAX : Env := ⟨3, [exAdd, exX], [], 0⟩

/-- Environment like envAX with mutation probability 1. -/
def envAX1 : Env := ⟨3, [exAdd, exX], [], 1⟩

/-- Environment with catalog {FADD, X1, X2, REAL}. -/
def envAXYC : Env := ⟨3, [exAdd, exX, exY, exC], [], 0⟩

/-- The genome [FADD(1,2) | X1 | X1] (root 0): valid, with a duplicated
active terminal, so its canonical form has a nonzero root. -/
def xDup : Individual :=
  ⟨0, [⟨exAdd, 0, mkArgs [1, 2]⟩, ⟨exX, 0, mkArgs []⟩, ⟨exX, 0, mkArgs []⟩]⟩

/-- The genome [FADD(1,2) | REAL(-7) | X1] (root 0): all three rows
active and distinct. -/
def xMix : Individual :=
  ⟨0, [⟨exAdd, 0, mkArgs [1, 2]⟩, ⟨exC, -7, mkArgs []⟩, ⟨exX, 0, mkArgs []⟩]⟩

/-- A one row genome holding the terminal X1. -/
def xOne : Individual := ⟨0, [⟨exX, 0, mkArgs []⟩]⟩

/-- Environment for the one row genome. -/
def envOne : Env := ⟨1, [exX], [], 1⟩

/-- A parametric terminal of category 0 for the i_de examples. -/
def exC0 : Symbol := ⟨5, 0, 0, true, .plain⟩

/-- Environment whose catalog is the single parametric terminal. -/
def envDe : Env := ⟨1, [exC0], [], 0⟩

/-- A one parameter i_de individual with value 5 and empty signature. -/
def ideOne : IDe := ⟨[⟨exC0, 5⟩], none⟩

/-- A degenerate value semantics (every function and terminal yields the
undefined value), usable to instantiate the interpreter concretely. -/
def constF : Symbol → List AnyVal → AnyVal := fun _ _ => AnyVal.empty

/-- Degenerate terminal semantics. -/
def constT : Symbol → AnyVal := fun _ => AnyVal.empty

/-- The repack property of an unpacked block: any gene buffer that
agrees with the block at its position packs back to the tree's
serialization. -/
def repackOK (t : PTree) (pos : Nat) (blk : List Gene) : Prop :=
  ∀ code2 fuelP, nodesT t < fuelP →
    (∀ k, k < nodesT t →
      code2.getD (pos + k) defaultGene = blk.getD k defaultGene) →
    packFrom ⟨0, code2⟩ fuelP pos = some (serT t)

/-- The unpack specification of a tree: fed a byte window holding the
tree's serialization, unpackFrom consumes exactly that serialization,
appends a block of exactly the tree's node count to the gene buffer, and
the block repacks to the same bytes. -/
def unpOK (sset : List Symbol) (t : PTree) : Prop :=
  ∀ packed fuel idx code,
    nodesT t < fuel →
    idx + (serT t).length ≤ packed.length →
    (∀ k, k < (serT t).length → packed.getD (idx + k) 0 = (serT t).getD k 0) →
    ∃ blk,
      unpackFrom sset fuel packed idx code = some ((serT t).length, code ++ blk) ∧
      blk.length = nodesT t ∧ repackOK t code.length blk ∧
      (∀ q, q < blk.length → ∀ a ∈ (blk.getD q defaultGene).argsUsed,
        code.length + q < a ∧ a < code.length + blk.length)

/-- Position of a value in a list (none when absent); used to express
the relabelling compact performs on the active loci. -/
def posIn : List Nat → Nat → Option Nat
  | [], _ => none
  | b :: rest, a => if a = b then some 0 else (posIn rest a).map (· + 1)

/-- The relabelling map after the first k visited loci have been
rewritten: an active locus at position j below k goes to j, anything
else is unchanged. -/
def phiC (order : List Nat) (k : Nat) (a : Nat) : Nat :=
  match posIn order a with
  | some j => if j < k then j else a
  | none => a

/-- One step of the compact fold: write the visited gene to the next
free row and retarget references of the rows already written. -/
def compactStep (x : Individual) : Individual → Nat × Nat → Individual :=
  fun d p =>
    let newLine := p.1
    let oldLine := p.2
    let d1 := d.setGene newLine (x.gene oldLine)
    { d1 with code := retargetBelow newLine oldLine newLine d1.code }

/-- Per-gene structural side conditions used by the canonicalization
proofs: arity within the fixed argument array, parametric symbols are
terminals and no ADF references. -/
def GeneOk (g : Gene) : Prop :=
  g.sym.arity ≤ geneArgsCap ∧ g.sym.arity ≤ g.args.length ∧
  (g.sym.parametric = true → g.sym.arity = 0) ∧
  (∀ id, g.sym.kind ≠ SymKind.adfRef id)

/-- The invariant of the optimized active block: every row up to the
last terminal is structurally sound and refers only forward and inside
the block. -/
def RowOk (code : List Gene) (lastT : Nat) : Prop :=
  ∀ i, i ≤ lastT → GeneOk (code.getD i defaultGene) ∧
    (∀ a ∈ (code.getD i defaultGene).argsUsed, i < a ∧ a ≤ lastT)

/-- Genome wide structural side conditions (decidable form of GeneOk
for every row). -/
def genesOkB (x : Individual) : Bool :=
  (List.range x.size).all fun i =>
    decide ((x.gene i).sym.arity ≤ geneArgsCap) &&
    decide ((x.gene i).sym.arity ≤ (x.gene i).args.length) &&
    (!(x.gene i).sym.parametric || decide ((x.gene i).sym.arity = 0)) &&
    (match (x.gene i).sym.kind with
     | SymKind.adfRef _ => false
     | _ => true)

/-! ## Theorems -/

/-- C2: canonicalization (compact, then optimize, then normalize - the
chain run by individual::normalize) is claimed idempotent; evaluating the
code at the genome [FADD(1,2) | X1 | X1] shows the claim fails: the
genome is valid, its canonical form exists, but canonicalizing the
canonical form again yields a different individual (the relabelling pass
leaves _best unchanged while writing the active rows from row 0, so the
second pass drops the root and, on the way, violates the source's own
assertion source._best < last_terminal in normalize). -/
theorem C2_canon_second_pass_changes_canonical_form :
    xDup.check envAX = true ∧
    (canon envAX xDup).isSome = true ∧
    (canon envAX xDup).bind (canon envAX) ≠ canon envAX xDup := by
  refine ⟨by decide, by decide, by decide⟩

/-- C4: inserting a signature with a fitness and immediately finding the
same signature (no intervening insert or clear) succeeds and returns
that fitness, and the insert stored the entry into the slot at index
hash mod table_size, overwriting whatever was there. -/
theorem C4_cache_insert_then_find (c : Cache) (h : Hash128) (f : List ℚ)
    (hpos : 0 < c.table.length) :
    ((c.insert h f).find h).1 = some f ∧
    (c.insert h f).table.getD (c.index h) ⟨(0, 0), [], 0⟩ = ⟨h, f, c.seal_⟩ := by
  have hidx : c.index h < c.table.length := Nat.mod_lt _ hpos
  have hslot : (c.insert h f).table.getD (c.index h) ⟨(0, 0), [], 0⟩ =
      (⟨h, f, c.seal_⟩ : CacheSlot) := by
    unfold Cache.insert
    simp [List.getD, List.getElem?_set, hidx]
  refine ⟨?_, hslot⟩
  unfold Cache.find
  have hieq : (c.insert h f).index h = c.index h := by
    unfold Cache.index Cache.insert
    simp [List.length_set]
  rw [hieq, hslot]
  simp [Cache.insert]

/-- Witness for C4 at a concrete cache, signature and fitness. -/
theorem C4_cache_insert_then_find_witness :
    (((mkCache 7).insert (3, 4) [2]).find (3, 4)).1 = some [2] ∧
    ((mkCache 7).insert (3, 4) [2]).table.getD ((mkCache 7).index (3, 4))
      ⟨(0, 0), [], 0⟩ = ⟨(3, 4), [2], (mkCache 7).seal_⟩ :=
  C4_cache_insert_then_find (mkCache 7) (3, 4) [2] (by simp [mkCache])

/-- One find step preserves the statistics invariant: the probe counter
advances by one and the hit counter by at most one. -/
theorem cache_find_step (c : Cache) (h : Hash128) (hle : c.hits ≤ c.probes) :
    (c.find h).2.hits ≤ (c.find h).2.probes := by
  unfold Cache.find
  by_cases hc : ((c.table.getD (c.index h) ⟨(0, 0), [], 0⟩).seal_ = c.seal_ ∧
      (c.table.getD (c.index h) ⟨(0, 0), [], 0⟩).hash = h)
  · rw [if_pos hc]
    exact Nat.succ_le_succ hle
  · rw [if_neg hc]
    exact Nat.le_succ_of_le hle

/-- C10: on every cache state reachable from a fresh cache by any
sequence of insert, find and clear operations, the hit counter never
exceeds the probe counter (find counts one probe per call and at most
one hit; no other operation touches the counters). -/
theorem C10_cache_hits_le_probes (c : Cache) (hr : CacheReach c) :
    c.hits ≤ c.probes := by
  induction hr with
  | fresh bits => simp [mkCache]
  | ins h f _ ih => simpa [Cache.insert] using ih
  | fnd h _ ih => exact cache_find_step _ h ih
  | clr _ ih => simpa [Cache.clearAll] using ih
  | clrS h _ ih => simpa [Cache.clearSig] using ih

/-- Witness for C10 on a concrete reachable cache state. -/
theorem C10_cache_hits_le_probes_witness :
    CacheReach ((mkCache 7).insert (3, 4) [2]).clearAll ∧
    ((mkCache 7).insert (3, 4) [2]).clearAll.hits ≤
      ((mkCache 7).insert (3, 4) [2]).clearAll.probes :=
  ⟨CacheReach.clr (CacheReach.ins (3, 4) [2] (CacheReach.fresh 7)),
   C10_cache_hits_le_probes _
     (CacheReach.clr (CacheReach.ins (3, 4) [2] (CacheReach.fresh 7)))⟩

/-- C5 counterexample: the comparison primitives cast their arguments
with any_cast before any empty test, so an undefined argument makes
real::gt::eval and real::lt::eval throw bad_any_cast (a fault) instead
of propagating the undefined value as the claim states for every
primitive. -/
theorem C5_gt_lt_fault_on_empty_argument :
    gtEval .empty (.num 0) = .error () ∧ ltEval .empty (.num 0) = .error () := by
  refine ⟨rfl, rfl⟩

/-- C5 (amended): every real primitive except the comparison operators
gt and lt propagates an undefined argument as undefined - including
every empty position of the multi-argument conditionals ife, ifl, ifb
and the unary transcendentals ln, sin, sqrt; the domain and range
errors are recovered locally by returning undefined (a zero divisor for
div/idiv/mod, a nonpositive argument for ln, a negative argument for
sqrt); and on well-typed numeric inputs the primitives never raise an
error (sin is total on numeric arguments). -/
theorem C5_primitives_closure_amended :
    (∀ a1, addEval .empty a1 = .ok .empty) ∧
    (∀ v0 : ℚ, addEval (.num v0) .empty = .ok .empty) ∧
    (∀ a1, subEval .empty a1 = .ok .empty) ∧
    (∀ v0 : ℚ, subEval (.num v0) .empty = .ok .empty) ∧
    (∀ a1, mulEval .empty a1 = .ok .empty) ∧
    (∀ v0 : ℚ, mulEval (.num v0) .empty = .ok .empty) ∧
    (∀ a1, divEval .empty a1 = .ok .empty) ∧
    (∀ v0 : ℚ, divEval (.num v0) .empty = .ok .empty) ∧
    (∀ a1, idivEval .empty a1 = .ok .empty) ∧
    (∀ v0 : ℚ, idivEval (.num v0) .empty = .ok .empty) ∧
    (∀ a1, modEval .empty a1 = .ok .empty) ∧
    (∀ v0 : ℚ, modEval (.num v0) .empty = .ok .empty) ∧
    (∀ a1, maxEval .empty a1 = .ok .empty) ∧
    (∀ v0 : ℚ, maxEval (.num v0) .empty = .ok .empty) ∧
    absEval .empty = .ok .empty ∧
    lengthEval .empty = .ok .empty ∧
    (∀ t e, ifzEval .empty t e = .ok .empty) ∧
    (∀ a1 t e, ifeEval .empty a1 t e = .ok .empty) ∧
    (∀ v0 : ℚ, ∀ t e, ifeEval (.num v0) .empty t e = .ok .empty) ∧
    (∀ a1 t e, iflEval .empty a1 t e = .ok .empty) ∧
    (∀ v0 : ℚ, ∀ t e, iflEval (.num v0) .empty t e = .ok .empty) ∧
    (∀ a1 a2 t e, ifbEval .empty a1 a2 t e = .ok .empty) ∧
    (∀ v0 : ℚ, ∀ a2 t e, ifbEval (.num v0) .empty a2 t e = .ok .empty) ∧
    (∀ v0 v1 : ℚ, ∀ t e, ifbEval (.num v0) (.num v1) .empty t e = .ok .empty) ∧
    (∀ f : ℚ → ℚ, lnEval f .empty = .ok .empty) ∧
    (∀ f : ℚ → ℚ, sinEval f .empty = .ok .empty) ∧
    (∀ f : ℚ → ℚ, sqrtEval f .empty = .ok .empty) ∧
    (∀ f : ℚ → ℚ, ∀ v0 : ℚ,
      lnEval f (.num v0) =
        if v0 ≤ 0 then .ok .empty else .ok (.num (f v0))) ∧
    (∀ f : ℚ → ℚ, ∀ v0 : ℚ, sinEval f (.num v0) = .ok (.num (f v0))) ∧
    (∀ f : ℚ → ℚ, ∀ v0 : ℚ,
      sqrtEval f (.num v0) =
        if v0 < 0 then .ok .empty else .ok (.num (f v0))) ∧
    (∀ v0 : ℚ, divEval (.num v0) (.num 0) = .ok .empty) ∧
    (∀ v0 : ℚ, idivEval (.num v0) (.num 0) = .ok .empty) ∧
    (∀ v0 : ℚ, modEval (.num v0) (.num 0) = .ok .empty) ∧
    (∀ v0 v1 : ℚ, (divEval (.num v0) (.num v1)).isOk = true) ∧
    (∀ v0 v1 : ℚ, (addEval (.num v0) (.num v1)).isOk = true) ∧
    (∀ v0 v1 : ℚ, (modEval (.num v0) (.num v1)).isOk = true) := by
  refine ⟨fun a1 => rfl, fun v0 => rfl, fun a1 => rfl, fun v0 => rfl,
    fun a1 => rfl, fun v0 => rfl, fun a1 => rfl, fun v0 => rfl,
    fun a1 => rfl, fun v0 => rfl, fun a1 => rfl, fun v0 => rfl,
    fun a1 => rfl, fun v0 => rfl, rfl, rfl,
    fun t e => rfl, fun a1 t e => rfl, fun v0 t e => rfl,
    fun a1 t e => rfl, fun v0 t e => rfl, fun a1 a2 t e => rfl,
    fun v0 a2 t e => rfl, fun v0 v1 t e => rfl,
    fun f => rfl, fun f => rfl, fun f => rfl,
    fun f v0 => rfl, fun f v0 => rfl, fun f v0 => rfl,
    ?_, ?_, ?_, ?_, ?_, ?_⟩
  · intro v0
    simp [divEval, castNum, Bind.bind, Except.bind]
  · intro v0
    simp [idivEval, castNum, Bind.bind, Except.bind]
  · intro v0
    simp [modEval, castNum, Bind.bind, Except.bind]
  · intro v0 v1
    by_cases h : v1 = 0 <;>
      simp [divEval, castNum, Bind.bind, Except.bind, h, Except.isOk,
        Except.toBool]
  · intro v0 v1
    simp [addEval, castNum, Bind.bind, Except.bind, Except.isOk, Except.toBool]
  · intro v0 v1
    by_cases h : v1 = 0 <;>
      simp [modEval, castNum, Bind.bind, Except.bind, h, Except.isOk,
        Except.toBool]

/-- C3 counterexample: individual::mutation and individual::generalize
are non-const members that edit the receiver's genome in place, so a
genetic-operator application does not leave its input individual
unchanged: at the concrete genome [FADD(1,2) | X1 | X1] the post-call
receiver differs from its pre-call value for both operators. -/
theorem C3_mutation_generalize_edit_receiver :
    (Individual.mutation envAX1 xDup [0, 0, 0]
      [⟨0, [], 0⟩, ⟨0, [], 0⟩, ⟨0, [], 0⟩]).2 ≠ xDup ∧
    (xDup.generalize 1 [0]).1 ≠ xDup := by
  refine ⟨by decide, by decide⟩

/-- C7 counterexample: (i) after an i_de mutation that changed a gene,
the signature is recomputed (set to the hash of the new genome), not
cleared, so it is nonempty; (ii) individual::mutation counts every
re-sampled locus even when the sampled gene equals the original, so on a
one row genome over the single terminal X1 it reports one mutation while
the genome is unchanged. -/
theorem C7_signature_refreshed_and_tie_counted :
    (IDe.mutation envDe ideOne 1 [0] [⟨0, [], 7⟩]).1 = 1 ∧
    (IDe.mutation envDe ideOne 1 [0] [⟨0, [], 7⟩]).2.signature ≠ none ∧
    Individual.mutation envOne xOne [0] [⟨0, [], 0⟩] = (1, xOne) := by
  refine ⟨by decide, by decide, by decide⟩

/-- C9 counterexample: evaluator_proxy::load runs eva_.load(in) &&
cache_.load(in); on the one token stream the evaluator component load
succeeds and assigns its state before the cache component load fails on
the truncated remainder, so the call returns false with the receiver
already modified (as the source's own warning admits). -/
theorem C9_proxy_load_not_atomic :
    (proxyLoad evaLoadConst cacheLoadTrunc [42] (0 : Int)
      ((0, 0) : Int × Int)).1 = false ∧
    (proxyLoad evaLoadConst cacheLoadTrunc [42] (0 : Int)
      ((0, 0) : Int × Int)).2.1 ≠ (0 : Int) := by
  refine ⟨by decide, by decide⟩

/-- C9 (amended): population::load is atomic on failure - whenever it
reports false the receiving population equals its value before the call
(the stream is parsed into a working copy and only assigned on success);
evaluator_proxy::load reports false on failure but may leave the
evaluator component modified, as witnessed by the concrete run. -/
theorem C9_load_failure_semantics_amended :
    (∀ (e : Env) (fresh : PopModel) (s : List Int) (p p' : PopModel),
       popLoad e fresh s p = .ok (false, p') → p' = p) ∧
    proxyLoad evaLoadConst cacheLoadTrunc [42] (0 : Int) ((0, 0) : Int × Int) =
      (false, 42, (0, 0)) := by
  constructor
  · intro e fresh s p p' h
    unfold popLoad at h
    split at h
    · cases h
      rfl
    · split at h
      · cases h
      · cases h
        rfl
      · cases h
  · rfl

/-- Witness for the amended C9 on a concrete failing stream. -/
theorem C9_load_failure_semantics_amended_witness :
    popLoad envDe ⟨[[ideOne]]⟩ [] ⟨[]⟩ = LoadOut.ok (false, (⟨[]⟩ : PopModel)) ∧
    (⟨[]⟩ : PopModel) = ⟨[]⟩ :=
  ⟨rfl, C9_load_failure_semantics_amended.1 envDe ⟨[[ideOne]]⟩ [] ⟨[]⟩ ⟨[]⟩ rfl⟩




/-- Value of getD after a set, as a single conditional. -/
theorem getD_set_ite {α : Type} (l : List α) (i j : Nat) (a d : α) :
    (l.set i a).getD j d = if i = j ∧ i < l.length then a else l.getD j d := by
  by_cases hlt : i < l.length
  · by_cases hij : i = j
    · subst hij
      simp [List.getD, List.getElem?_set, hlt]
    · simp [List.getD, List.getElem?_set, hij, hlt]
  · rw [List.set_eq_of_length_le (Nat.le_of_not_lt hlt)]
    have hn : ¬(i = j ∧ i < l.length) := fun hc => hlt hc.2
    rw [if_neg hn]

/-- Gene read after a gene write. -/
theorem gene_setGene (x : Individual) (i j : Nat) (g : Gene) :
    (x.setGene i g).gene j = if i = j ∧ i < x.size then g else x.gene j := by
  unfold Individual.setGene Individual.gene Individual.size
  exact getD_set_ite x.code i j g defaultGene

/-- Writing a gene preserves the genome length. -/
theorem size_setGene (x : Individual) (i : Nat) (g : Gene) :
    (x.setGene i g).size = x.size := by
  unfold Individual.setGene Individual.size
  exact List.length_set x.code i g

/-- Writing a gene preserves the root locus. -/
theorem best_setGene (x : Individual) (i : Nat) (g : Gene) :
    (x.setGene i g).best = x.best := rfl

/-- Characterization of the individual::mutation locus loop: the count
adds one per fired coin and each processed in-range row is replaced by
its catalog sample exactly when its coin fired. -/
theorem mutGo_spec (e : Env) (cs : Nat) (coins : List ℚ)
    (draws : List GeneDraw) (n : Nat) :
    ∀ (i : Nat) (cnt : Nat) (y : Individual),
      (mutGo e cs coins draws n i (cnt, y)).1 =
        cnt + countIf (fun k => coinFires e.pMutation (coins.getD k 1)) n i ∧
      (mutGo e cs coins draws n i (cnt, y)).2.best = y.best ∧
      (mutGo e cs coins draws n i (cnt, y)).2.size = y.size ∧
      ∀ j, (mutGo e cs coins draws n i (cnt, y)).2.gene j =
        if i ≤ j ∧ j < i + n ∧ j < y.size ∧
            coinFires e.pMutation (coins.getD j 1) then
          sampleGene e.sset (j + 1) cs (draws.getD j default)
        else y.gene j := by
  induction n with
  | zero =>
    intro i cnt y
    refine ⟨by simp [mutGo, countIf], rfl, rfl, ?_⟩
    intro j
    rw [if_neg]
    · rfl
    · rintro ⟨_, h2, _⟩
      omega
  | succ n ih =>
    intro i cnt y
    by_cases hf : coinFires e.pMutation (coins.getD i 1)
    · have hred : mutGo e cs coins draws (n + 1) i (cnt, y) =
          mutGo e cs coins draws n (i + 1)
            (if coinFires e.pMutation (coins.getD i 1) then
              (cnt + 1, y.setGene i
                (sampleGene e.sset (i + 1) cs (draws.getD i default)))
            else (cnt, y)) := rfl
      have hstep : mutGo e cs coins draws (n + 1) i (cnt, y) =
          mutGo e cs coins draws n (i + 1)
            (cnt + 1, y.setGene i (sampleGene e.sset (i + 1) cs (draws.getD i default))) := by
        rw [hred, if_pos hf]
      set g0 := sampleGene e.sset (i + 1) cs (draws.getD i default) with hg0
      obtain ⟨hcount, hbest, hsize, hgene⟩ := ih (i + 1) (cnt + 1) (y.setGene i g0)
      rw [hstep]
      refine ⟨?_, ?_, ?_, ?_⟩
      · rw [hcount]
        have hc : countIf (fun k => coinFires e.pMutation (coins.getD k 1)) (n + 1) i =
            (if coinFires e.pMutation (coins.getD i 1) then 1 else 0) +
              countIf (fun k => coinFires e.pMutation (coins.getD k 1)) n (i + 1) := rfl
        rw [hc, if_pos hf]
        omega
      · rw [hbest, best_setGene]
      · rw [hsize, size_setGene]
      · intro j
        rw [hgene j, size_setGene, gene_setGene]
        by_cases hj : j = i
        · subst hj
          by_cases hjs : j < y.size
          · rw [if_neg (by omega), if_pos ⟨rfl, hjs⟩, if_pos ⟨by omega, by omega, hjs, hf⟩]
          · rw [if_neg (by omega), if_neg (by exact fun hc => hjs hc.2),
              if_neg (by exact fun hc => hjs hc.2.2.1)]
        · have hij : ¬(i = j ∧ i < y.size) := fun hc => hj hc.1.symm
          rw [if_neg hij]
          apply if_congr _ rfl rfl
          constructor
          · rintro ⟨h1, h2, h3, h4⟩
            exact ⟨by omega, by omega, h3, h4⟩
          · rintro ⟨h1, h2, h3, h4⟩
            exact ⟨by omega, by omega, h3, h4⟩
    · have hred : mutGo e cs coins draws (n + 1) i (cnt, y) =
          mutGo e cs coins draws n (i + 1)
            (if coinFires e.pMutation (coins.getD i 1) then
              (cnt + 1, y.setGene i
                (sampleGene e.sset (i + 1) cs (draws.getD i default)))
            else (cnt, y)) := rfl
      have hstep : mutGo e cs coins draws (n + 1) i (cnt, y) =
          mutGo e cs coins draws n (i + 1) (cnt, y) := by
        rw [hred, if_neg hf]
      obtain ⟨hcount, hbest, hsize, hgene⟩ := ih (i + 1) cnt y
      rw [hstep]
      refine ⟨?_, hbest, hsize, ?_⟩
      · rw [hcount]
        have hc : countIf (fun k => coinFires e.pMutation (coins.getD k 1)) (n + 1) i =
            (if coinFires e.pMutation (coins.getD i 1) then 1 else 0) +
              countIf (fun k => coinFires e.pMutation (coins.getD k 1)) n (i + 1) := rfl
        rw [hc, if_neg hf]
        omega
      · intro j
        rw [hgene j]
        by_cases hj : j = i
        · subst hj
          rw [if_neg (by omega), if_neg]
          rintro ⟨_, _, _, h4⟩
          exact hf h4
        · apply if_congr _ rfl rfl
          constructor
          · rintro ⟨h1, h2, h3, h4⟩
            exact ⟨by omega, by omega, h3, h4⟩
          · rintro ⟨h1, h2, h3, h4⟩
            exact ⟨by omega, by omega, h3, h4⟩



/-- Characterization of the i_de::mutation parameter loop relative to
the starting genome g0: the count adds one per fired coin whose sample
differs from the original gene, and exactly those genes are replaced. -/
theorem deMutGo_spec (e : Env) (p : ℚ) (coins : List ℚ)
    (draws : List GeneDraw) (g0 : List DeGene) (n : Nat) :
    ∀ (c cnt : Nat) (y : List DeGene),
      y.length = g0.length →
      c + n ≤ g0.length →
      (∀ j, c ≤ j → y.getD j ⟨nullSymbol, 0⟩ = g0.getD j ⟨nullSymbol, 0⟩) →
      (deMutGo e p coins draws n c (cnt, y)).1 =
        cnt + countIf (fun k => coinFires p (coins.getD k 1) &&
          !(rouletteTerminal e.sset k (draws.getD k default) ==
            g0.getD k ⟨nullSymbol, 0⟩)) n c ∧
      (deMutGo e p coins draws n c (cnt, y)).2.length = y.length ∧
      ∀ j, (deMutGo e p coins draws n c (cnt, y)).2.getD j ⟨nullSymbol, 0⟩ =
        if c ≤ j ∧ j < c + n ∧ coinFires p (coins.getD j 1) ∧
            rouletteTerminal e.sset j (draws.getD j default) ≠
              g0.getD j ⟨nullSymbol, 0⟩ then
          rouletteTerminal e.sset j (draws.getD j default)
        else y.getD j ⟨nullSymbol, 0⟩ := by
  induction n with
  | zero =>
    intro c cnt y hlen hle hagree
    refine ⟨by simp [deMutGo, countIf], rfl, ?_⟩
    intro j
    rw [if_neg]
    · rfl
    · rintro ⟨_, h2, _⟩
      omega
  | succ n ih =>
    intro c cnt y hlen hle hagree
    have hred : deMutGo e p coins draws (n + 1) c (cnt, y) =
        deMutGo e p coins draws n (c + 1)
          (if coinFires p (coins.getD c 1) then
            (if rouletteTerminal e.sset c (draws.getD c default) ≠
                y.getD c ⟨nullSymbol, 0⟩ then
              (cnt + 1, y.set c (rouletteTerminal e.sset c (draws.getD c default)))
            else (cnt, y))
          else (cnt, y)) := rfl
    have hcnt : countIf (fun k => coinFires p (coins.getD k 1) &&
        !(rouletteTerminal e.sset k (draws.getD k default) ==
          g0.getD k ⟨nullSymbol, 0⟩)) (n + 1) c =
        (if coinFires p (coins.getD c 1) &&
          !(rouletteTerminal e.sset c (draws.getD c default) ==
            g0.getD c ⟨nullSymbol, 0⟩) then 1 else 0) +
        countIf (fun k => coinFires p (coins.getD k 1) &&
          !(rouletteTerminal e.sset k (draws.getD k default) ==
            g0.getD k ⟨nullSymbol, 0⟩)) n (c + 1) := rfl
    have hyc : y.getD c ⟨nullSymbol, 0⟩ = g0.getD c ⟨nullSymbol, 0⟩ :=
      hagree c (Nat.le_refl c)
    by_cases hf : coinFires p (coins.getD c 1)
    · by_cases hne : rouletteTerminal e.sset c (draws.getD c default) ≠
          g0.getD c ⟨nullSymbol, 0⟩
      · have hstep : deMutGo e p coins draws (n + 1) c (cnt, y) =
            deMutGo e p coins draws n (c + 1)
              (cnt + 1, y.set c (rouletteTerminal e.sset c (draws.getD c default))) := by
          rw [hred, if_pos hf, if_pos (by rw [hyc]; exact hne)]
        set g1 := rouletteTerminal e.sset c (draws.getD c default) with hg1
        have hagree' : ∀ j, c + 1 ≤ j →
            (y.set c g1).getD j ⟨nullSymbol, 0⟩ = g0.getD j ⟨nullSymbol, 0⟩ := by
          intro j hj
          rw [getD_set_ite]
          rw [if_neg (by rintro ⟨rfl, _⟩; omega)]
          exact hagree j (by omega)
        obtain ⟨hcount, hlen2, hgene⟩ := ih (c + 1) (cnt + 1) (y.set c g1)
          (by rw [List.length_set]; exact hlen) (by omega) hagree'
        rw [hstep]
        refine ⟨?_, ?_, ?_⟩
        · rw [hcount, hcnt, if_pos]
          · omega
          · rw [hf]
            simp only [Bool.true_and, Bool.not_eq_true', beq_eq_false_iff_ne]
            exact hne
        · rw [hlen2, List.length_set]
        · intro j
          rw [hgene j, getD_set_ite]
          by_cases hj : j = c
          · subst hj
            have hjlen : j < y.length := by omega
            rw [if_neg (by omega), if_pos ⟨rfl, hjlen⟩,
              if_pos ⟨Nat.le_refl j, by omega, hf, hne⟩]
          · have hcj : ¬(c = j ∧ c < y.length) := fun hc => hj hc.1.symm
            rw [if_neg hcj]
            apply if_congr _ rfl rfl
            constructor
            · rintro ⟨h1, h2, h3, h4⟩
              exact ⟨by omega, by omega, h3, h4⟩
            · rintro ⟨h1, h2, h3, h4⟩
              exact ⟨by omega, by omega, h3, h4⟩
      · have heq : rouletteTerminal e.sset c (draws.getD c default) =
            g0.getD c ⟨nullSymbol, 0⟩ := not_ne_iff.mp hne
        have hstep : deMutGo e p coins draws (n + 1) c (cnt, y) =
            deMutGo e p coins draws n (c + 1) (cnt, y) := by
          rw [hred, if_pos hf, if_neg (by rw [hyc]; exact hne)]
        obtain ⟨hcount, hlen2, hgene⟩ := ih (c + 1) cnt y hlen (by omega)
          (fun j hj => hagree j (by omega))
        rw [hstep]
        refine ⟨?_, hlen2, ?_⟩
        · rw [hcount, hcnt, if_neg]
          · omega
          · rw [hf, heq]
            simp
        · intro j
          rw [hgene j]
          by_cases hj : j = c
          · subst hj
            rw [if_neg (by omega), if_neg (by rintro ⟨_, _, _, h4⟩; exact h4 heq)]
          · apply if_congr _ rfl rfl
            constructor
            · rintro ⟨h1, h2, h3, h4⟩
              exact ⟨by omega, by omega, h3, h4⟩
            · rintro ⟨h1, h2, h3, h4⟩
              exact ⟨by omega, by omega, h3, h4⟩
    · have hstep : deMutGo e p coins draws (n + 1) c (cnt, y) =
          deMutGo e p coins draws n (c + 1) (cnt, y) := by
        rw [hred, if_neg hf]
      obtain ⟨hcount, hlen2, hgene⟩ := ih (c + 1) cnt y hlen (by omega)
        (fun j hj => hagree j (by omega))
      rw [hstep]
      refine ⟨?_, hlen2, ?_⟩
      · rw [hcount, hcnt, if_neg]
        · omega
        · intro hc
          exact hf (Bool.and_elim_left hc)
      · intro j
        rw [hgene j]
        by_cases hj : j = c
        · subst hj
          rw [if_neg (by omega), if_neg (by rintro ⟨_, _, h3, _⟩; exact hf h3)]
        · apply if_congr _ rfl rfl
          constructor
          · rintro ⟨h1, h2, h3, h4⟩
            exact ⟨by omega, by omega, h3, h4⟩
          · rintro ⟨h1, h2, h3, h4⟩
            exact ⟨by omega, by omega, h3, h4⟩



/-- getD of a list built by mapping over List.range. -/
theorem getD_range_map {α : Type} (f : Nat → α) (n i : Nat) (d : α) :
    ((List.range n).map f).getD i d = if i < n then f i else d := by
  by_cases h : i < n
  · simp [List.getD, List.getElem?_map, List.getElem?_range, h]
  · have hn : ((List.range n).map f)[i]? = none := by
      rw [List.getElem?_eq_none]
      simpa using Nat.le_of_not_lt h
    simp [List.getD, hn, h]

/-- Two lists of equal length agreeing on getD at every index are
equal. -/
theorem list_ext_getD {α : Type} (l1 l2 : List α) (d : α)
    (hlen : l1.length = l2.length)
    (h : ∀ i, l1.getD i d = l2.getD i d) : l1 = l2 := by
  refine List.ext_getElem hlen ?_
  intro i h1 h2
  have := h i
  rwa [List.getD_eq_getElem l1 d h1, List.getD_eq_getElem l2 d h2] at this

/-- Individuals with the same root, size and genes are equal. -/
theorem individual_ext (x y : Individual) (hb : x.best = y.best)
    (hs : x.size = y.size) (hg : ∀ i, x.gene i = y.gene i) : x = y := by
  cases x with
  | mk b1 c1 =>
    cases y with
    | mk b2 c2 =>
      cases hb
      have : c1 = c2 := list_ext_getD c1 c2 defaultGene hs hg
      rw [this]

/-- countIf of an everywhere-false predicate is zero. -/
theorem countIf_zero_of_false (pred : Nat → Bool) (n : Nat) :
    ∀ i, (∀ k, pred k = false) → countIf pred n i = 0 := by
  induction n with
  | zero => intro i _; rfl
  | succ n ih =>
    intro i hp
    have : countIf pred (n + 1) i =
        (if pred i then 1 else 0) + countIf pred n (i + 1) := rfl
    rw [this, hp i, ih (i + 1) hp]
    rfl

/-- A terminal drawn for category c has category c (unless the category
has no terminal at all, in which case the draw degenerates to the null
symbol - the enough_terminals precondition excludes this). -/
theorem rouletteTerminal_category (sset : List Symbol) (c : Nat)
    (d : GeneDraw) :
    (rouletteTerminal sset c d).sym.category = c ∨
    rouletteTerminal sset c d = ⟨nullSymbol, (d.parSeed : ℚ)⟩ := by
  by_cases h : (sset.filter fun s => s.terminal && (s.category == c)).length = 0
  · right
    simp [rouletteTerminal, h]
  · left
    have hlt : d.symIdx % (sset.filter fun s => s.terminal && (s.category == c)).length <
        (sset.filter fun s => s.terminal && (s.category == c)).length :=
      Nat.mod_lt _ (Nat.pos_of_ne_zero h)
    have hrw : rouletteTerminal sset c d =
        ⟨(sset.filter fun s => s.terminal && (s.category == c)).get
          ⟨d.symIdx % (sset.filter fun s => s.terminal && (s.category == c)).length, hlt⟩,
         (d.parSeed : ℚ)⟩ := by
      simp [rouletteTerminal, h]
    rw [hrw]
    have hmem := List.get_mem (sset.filter fun s => s.terminal && (s.category == c))
      (d.symIdx % (sset.filter fun s => s.terminal && (s.category == c)).length) hlt
    have hf := (List.mem_filter.mp hmem).2
    simp only [Bool.and_eq_true, beq_iff_eq] at hf
    exact hf.2

/-- individual::mutation returns the number of fired loci, preserves
root and size, and replaces exactly the fired rows by fresh catalog
samples. -/
theorem mutation_characterization (e : Env) (x : Individual)
    (coins : List ℚ) (draws : List GeneDraw) :
    (Individual.mutation e x coins draws).1 =
      countIf (fun k => coinFires e.pMutation (coins.getD k 1)) x.size 0 ∧
    (Individual.mutation e x coins draws).2.best = x.best ∧
    (Individual.mutation e x coins draws).2.size = x.size ∧
    ∀ j, j < x.size →
      (Individual.mutation e x coins draws).2.gene j =
        if coinFires e.pMutation (coins.getD j 1) then
          sampleGene e.sset (j + 1) x.size (draws.getD j default)
        else x.gene j := by
  obtain ⟨hcount, hbest, hsize, hgene⟩ :=
    mutGo_spec e x.size coins draws x.size 0 0 x
  refine ⟨by simpa using hcount, hbest, hsize, ?_⟩
  intro j hj
  rw [Individual.mutation, hgene j]
  by_cases hf : coinFires e.pMutation (coins.getD j 1)
  · rw [if_pos ⟨Nat.zero_le j, by omega, hj, hf⟩, if_pos hf]
  · rw [if_neg (by rintro ⟨_, _, _, h4⟩; exact hf h4), if_neg hf]

/-- individual::mutation with mutation probability zero returns zero
and leaves the genome unchanged. -/
theorem mutation_zero_prob (e : Env) (x : Individual) (coins : List ℚ)
    (draws : List GeneDraw) (hp : e.pMutation = 0)
    (hc : ∀ i, 0 ≤ coins.getD i 1) :
    Individual.mutation e x coins draws = (0, x) := by
  obtain ⟨hcount, hbest, hsize, hgene⟩ := mutation_characterization e x coins draws
  have hfalse : ∀ k, coinFires e.pMutation (coins.getD k 1) = false := by
    intro k
    unfold coinFires
    rw [hp]
    simp only [decide_eq_false_iff_not, not_lt]
    exact hc k
  have h1 : (Individual.mutation e x coins draws).1 = 0 := by
    rw [hcount]
    exact countIf_zero_of_false _ _ 0 hfalse
  have h2 : (Individual.mutation e x coins draws).2 = x := by
    refine individual_ext _ _ hbest hsize ?_
    intro j
    by_cases hj : j < x.size
    · rw [hgene j hj, hfalse j]
      rfl
    · obtain ⟨hcount', hbest', hsize', hgene'⟩ :=
        mutGo_spec e x.size coins draws x.size 0 0 x
      rw [Individual.mutation, hgene' j, if_neg (by rintro ⟨_, _, h3, _⟩; exact hj h3)]
  calc Individual.mutation e x coins draws
      = ((Individual.mutation e x coins draws).1,
         (Individual.mutation e x coins draws).2) := rfl
    _ = (0, x) := by rw [h1, h2]



/-- i_de::mutation returns the count of parameters whose fired draw
differs from the stored gene and stores exactly those draws. -/
theorem de_mutation_characterization (e : Env) (x : IDe) (p : ℚ)
    (coins : List ℚ) (draws : List GeneDraw) :
    (IDe.mutation e x p coins draws).1 =
      countIf (fun k => coinFires p (coins.getD k 1) &&
        !(rouletteTerminal e.sset k (draws.getD k default) ==
          x.genome.getD k ⟨nullSymbol, 0⟩)) x.genome.length 0 ∧
    (IDe.mutation e x p coins draws).2.genome.length = x.genome.length ∧
    ∀ j, (IDe.mutation e x p coins draws).2.genome.getD j ⟨nullSymbol, 0⟩ =
      if j < x.genome.length ∧ coinFires p (coins.getD j 1) ∧
          rouletteTerminal e.sset j (draws.getD j default) ≠
            x.genome.getD j ⟨nullSymbol, 0⟩ then
        rouletteTerminal e.sset j (draws.getD j default)
      else x.genome.getD j ⟨nullSymbol, 0⟩ := by
  obtain ⟨hcount, hlen, hgene⟩ :=
    deMutGo_spec e p coins draws x.genome x.genome.length 0 0 x.genome rfl
      (by omega) (fun j _ => rfl)
  have hmut1 : (IDe.mutation e x p coins draws).1 =
      (deMutGo e p coins draws x.genome.length 0 (0, x.genome)).1 := by
    unfold IDe.mutation
    by_cases h : (deMutGo e p coins draws x.genome.length 0 (0, x.genome)).1 ≠ 0 <;>
      simp [h]
  have hmut2 : (IDe.mutation e x p coins draws).2.genome =
      (deMutGo e p coins draws x.genome.length 0 (0, x.genome)).2 := by
    unfold IDe.mutation
    by_cases h : (deMutGo e p coins draws x.genome.length 0 (0, x.genome)).1 ≠ 0 <;>
      simp [h]
  refine ⟨by rw [hmut1]; simpa using hcount, by rw [hmut2]; exact hlen, ?_⟩
  intro j
  rw [hmut2, hgene j]
  apply if_congr _ rfl rfl
  constructor
  · rintro ⟨h1, h2, h3, h4⟩
    exact ⟨by omega, h3, h4⟩
  · rintro ⟨h1, h2, h3⟩
    exact ⟨by omega, by omega, h2, h3⟩

/-- When i_de::mutation performed at least one change, the signature is
set to the recomputed hash of the new genome (not cleared). -/
theorem de_mutation_signature_recomputed (e : Env) (x : IDe) (p : ℚ)
    (coins : List ℚ) (draws : List GeneDraw)
    (h : (IDe.mutation e x p coins draws).1 ≠ 0) :
    (IDe.mutation e x p coins draws).2.signature =
      some (hashDe ((IDe.mutation e x p coins draws).2.genome)) := by
  unfold IDe.mutation at h ⊢
  by_cases h0 : (deMutGo e p coins draws x.genome.length 0 (0, x.genome)).1 ≠ 0
  · simp [h0]
  · simp [h0] at h



/-- Per-locus description of the uniform crossover offspring. -/
theorem uniformCross_gene (x parent : Individual) (flips : List Bool) (i : Nat) :
    (x.uniformCross parent flips).gene i =
      if i < x.size then (if flips.getD i true then x.gene i else parent.gene i)
      else defaultGene := by
  unfold Individual.uniformCross Individual.gene
  exact getD_range_map _ _ _ _

/-- Per-locus description of the one point crossover offspring. -/
theorem cross1_gene (x parent : Individual) (cut : Nat) (base : Bool) (i : Nat) :
    (x.cross1 parent cut base).gene i =
      if i < x.size then
        (if i < cut then (if base then parent else x).gene i
         else (if base then x else parent).gene i)
      else defaultGene := by
  unfold Individual.cross1 Individual.gene
  exact getD_range_map _ _ _ _

/-- Per-locus description of the two point crossover offspring. -/
theorem cross2_gene (x parent : Individual) (c1 c2 : Nat) (base : Bool) (i : Nat) :
    (x.cross2 parent c1 c2 base).gene i =
      if i < x.size then
        (if i < c1 then (if base then parent else x).gene i
         else if i < c2 then (if base then x else parent).gene i
         else (if base then parent else x).gene i)
      else defaultGene := by
  unfold Individual.cross2 Individual.gene
  exact getD_range_map _ _ _ _

/-- i_de::mutation with probability zero returns zero changes and the
individual unchanged. -/
theorem de_mutation_zero_prob (e : Env) (x : IDe) (coins : List ℚ)
    (draws : List GeneDraw) (hc : ∀ i, 0 ≤ coins.getD i 1) :
    IDe.mutation e x 0 coins draws = (0, x) := by
  have hfires : ∀ k, coinFires (0 : ℚ) (coins.getD k 1) = false := by
    intro k
    unfold coinFires
    simp only [decide_eq_false_iff_not, not_lt]
    exact hc k
  obtain ⟨hcount, hlen, hgene⟩ :=
    deMutGo_spec e 0 coins draws x.genome x.genome.length 0 0 x.genome rfl
      (by omega) (fun j _ => rfl)
  have h0 : (deMutGo e 0 coins draws x.genome.length 0 (0, x.genome)).1 = 0 := by
    rw [hcount, countIf_zero_of_false _ _ 0 (fun k => by rw [hfires k]; rfl)]
  have hgen : (deMutGo e 0 coins draws x.genome.length 0 (0, x.genome)).2 =
      x.genome := by
    refine list_ext_getD _ _ ⟨nullSymbol, 0⟩ hlen ?_
    intro j
    rw [hgene j, if_neg]
    rintro ⟨_, _, h3, _⟩
    rw [hfires j] at h3
    cases h3
  unfold IDe.mutation
  simp only [h0, ne_eq, not_true_eq_false, if_false]
  rw [hgen]

/-- C7 (amended): mutation(p) re-samples each locus with probability p
from the catalog, same category; probability 0 changes nothing and
returns 0; probability 1 stores the fresh draw at every locus (ties
included, which then leave the gene equal); i_de::mutation returns the
count of actually changed loci and, when that count is nonzero, sets
the signature to the recomputed hash of the new genome (rather than
clearing it); individual::mutation returns the count of re-sampled loci
(ties included) and replaces exactly the fired rows. -/
theorem C7_mutation_semantics_amended :
    (∀ (e : Env) (x : Individual) (coins : List ℚ) (draws : List GeneDraw),
       e.pMutation = 0 → (∀ i, 0 ≤ coins.getD i 1) →
       Individual.mutation e x coins draws = (0, x)) ∧
    (∀ (e : Env) (x : IDe) (coins : List ℚ) (draws : List GeneDraw),
       (∀ i, 0 ≤ coins.getD i 1) → IDe.mutation e x 0 coins draws = (0, x)) ∧
    (∀ (e : Env) (x : IDe) (coins : List ℚ) (draws : List GeneDraw) (c : Nat),
       (∀ i, i < x.genome.length → coins.getD i 1 < 1) → c < x.genome.length →
       (IDe.mutation e x 1 coins draws).2.genome.getD c ⟨nullSymbol, 0⟩ =
         rouletteTerminal e.sset c (draws.getD c default)) ∧
    (∀ (e : Env) (x : IDe) (p : ℚ) (coins : List ℚ) (draws : List GeneDraw),
       (IDe.mutation e x p coins draws).1 =
         countIf (fun k => coinFires p (coins.getD k 1) &&
           !(rouletteTerminal e.sset k (draws.getD k default) ==
             x.genome.getD k ⟨nullSymbol, 0⟩)) x.genome.length 0) ∧
    (∀ (e : Env) (x : IDe) (p : ℚ) (coins : List ℚ) (draws : List GeneDraw),
       (IDe.mutation e x p coins draws).1 ≠ 0 →
       (IDe.mutation e x p coins draws).2.signature =
         some (hashDe ((IDe.mutation e x p coins draws).2.genome))) ∧
    (∀ (sset : List Symbol) (c : Nat) (d : GeneDraw),
       (rouletteTerminal sset c d).sym.category = c ∨
       rouletteTerminal sset c d = ⟨nullSymbol, (d.parSeed : ℚ)⟩) ∧
    (∀ (e : Env) (x : Individual) (coins : List ℚ) (draws : List GeneDraw)
       (j : Nat), j < x.size →
       (Individual.mutation e x coins draws).2.gene j =
         if coinFires e.pMutation (coins.getD j 1) then
           sampleGene e.sset (j + 1) x.size (draws.getD j default)
         else x.gene j) := by
  refine ⟨mutation_zero_prob, de_mutation_zero_prob, ?_, ?_, ?_,
    rouletteTerminal_category, ?_⟩
  · intro e x coins draws c hc hclt
    obtain ⟨_, _, hgene⟩ := de_mutation_characterization e x 1 coins draws
    rw [hgene c]
    have hfire : coinFires (1 : ℚ) (coins.getD c 1) = true := by
      unfold coinFires
      simp only [decide_eq_true_eq]
      exact hc c hclt
    by_cases hne : rouletteTerminal e.sset c (draws.getD c default) ≠
        x.genome.getD c ⟨nullSymbol, 0⟩
    · rw [if_pos ⟨hclt, hfire, hne⟩]
    · rw [if_neg (by rintro ⟨_, _, h3⟩; exact hne h3)]
      exact (not_ne_iff.mp hne).symm
  · intro e x p coins draws
    exact (de_mutation_characterization e x p coins draws).1
  · exact de_mutation_signature_recomputed
  · intro e x coins draws j hj
    exact (mutation_characterization e x coins draws).2.2.2 j hj

/-- Witness for the amended C7 at concrete environments, individuals
and oracle streams. -/
theorem C7_mutation_semantics_amended_witness :
    Individual.mutation envAX xDup [0, 0, 0] [] = (0, xDup) ∧
    IDe.mutation envDe ideOne 0 [0] [] = (0, ideOne) ∧
    (IDe.mutation envDe ideOne 1 [0] [⟨0, [], 7⟩]).2.genome.getD 0
      ⟨nullSymbol, 0⟩ = rouletteTerminal envDe.sset 0 (⟨0, [], 7⟩ : GeneDraw) ∧
    (IDe.mutation envDe ideOne 1 [0] [⟨0, [], 7⟩]).2.signature =
      some (hashDe ((IDe.mutation envDe ideOne 1 [0] [⟨0, [], 7⟩]).2.genome)) := by
  refine ⟨C7_mutation_semantics_amended.1 envAX xDup [0, 0, 0] [] rfl ?_,
    C7_mutation_semantics_amended.2.1 envDe ideOne [0] [] ?_,
    ?_, C7_mutation_semantics_amended.2.2.2.2.1 envDe ideOne 1 [0] [⟨0, [], 7⟩]
      (by decide)⟩
  · intro i
    match i with
    | 0 => norm_num
    | 1 => norm_num
    | 2 => norm_num
    | (n + 3) => simp [List.getD]
  · intro i
    match i with
    | 0 => norm_num
    | (n + 1) => simp [List.getD]
  · have := C7_mutation_semantics_amended.2.2.1 envDe ideOne [0] [⟨0, [], 7⟩] 0
      ?_ (by decide)
    · simpa using this
    · intro i hi
      match i, hi with
      | 0, _ => norm_num



/-- C3 (amended): the crossover variants, replace and destroy_block are
const operations building a fresh offspring whose genes come from the
parents (all other loci unchanged for the single-row edits), while
mutation() and generalize() edit the receiving individual in place. -/
theorem C3_operator_frame_amended :
    (∀ (x parent : Individual) (flips : List Bool) (i : Nat), i < x.size →
       (x.uniformCross parent flips).gene i = x.gene i ∨
       (x.uniformCross parent flips).gene i = parent.gene i) ∧
    (∀ (x parent : Individual) (flips : List Bool),
       (x.uniformCross parent flips).best = 0) ∧
    (∀ (x parent : Individual) (cut : Nat) (base : Bool) (i : Nat), i < x.size →
       (x.cross1 parent cut base).gene i = x.gene i ∨
       (x.cross1 parent cut base).gene i = parent.gene i) ∧
    (∀ (x parent : Individual) (c1 c2 : Nat) (base : Bool) (i : Nat),
       i < x.size →
       (x.cross2 parent c1 c2 base).gene i = x.gene i ∨
       (x.cross2 parent c1 c2 base).gene i = parent.gene i) ∧
    (∀ (x : Individual) (sym : Symbol) (args : List Nat) (line j : Nat),
       j ≠ line → (x.replace sym args line).gene j = x.gene j) ∧
    (∀ (e : Env) (x : Individual) (line : Nat) (d : GeneDraw) (j : Nat),
       j ≠ line → (x.destroyBlock e line d).gene j = x.gene j) ∧
    (∃ (e : Env) (x : Individual) (coins : List ℚ) (draws : List GeneDraw),
       (Individual.mutation e x coins draws).2 ≠ x) ∧
    (∃ (x : Individual) (m : Nat) (seeds : List Nat),
       (x.generalize m seeds).1 ≠ x) := by
  refine ⟨?_, ?_, ?_, ?_, ?_, ?_, ?_, ?_⟩
  · intro x parent flips i hi
    rw [uniformCross_gene, if_pos hi]
    by_cases hf : flips.getD i true
    · rw [if_pos hf]
      exact Or.inl rfl
    · rw [if_neg hf]
      exact Or.inr rfl
  · intro x parent flips
    rfl
  · intro x parent cut base i hi
    rw [cross1_gene, if_pos hi]
    by_cases hc : i < cut
    · rw [if_pos hc]
      cases base
      · exact Or.inl rfl
      · exact Or.inr rfl
    · rw [if_neg hc]
      cases base
      · exact Or.inr rfl
      · exact Or.inl rfl
  · intro x parent c1 c2 base i hi
    rw [cross2_gene, if_pos hi]
    by_cases h1 : i < c1
    · rw [if_pos h1]
      cases base
      · exact Or.inl rfl
      · exact Or.inr rfl
    · rw [if_neg h1]
      by_cases h2 : i < c2
      · rw [if_pos h2]
        cases base
        · exact Or.inr rfl
        · exact Or.inl rfl
      · rw [if_neg h2]
        cases base
        · exact Or.inl rfl
        · exact Or.inr rfl
  · intro x sym args line j hj
    unfold Individual.replace
    rw [gene_setGene, if_neg]
    rintro ⟨rfl, _⟩
    exact hj rfl
  · intro e x line d j hj
    unfold Individual.destroyBlock
    rw [gene_setGene, if_neg]
    rintro ⟨rfl, _⟩
    exact hj rfl
  · exact ⟨envAX1, xDup, [0, 0, 0], [⟨0, [], 0⟩, ⟨0, [], 0⟩, ⟨0, [], 0⟩],
      by decide⟩
  · exact ⟨xDup, 1, [0], by decide⟩

/-- Witness for the amended C3 at concrete individuals. -/
theorem C3_operator_frame_amended_witness :
    ((xDup.uniformCross xMix []).gene 0 = xDup.gene 0 ∨
     (xDup.uniformCross xMix []).gene 0 = xMix.gene 0) ∧
    ((xDup.replace exX [] 0).gene 1 = xDup.gene 1) := by
  refine ⟨C3_operator_frame_amended.1 xDup xMix [] 0 (by decide),
    C3_operator_frame_amended.2.2.2.2.1 xDup exX [] 0 1 (by decide)⟩




/-- Unpacking the Boolean genome-wide forward invariant at one row. -/
theorem forwardOk_elim (x : Individual) (hf : forwardOkB x = true) (i : Nat)
    (hi : i < x.size) (a : Nat) (ha : a ∈ (x.gene i).argsUsed) :
    i < a ∧ a < x.size := by
  unfold forwardOkB at hf
  rw [List.all_eq_true] at hf
  have := hf i (List.mem_range.mpr hi)
  unfold forwardGeneB at this
  rw [List.all_eq_true] at this
  have h2 := this a ha
  simp only [Bool.and_eq_true, decide_eq_true_eq] at h2
  exact h2

/-- A freshly reset memo cache has every slot empty. -/
theorem getD_replicate_none (n i : Nat) :
    ((List.replicate n (none : Option AnyVal)).getD i none) = none := by
  by_cases h : i < n
  · simp [List.getD, List.getElem?_replicate, h]
  · have hn : (List.replicate n (none : Option AnyVal))[i]? = none := by
      rw [List.getElem?_eq_none]
      simpa using Nat.le_of_not_lt h
    simp [List.getD, hn]

/-- Invariants of the argument-fetch loop: assuming the locus evaluator
meets the interpreter contract on strictly larger loci, the loop
succeeds, preserves filled memo slots, computes only loci that were
empty and strictly above the caller, leaves every computed locus filled,
and computes no locus twice. -/
theorem evalArgsWith_spec (x : Individual)
    (ev : Nat → List (Option AnyVal) →
      Option (AnyVal × List (Option AnyVal) × List Nat)) (ip : Nat)
    (hEV : ∀ (l : Nat) (cache : List (Option AnyVal)),
      ip < l → l < x.size → cache.length = x.size →
      cache.getD l none = none →
      ∃ v cache' comp, ev l cache = some (v, cache', comp) ∧
        cache'.length = x.size ∧
        (∀ m, cache.getD m none ≠ none →
          cache'.getD m none = cache.getD m none) ∧
        (∀ m ∈ comp, l ≤ m ∧ m < x.size) ∧
        (∀ m ∈ comp, cache.getD m none = none) ∧
        (∀ m ∈ comp, m ≠ l → cache'.getD m none ≠ none) ∧
        comp.Nodup) :
    ∀ (loci : List Nat) (cache : List (Option AnyVal)),
      (∀ l ∈ loci, ip < l ∧ l < x.size) → cache.length = x.size →
      ∃ vals cache' comp,
        evalArgsWith ev loci cache = some (vals, cache', comp) ∧
        cache'.length = x.size ∧
        (∀ m, cache.getD m none ≠ none →
          cache'.getD m none = cache.getD m none) ∧
        (∀ m ∈ comp, ip < m ∧ m < x.size) ∧
        (∀ m ∈ comp, cache.getD m none = none) ∧
        (∀ m ∈ comp, cache'.getD m none ≠ none) ∧
        comp.Nodup := by
  intro loci
  induction loci with
  | nil =>
    intro cache _ hclen
    exact ⟨[], cache, [], rfl, hclen, fun m _ => rfl, fun m hm => absurd hm
      (List.not_mem_nil m), fun m hm => absurd hm (List.not_mem_nil m),
      fun m hm => absurd hm (List.not_mem_nil m), List.nodup_nil⟩
  | cons locus rest ih =>
    intro cache hloci hclen
    have hl := hloci locus (List.mem_cons_self locus rest)
    cases hcv : cache.getD locus none with
    | some v =>
      obtain ⟨vals2, c3, comp2, hrun, hlen3, hpres, hbnd, hnone, hcov, hnd⟩ :=
        ih cache (fun l hl2 => hloci l (List.mem_cons_of_mem _ hl2)) hclen
      refine ⟨v :: vals2, c3, comp2, ?_, hlen3, hpres, hbnd, hnone, hcov, hnd⟩
      unfold evalArgsWith
      rw [hcv, hrun]
    | none =>
      obtain ⟨v, c1, comp1, hev, hlen1, hpres1, hbnd1, hnone1, hcov1, hnd1⟩ :=
        hEV locus cache hl.1 hl.2 hclen hcv
      set c2 := c1.set locus (some v) with hc2
      have hlen2 : c2.length = x.size := by
        rw [hc2, List.length_set]
        exact hlen1
      have hc2locus : c2.getD locus none = some v := by
        rw [hc2, getD_set_ite, if_pos ⟨rfl, by rw [hlen1]; exact hl.2⟩]
      have hpres2 : ∀ m, cache.getD m none ≠ none →
          c2.getD m none = cache.getD m none := by
        intro m hm
        have hne : locus ≠ m := by
          rintro rfl
          exact hm hcv
        rw [hc2, getD_set_ite, if_neg (by rintro ⟨rfl, _⟩; exact hne rfl)]
        exact hpres1 m hm
      obtain ⟨vals2, c3, comp2, hrun2, hlen3, hpres3, hbnd2, hnone2, hcov2, hnd2⟩ :=
        ih c2 (fun l hl2 => hloci l (List.mem_cons_of_mem _ hl2)) hlen2
      refine ⟨v :: vals2, c3, comp1 ++ comp2, ?_, hlen3, ?_, ?_, ?_, ?_, ?_⟩
      · have hrun2' : evalArgsWith ev rest (c1.set locus (some v)) =
            some (vals2, c3, comp2) := by
          rw [← hc2]
          exact hrun2
        unfold evalArgsWith
        rw [hcv, hev]
        simp only [hrun2']
      · intro m hm
        rw [hpres3 m (by rw [hpres2 m hm]; exact hm), hpres2 m hm]
      · intro m hm
        rcases List.mem_append.mp hm with h1 | h2
        · exact ⟨Nat.lt_of_lt_of_le hl.1 (hbnd1 m h1).1, (hbnd1 m h1).2⟩
        · exact hbnd2 m h2
      · intro m hm
        rcases List.mem_append.mp hm with h1 | h2
        · exact hnone1 m h1
        · by_cases hc : cache.getD m none = none
          · exact hc
          · exact absurd (hpres2 m hc ▸ hnone2 m h2) hc
      · have hcomp1c2 : ∀ m ∈ comp1, c2.getD m none ≠ none := by
          intro m h1
          by_cases hm : m = locus
          · rw [hm, hc2locus]
            exact Option.some_ne_none v
          · rw [hc2, getD_set_ite, if_neg (by rintro ⟨rfl, _⟩; exact hm rfl)]
            exact hcov1 m h1 hm
        intro m hm
        rcases List.mem_append.mp hm with h1 | h2
        · rw [hpres3 m (hcomp1c2 m h1)]
          exact hcomp1c2 m h1
        · exact hcov2 m h2
      · rw [List.nodup_append]
        refine ⟨hnd1, hnd2, ?_⟩
        intro m h1 h2
        have hne2 : c2.getD m none = none := hnone2 m h2
        by_cases hm : m = locus
        · rw [hm, hc2locus] at hne2
          cases hne2
        · rw [hc2, getD_set_ite,
            if_neg (by rintro ⟨rfl, _⟩; exact hm rfl)] at hne2
          exact hcov1 m h1 hm hne2



/-- The interpreter contract: on a genome satisfying the forward
invariant, evaluation at a locus below the size with fuel exceeding the
remaining rows succeeds, computes each locus at most once (the memo
cache serves repeats), and fills the memo slot of every computed locus
except the entry locus. -/
theorem interpEval_spec (F : Symbol → List AnyVal → AnyVal)
    (T : Symbol → AnyVal) (x : Individual) (hFwd : forwardOkB x = true) :
    ∀ (fuel ip : Nat) (cache : List (Option AnyVal)),
      ip < x.size → x.size - ip < fuel → cache.length = x.size →
      cache.getD ip none = none →
      ∃ v cache' comp,
        interpEval F T x fuel ip cache = some (v, cache', comp) ∧
        cache'.length = x.size ∧
        (∀ m, cache.getD m none ≠ none →
          cache'.getD m none = cache.getD m none) ∧
        (∀ m ∈ comp, ip ≤ m ∧ m < x.size) ∧
        (∀ m ∈ comp, cache.getD m none = none) ∧
        (∀ m ∈ comp, m ≠ ip → cache'.getD m none ≠ none) ∧
        comp.Nodup := by
  intro fuel
  induction fuel with
  | zero =>
    intro ip cache hip hfuel
    omega
  | succ fuel ih =>
    intro ip cache hip hfuel hclen hnone
    by_cases hterm : (x.gene ip).sym.terminal
    · refine ⟨(if (x.gene ip).sym.parametric then .num (x.gene ip).par
        else T (x.gene ip).sym), cache, [ip], ?_, hclen, fun m _ => rfl,
        ?_, ?_, ?_, List.nodup_singleton ip⟩
      · unfold interpEval
        rw [if_pos hterm]
      · intro m hm
        rw [List.mem_singleton.mp hm]
        exact ⟨Nat.le_refl ip, hip⟩
      · intro m hm
        rw [List.mem_singleton.mp hm]
        exact hnone
      · intro m hm hne
        exact absurd (List.mem_singleton.mp hm) hne
    · have hEV : ∀ (l : Nat) (cache2 : List (Option AnyVal)),
          ip < l → l < x.size → cache2.length = x.size →
          cache2.getD l none = none →
          ∃ v cache' comp,
            interpEval F T x fuel l cache2 = some (v, cache', comp) ∧
            cache'.length = x.size ∧
            (∀ m, cache2.getD m none ≠ none →
              cache'.getD m none = cache2.getD m none) ∧
            (∀ m ∈ comp, l ≤ m ∧ m < x.size) ∧
            (∀ m ∈ comp, cache2.getD m none = none) ∧
            (∀ m ∈ comp, m ≠ l → cache'.getD m none ≠ none) ∧
            comp.Nodup := by
        intro l cache2 hl1 hl2 hcl2 hn2
        exact ih l cache2 hl2 (by omega) hcl2 hn2
      obtain ⟨vals, c', comp, hrun, hlen', hpres, hbnd, hnoneC, hcov, hnd⟩ :=
        evalArgsWith_spec x (interpEval F T x fuel) ip hEV
          (x.gene ip).argsUsed cache
          (fun l hl => forwardOk_elim x hFwd ip hip l hl) hclen
      refine ⟨F (x.gene ip).sym vals, c', ip :: comp, ?_, hlen', hpres,
        ?_, ?_, ?_, ?_⟩
      · unfold interpEval
        rw [if_neg hterm, hrun]
      · intro m hm
        rcases List.mem_cons.mp hm with rfl | h2
        · exact ⟨Nat.le_refl m, hip⟩
        · exact ⟨Nat.le_of_lt (hbnd m h2).1, (hbnd m h2).2⟩
      · intro m hm
        rcases List.mem_cons.mp hm with rfl | h2
        · exact hnone
        · exact hnoneC m h2
      · intro m hm hne
        rcases List.mem_cons.mp hm with rfl | h2
        · exact absurd rfl hne
        · exact hcov m h2
      · rw [List.nodup_cons]
        refine ⟨?_, hnd⟩
        intro hmem
        exact absurd (hbnd ip hmem).1 (Nat.lt_irrefl ip)

/-- C6: for every genome satisfying the forward-reference invariant,
interpreter evaluation terminates - each argument fetch moves the
instruction pointer to a strictly larger locus, so fuel one-per-row
suffices and run() returns - with at most one value computation per
locus (the computed-locus trace has no duplicates). -/
theorem C6_interpreter_terminates (F : Symbol → List AnyVal → AnyVal)
    (T : Symbol → AnyVal) (x : Individual) (hFwd : forwardOkB x = true)
    (hb : x.best < x.size) :
    ∃ v cache comp, interpRun F T x = some (v, cache, comp) ∧
      comp.Nodup ∧ ∀ l ∈ comp, x.best ≤ l ∧ l < x.size := by
  obtain ⟨v, c', comp, hrun, _, _, hbnd, _, _, hnd⟩ :=
    interpEval_spec F T x hFwd (x.size + 1) x.best
      (List.replicate x.size none) hb (by omega)
      (by rw [List.length_replicate]) (getD_replicate_none x.size x.best)
  exact ⟨v, c', comp, hrun, hnd, hbnd⟩


/-- Witness for C6 on a concrete genome and value semantics. -/
theorem C6_interpreter_terminates_witness :
    forwardOkB xDup = true ∧ xDup.best < xDup.size ∧
    ∃ v cache comp, interpRun constF constT xDup = some (v, cache, comp) ∧
      comp.Nodup ∧ ∀ l ∈ comp, xDup.best ≤ l ∧ l < xDup.size :=
  ⟨by decide, by decide,
   C6_interpreter_terminates constF constT xDup (by decide) (by decide)⟩


theorem getD_drop {α : Type} (l : List α) (i k : Nat) (d : α) :
    (l.drop i).getD k d = l.getD (i + k) d := by
  simp [List.getD, List.getElem?_drop]

theorem getD_append_left {α : Type} (l1 l2 : List α) (k : Nat) (d : α)
    (h : k < l1.length) : (l1 ++ l2).getD k d = l1.getD k d := by
  simp [List.getD, List.getElem?_append, h]

theorem getD_append_right {α : Type} (l1 l2 : List α) (k : Nat) (d : α) :
    (l1 ++ l2).getD (l1.length + k) d = l2.getD k d := by
  have : (l1 ++ l2)[l1.length + k]? = l2[k]? := by
    rw [List.getElem?_append_right (by omega)]
    congr 1
    omega
  simp [List.getD, this]

theorem nodesT_node (s : Symbol) (p : Int) (c : List PTree) :
    nodesT (.node s p c) = 1 + nodesL c := rfl

theorem nodesL_nil : nodesL [] = 0 := rfl

theorem nodesL_cons (t : PTree) (ts : List PTree) :
    nodesL (t :: ts) = nodesT t + nodesL ts := rfl

theorem serT_node (s : Symbol) (p : Int) (c : List PTree) :
    serT (.node s p c) =
      encOp s.opcode ++ (if s.parametric then encPar p else serL c) := rfl

theorem serL_nil : serL [] = [] := rfl

theorem serL_cons (t : PTree) (ts : List PTree) :
    serL (t :: ts) = serT t ++ serL ts := rfl

theorem wfL_cons (sset : List Symbol) (t : PTree) (ts : List PTree) :
    wfL sset (t :: ts) = (wfT sset t && wfL sset ts) := rfl

theorem dec_enc_op (op : Nat) (h : op < 2 ^ 16) :
    decOp (op % 256) (op / 256 % 256) = op := by
  unfold decOp
  omega

theorem dec_enc_par (p : Int) (h1 : -(2 ^ 31 : Int) ≤ p) (h2 : p < 2 ^ 31) :
    decPar ((p % (2 ^ 32 : Nat)).toNat % 256)
      ((p % (2 ^ 32 : Nat)).toNat / 2 ^ 8 % 256)
      ((p % (2 ^ 32 : Nat)).toNat / 2 ^ 16 % 256)
      ((p % (2 ^ 32 : Nat)).toNat / 2 ^ 24 % 256) = p := by
  simp only [decPar]
  split <;> omega

theorem nodesT_pos (t : PTree) : 1 ≤ nodesT t := by
  cases t with
  | node s p c => rw [nodesT_node]; omega

theorem mem_nodesL_le (t : PTree) : ∀ (c : List PTree), t ∈ c →
    nodesT t ≤ nodesL c := by
  intro c
  induction c with
  | nil => intro h; cases h
  | cons hd tl ih =>
    intro h
    rcases List.mem_cons.mp h with rfl | h2
    · rw [nodesL_cons]; omega
    · have := ih h2
      rw [nodesL_cons]
      have := nodesT_pos hd
      omega

theorem serL_append (a b : List PTree) : serL (a ++ b) = serL a ++ serL b := by
  induction a with
  | nil => rw [serL_nil]; rfl
  | cons hd tl ih =>
    rw [List.cons_append, serL_cons, serL_cons, ih, List.append_assoc]

theorem nodesL_append (a b : List PTree) :
    nodesL (a ++ b) = nodesL a + nodesL b := by
  induction a with
  | nil => rw [nodesL_nil]; simp
  | cons hd tl ih =>
    rw [List.cons_append, nodesL_cons, nodesL_cons, ih]
    omega

theorem wfL_mem (sset : List Symbol) (t : PTree) :
    ∀ c, wfL sset c = true → t ∈ c → wfT sset t = true := by
  intro c
  induction c with
  | nil => intro _ h; cases h
  | cons hd tl ih =>
    intro hw h
    rw [wfL_cons, Bool.and_eq_true] at hw
    rcases List.mem_cons.mp h with rfl | h2
    · exact hw.1
    · exact ih hw.2 h2

theorem serT_ge_two (t : PTree) : 2 ≤ (serT t).length := by
  cases t with
  | node s p c =>
    rw [serT_node, List.length_append]
    have : (encOp s.opcode).length = 2 := rfl
    omega

theorem nodes_le_serL_len (sset : List Symbol) (N : Nat) : ∀ (c : List PTree),
    nodesL c ≤ N → wfL sset c = true → nodesL c ≤ (serL c).length := by
  induction N with
  | zero =>
    intro c h _
    omega
  | succ N ih =>
    intro c h hw
    cases c with
    | nil => rw [nodesL_nil]; simp
    | cons hd tl =>
      cases hd with
      | node s p cc =>
        rw [wfL_cons, Bool.and_eq_true] at hw
        obtain ⟨hwt, hwl⟩ := hw
        simp only [wfT, Bool.and_eq_true] at hwt
        obtain ⟨⟨⟨⟨hA, hB⟩, hC⟩, hD⟩, hwcc⟩ := hwt
        have h1 : nodesL (PTree.node s p cc :: tl) =
            1 + nodesL cc + nodesL tl := by
          rw [nodesL_cons, nodesT_node]
        have hcc : nodesL cc ≤ N := by
          rw [h1] at h
          omega
        have htl : nodesL tl ≤ N := by
          rw [h1] at h
          omega
        have i2 := ih tl htl hwl
        have hser : serL (PTree.node s p cc :: tl) =
            serT (PTree.node s p cc) ++ serL tl := rfl
        have hlen : (serT (PTree.node s p cc)).length =
            2 + (if s.parametric then encPar p else serL cc).length := by
          rw [serT_node, List.length_append]
          rfl
        rw [h1, hser, List.length_append, hlen]
        by_cases hp : s.parametric
        · rw [if_pos hp]
          rw [if_pos hp] at hD
          simp only [Bool.and_eq_true] at hD
          have hemp : cc.isEmpty = true := hD.1.1.2
          have hccnil : cc = [] := by
            cases cc with
            | nil => rfl
            | cons a b => simp [List.isEmpty] at hemp
          subst hccnil
          rw [nodesL_nil]
          have : (encPar p).length = 4 := rfl
          omega
        · rw [if_neg hp]
          have i1 := ih cc hcc hwcc
          omega

theorem nodesT_le_serT_len (sset : List Symbol) (t : PTree)
    (hw : wfT sset t = true) : nodesT t ≤ (serT t).length := by
  have hwl : wfL sset [t] = true := by
    rw [wfL_cons, Bool.and_eq_true]
    exact ⟨hw, rfl⟩
  have hle := nodes_le_serL_len sset (nodesL [t]) [t] (Nat.le_refl _) hwl
  have h1 : nodesL [t] = nodesT t := by
    rw [nodesL_cons, nodesL_nil]
    omega
  have h2 : serL [t] = serT t := by
    rw [serL_cons, serL_nil, List.append_nil]
  rw [h1, h2] at hle
  exact hle

theorem take_eq_range_map_getD {α : Type} (l : List α) (d : α) :
    ∀ n, n ≤ l.length → l.take n = (List.range n).map fun k => l.getD k d := by
  intro n
  induction n with
  | zero => intro _; simp
  | succ n ih =>
    intro h
    rw [List.range_succ, List.map_append]
    have h1 : l.take (n + 1) = l.take n ++ [l.getD n d] := by
      rw [List.getD_eq_getElem l d (by omega)]
      rw [← List.take_concat_get l n (by omega)]
      simp [List.concat_eq_append]
    rw [h1, ih (by omega)]
    simp

theorem packArgs_nil (pf : Nat → Option (List Nat)) : packArgs pf [] = some [] := rfl

theorem packArgs_cons (pf : Nat → Option (List Nat)) (a : Nat) (rest : List Nat) :
    packArgs pf (a :: rest) =
      match pf a, packArgs pf rest with
      | some l1, some l2 => some (l1 ++ l2)
      | _, _ => none := rfl

theorem packFrom_succ (x : Individual) (fuel idx : Nat) :
    packFrom x (fuel + 1) idx =
      if (x.gene idx).sym.parametric then
        some (encOp (x.gene idx).sym.opcode ++ encPar (x.gene idx).par)
      else
        (packArgs (packFrom x fuel) (x.gene idx).argsUsed).map
          (encOp (x.gene idx).sym.opcode ++ ·) := rfl

theorem unpackArgs_zero (up : Nat → List Gene → Option (Nat × List Gene))
    (base idx j consumed : Nat) (code1 : List Gene) :
    unpackArgs up base idx 0 j consumed code1 = some (consumed, code1) := rfl

theorem unpackArgs_succ (up : Nat → List Gene → Option (Nat × List Gene))
    (base idx n j consumed : Nat) (code1 : List Gene) :
    unpackArgs up base idx (n + 1) j consumed code1 =
      match up (idx + consumed) (setArgAt code1 base j code1.length) with
      | none => none
      | some r => unpackArgs up base idx n (j + 1) (consumed + r.1) r.2 := rfl

theorem unpackFrom_succ (sset : List Symbol) (fuel : Nat) (packed : List Nat)
    (idx : Nat) (code : List Gene) :
    unpackFrom sset (fuel + 1) packed idx code =
      if idx + 2 ≤ packed.length then
        match decodeSym sset (decOp (packed.getD idx 0) (packed.getD (idx + 1) 0)) with
        | none => none
        | some s =>
          match (if s.parametric then
              if idx + 6 ≤ packed.length then
                some (6, (⟨s, decPar (packed.getD (idx + 2) 0)
                  (packed.getD (idx + 3) 0) (packed.getD (idx + 4) 0)
                  (packed.getD (idx + 5) 0), mkArgs []⟩ : Gene))
              else none
            else some (2, (⟨s, 0, mkArgs []⟩ : Gene)) : Option (Nat × Gene)) with
          | none => none
          | some (hdr, g) =>
            unpackArgs (unpackFrom sset fuel packed) code.length idx
              s.arity 0 hdr (code ++ [g])
      else none := rfl

theorem set_middle {α : Type} (l1 : List α) (b c : α) (l2 : List α) :
    (l1 ++ [b] ++ l2).set l1.length c = l1 ++ [c] ++ l2 := by
  induction l1 with
  | nil => rfl
  | cons h t ih =>
    show h :: ((t ++ [b] ++ l2).set t.length c) = h :: (t ++ [c] ++ l2)
    rw [ih]

theorem getD_middle {α : Type} (l1 : List α) (b : α) (l2 : List α) (d : α) :
    (l1 ++ [b] ++ l2).getD l1.length d = b := by
  rw [List.append_assoc]
  have h := getD_append_right l1 ([b] ++ l2) 0 d
  rw [Nat.add_zero] at h
  rw [h]
  rfl


theorem argsUsed_arity_zero (g : Gene) (h : g.sym.arity = 0) :
    g.argsUsed = [] := by
  unfold Gene.argsUsed
  rw [h, List.take_zero]

theorem unpackArgs_spec (sset : List Symbol) :
    ∀ (cs : List PTree), wfL sset cs = true →
    (∀ t ∈ cs, unpOK sset t) →
    ∀ (packed : List Nat) (fuel idx consumed j : Nat)
      (codePre : List Gene) (gCur : Gene) (codeSuf : List Gene),
      (∀ t ∈ cs, nodesT t < fuel) →
      j + cs.length ≤ gCur.args.length →
      idx + consumed + (serL cs).length ≤ packed.length →
      (∀ k, k < (serL cs).length →
        packed.getD (idx + consumed + k) 0 = (serL cs).getD k 0) →
      ∃ (gFin : Gene) (blk : List Gene),
        unpackArgs (unpackFrom sset fuel packed) codePre.length idx
          cs.length j consumed (codePre ++ [gCur] ++ codeSuf) =
          some (consumed + (serL cs).length,
            codePre ++ [gFin] ++ (codeSuf ++ blk)) ∧
        blk.length = nodesL cs ∧
        gFin.sym = gCur.sym ∧ gFin.par = gCur.par ∧
        gFin.args.length = gCur.args.length ∧
        (∀ k, k < j ∨ j + cs.length ≤ k →
          gFin.args.getD k 0 = gCur.args.getD k 0) ∧
        (∀ code2 fuelP, (∀ t ∈ cs, nodesT t < fuelP) →
          (∀ k, k < nodesL cs →
            code2.getD (codePre.length + 1 + codeSuf.length + k) defaultGene =
              blk.getD k defaultGene) →
          packArgs (packFrom ⟨0, code2⟩ fuelP)
            ((List.range cs.length).map fun i => gFin.args.getD (j + i) 0) =
            some (serL cs)) ∧
        (∀ q, q < blk.length → ∀ a ∈ (blk.getD q defaultGene).argsUsed,
          codePre.length + 1 + codeSuf.length + q < a ∧
          a < codePre.length + 1 + codeSuf.length + blk.length) ∧
        (∀ i2, i2 < cs.length →
          codePre.length < gFin.args.getD (j + i2) 0 ∧
          gFin.args.getD (j + i2) 0 <
            codePre.length + 1 + codeSuf.length + blk.length) := by
  intro cs
  induction cs with
  | nil =>
    intro _ _ packed fuel idx consumed j codePre gCur codeSuf _ _ _ _
    refine ⟨gCur, [], ?_, rfl, rfl, rfl, rfl, ?_, ?_, ?_, ?_⟩
    · simp [unpackArgs_zero, serL_nil]
    · intro k _
      rfl
    · intro code2 fuelP _ _
      simp [packArgs_nil, serL_nil]
    · intro q hq
      exact absurd hq (by simp)
    · intro i2 hi2
      exact absurd hi2 (by simp)
  | cons c rest ih =>
    intro hwf hunp packed fuel idx consumed j codePre gCur codeSuf
      hfuel hjlen hbound hagree
    rw [wfL_cons, Bool.and_eq_true] at hwf
    obtain ⟨hwfc, hwfrest⟩ := hwf
    have hmemc : c ∈ c :: rest := List.mem_cons_self c rest
    have hupc : unpOK sset c := hunp c hmemc
    have hfc : nodesT c < fuel := hfuel c hmemc
    have hlc : (c :: rest).length = rest.length + 1 := List.length_cons c rest
    have hserlen : (serL (c :: rest)).length =
        (serT c).length + (serL rest).length := by
      rw [serL_cons, List.length_append]
    have hjlt : j < gCur.args.length := by omega
    have hrow : (codePre ++ [gCur] ++ codeSuf).length =
        codePre.length + 1 + codeSuf.length := by
      simp only [List.length_append, List.length_cons, List.length_nil]
    have hagc : ∀ k, k < (serT c).length →
        packed.getD (idx + consumed + k) 0 = (serT c).getD k 0 := by
      intro k hk
      have h1 := hagree k (by omega)
      rw [h1, serL_cons, getD_append_left _ _ _ _ hk]
    have hbc : idx + consumed + (serT c).length ≤ packed.length := by omega
    obtain ⟨blkC, hunC, hlenC, hrepC, hfwdC⟩ :=
      hupc packed fuel (idx + consumed)
        (codePre ++
          [{ gCur with
             args := gCur.args.set j ((codePre ++ [gCur] ++ codeSuf).length) }]
          ++ codeSuf) hfc hbc hagc
    set gCur1 : Gene :=
      { gCur with
        args := gCur.args.set j ((codePre ++ [gCur] ++ codeSuf).length) }
      with hgCur1
    have hsetA : setArgAt (codePre ++ [gCur] ++ codeSuf) codePre.length j
        ((codePre ++ [gCur] ++ codeSuf).length) =
        codePre ++ [gCur1] ++ codeSuf := by
      simp only [setArgAt]
      rw [getD_middle, set_middle]
    have hrow1 : (codePre ++ [gCur1] ++ codeSuf).length =
        codePre.length + 1 + codeSuf.length := by
      simp only [List.length_append, List.length_cons, List.length_nil]
    have hstep : unpackArgs (unpackFrom sset fuel packed) codePre.length idx
        (c :: rest).length j consumed (codePre ++ [gCur] ++ codeSuf) =
        unpackArgs (unpackFrom sset fuel packed) codePre.length idx
          rest.length (j + 1) (consumed + (serT c).length)
          (codePre ++ [gCur1] ++ (codeSuf ++ blkC)) := by
      rw [hlc, unpackArgs_succ, hsetA, hunC]
      show unpackArgs (unpackFrom sset fuel packed) codePre.length idx
          rest.length (j + 1) (consumed + (serT c).length)
          ((codePre ++ [gCur1] ++ codeSuf) ++ blkC) = _
      rw [List.append_assoc (codePre ++ [gCur1]) codeSuf blkC]
    have hglen1 : gCur1.args.length = gCur.args.length := by
      rw [hgCur1]
      exact List.length_set gCur.args j _
    have hagr : ∀ k, k < (serL rest).length →
        packed.getD (idx + (consumed + (serT c).length) + k) 0 =
          (serL rest).getD k 0 := by
      intro k hk
      have h1 := hagree ((serT c).length + k) (by omega)
      have h3 : idx + (consumed + (serT c).length) + k =
          idx + consumed + ((serT c).length + k) := by omega
      have h2 : (serL (c :: rest)).getD ((serT c).length + k) 0 =
          (serL rest).getD k 0 := by
        rw [serL_cons]
        exact getD_append_right _ _ _ _
      rw [h3, h1, h2]
    obtain ⟨gFin, blkR, hA, hB, hC, hD, hE, hF, hG, hFwdR, hSlotR⟩ :=
      ih hwfrest (fun t ht => hunp t (List.mem_cons_of_mem c ht)) packed fuel idx
        (consumed + (serT c).length) (j + 1) codePre gCur1 (codeSuf ++ blkC)
        (fun t ht => hfuel t (List.mem_cons_of_mem c ht))
        (by rw [hglen1]; omega)
        (by omega) hagr
    refine ⟨gFin, blkC ++ blkR, ?_, ?_, ?_, ?_, ?_, ?_, ?_, ?_, ?_⟩
    · rw [hstep, hA]
      have h4 : consumed + (serT c).length + (serL rest).length =
          consumed + (serL (c :: rest)).length := by omega
      rw [h4, List.append_assoc codeSuf blkC blkR]
    · rw [List.length_append, hlenC, hB, nodesL_cons]
    · rw [hC, hgCur1]
    · rw [hD, hgCur1]
    · rw [hE, hglen1]
    · intro k hk
      have hk1 : k < j + 1 ∨ (j + 1) + rest.length ≤ k := by
        rcases hk with h | h
        · left; omega
        · right; omega
      rw [hF k hk1, hgCur1]
      show (gCur.args.set j _).getD k 0 = gCur.args.getD k 0
      rw [getD_set_ite]
      have hne : ¬(j = k ∧ j < gCur.args.length) := by
        intro hc
        rcases hk with h | h
        · omega
        · omega
      rw [if_neg hne]
    · intro code2 fuelP hfp hag2
      have hposC : repackOK c ((codePre ++ [gCur1] ++ codeSuf).length) blkC :=
        hrepC
      have hj0 : gFin.args.getD (j + 0) 0 =
          (codePre ++ [gCur] ++ codeSuf).length := by
        rw [hF (j + 0) (Or.inl (by omega)), hgCur1]
        show (gCur.args.set j _).getD (j + 0) 0 = _
        rw [Nat.add_zero, getD_set_ite, if_pos ⟨rfl, hjlt⟩]
      have hpfc : packFrom ⟨0, code2⟩ fuelP
          ((codePre ++ [gCur] ++ codeSuf).length) = some (serT c) := by
        have h5 : (codePre ++ [gCur] ++ codeSuf).length =
            (codePre ++ [gCur1] ++ codeSuf).length := by
          rw [hrow, hrow1]
        rw [h5]
        apply hposC code2 fuelP (hfp c hmemc)
        intro k hk
        have h6 := hag2 k (by rw [nodesL_cons]; have := nodesT_pos c; omega)
        rw [hrow1, h6, getD_append_left blkC blkR k defaultGene
          (by rw [hlenC]; exact hk)]
      have hgrest : packArgs (packFrom ⟨0, code2⟩ fuelP)
          ((List.range rest.length).map fun i =>
            gFin.args.getD (j + 1 + i) 0) = some (serL rest) := by
        apply hG code2 fuelP (fun t ht => hfp t (List.mem_cons_of_mem c ht))
        intro k hk
        have hidx : codePre.length + 1 + (codeSuf ++ blkC).length + k =
            codePre.length + 1 + codeSuf.length + (blkC.length + k) := by
          simp only [List.length_append]
          omega
        have h7 := hag2 (nodesT c + k)
          (by rw [nodesL_cons]; omega)
        rw [hidx, hlenC, h7, ← hlenC]
        exact getD_append_right blkC blkR k defaultGene
      rw [hlc, List.range_succ_eq_map, List.map_cons, List.map_map]
      have hmapeq : ((List.range rest.length).map
          ((fun i => gFin.args.getD (j + i) 0) ∘ Nat.succ)) =
          (List.range rest.length).map fun i => gFin.args.getD (j + 1 + i) 0 := by
        apply List.map_congr_left
        intro a _
        simp only [Function.comp]
        have h8 : j + a.succ = j + 1 + a := by omega
        rw [h8]
      rw [hmapeq, packArgs_cons, hj0, hpfc, hgrest]
      show some (serT c ++ serL rest) = _
      rw [serL_cons]
    · intro q hq a ha
      rw [List.length_append] at hq
      by_cases hqc : q < blkC.length
      · rw [getD_append_left blkC blkR q defaultGene hqc] at ha
        have h9 := hfwdC q hqc a ha
        rw [hrow1] at h9
        constructor
        · omega
        · rw [List.length_append]
          omega
      · have hq2 : q = blkC.length + (q - blkC.length) := by omega
        rw [hq2, getD_append_right blkC blkR _ defaultGene] at ha
        have h9 := hFwdR (q - blkC.length) (by omega) a ha
        have h10 : (codeSuf ++ blkC).length = codeSuf.length + blkC.length :=
          List.length_append _ _
        constructor
        · omega
        · rw [List.length_append]
          omega
    · intro i2 hi2
      rw [List.length_cons] at hi2
      cases i2 with
      | zero =>
        have h9 : gFin.args.getD (j + 0) 0 =
            (codePre ++ [gCur] ++ codeSuf).length := by
          rw [hF (j + 0) (Or.inl (by omega)), hgCur1]
          show (gCur.args.set j _).getD (j + 0) 0 = _
          rw [Nat.add_zero, getD_set_ite, if_pos ⟨rfl, hjlt⟩]
        rw [h9, hrow]
        have h10 := nodesT_pos c
        constructor
        · omega
        · rw [List.length_append]
          omega
      | succ i3 =>
        have h9 := hSlotR i3 (by omega)
        have h11 : j + 1 + i3 = j + (i3 + 1) := by omega
        rw [h11] at h9
        have h10 : (codeSuf ++ blkC).length = codeSuf.length + blkC.length :=
          List.length_append _ _
        constructor
        · omega
        · rw [List.length_append]
          omega


theorem unp_spec (sset : List Symbol) (N : Nat) :
    ∀ t, nodesT t ≤ N → wfT sset t = true → unpOK sset t := by
  induction N with
  | zero =>
    intro t h _
    have := nodesT_pos t
    omega
  | succ N ihN =>
    intro t hN hw
    cases t with
    | node s p c =>
      intro packed fuel idx code hfuel hbound hagree
      simp only [wfT, Bool.and_eq_true] at hw
      obtain ⟨⟨⟨⟨hdec, hop⟩, hcap⟩, hif⟩, hwl⟩ := hw
      rw [beq_iff_eq] at hdec
      rw [decide_eq_true_eq] at hop
      rw [decide_eq_true_eq] at hcap
      cases fuel with
      | zero =>
        have := nodesT_pos (PTree.node s p c)
        omega
      | succ f =>
        have hlen2 : 2 ≤ (serT (PTree.node s p c)).length :=
          serT_ge_two (PTree.node s p c)
        have henc2 : (encOp s.opcode).length = 2 := rfl
        have hg0 : packed.getD idx 0 = s.opcode % 256 := by
          have h1 := hagree 0 (by omega)
          rw [Nat.add_zero] at h1
          rw [h1, serT_node, getD_append_left _ _ 0 0 (by omega)]
          rfl
        have hg1 : packed.getD (idx + 1) 0 = s.opcode / 256 % 256 := by
          have h1 := hagree 1 (by omega)
          rw [h1, serT_node, getD_append_left _ _ 1 0 (by omega)]
          rfl
        have hdecop : decOp (packed.getD idx 0) (packed.getD (idx + 1) 0) =
            s.opcode := by
          rw [hg0, hg1]
          exact dec_enc_op s.opcode hop
        have h2le : idx + 2 ≤ packed.length := by omega
        by_cases hp : s.parametric
        · rw [if_pos hp] at hif
          simp only [Bool.and_eq_true, decide_eq_true_eq] at hif
          obtain ⟨⟨⟨har0, hemp⟩, hlb⟩, hub⟩ := hif
          have hcnil : c = [] := by
            cases c with
            | nil => rfl
            | cons a b => simp [List.isEmpty] at hemp
          subst hcnil
          have hlen6 : (serT (PTree.node s p [])).length = 6 := by
            rw [serT_node, if_pos hp]
            rfl
          have h6le : idx + 6 ≤ packed.length := by
            rw [hlen6] at hbound
            omega
          have hg2 : packed.getD (idx + 2) 0 = (encPar p).getD 0 0 := by
            have h1 := hagree 2 (by omega)
            rw [h1, serT_node, if_pos hp]
            have h3 : (2 : Nat) = (encOp s.opcode).length + 0 := by omega
            rw [h3, getD_append_right]
          have hg3 : packed.getD (idx + 3) 0 = (encPar p).getD 1 0 := by
            have h1 := hagree 3 (by omega)
            rw [h1, serT_node, if_pos hp]
            have h3 : (3 : Nat) = (encOp s.opcode).length + 1 := by omega
            rw [h3, getD_append_right]
          have hg4 : packed.getD (idx + 4) 0 = (encPar p).getD 2 0 := by
            have h1 := hagree 4 (by omega)
            rw [h1, serT_node, if_pos hp]
            have h3 : (4 : Nat) = (encOp s.opcode).length + 2 := by omega
            rw [h3, getD_append_right]
          have hg5 : packed.getD (idx + 5) 0 = (encPar p).getD 3 0 := by
            have h1 := hagree 5 (by omega)
            rw [h1, serT_node, if_pos hp]
            have h3 : (5 : Nat) = (encOp s.opcode).length + 3 := by omega
            rw [h3, getD_append_right]
          have hdp : decPar (packed.getD (idx + 2) 0) (packed.getD (idx + 3) 0)
              (packed.getD (idx + 4) 0) (packed.getD (idx + 5) 0) = p := by
            rw [hg2, hg3, hg4, hg5]
            exact dec_enc_par p hlb hub
          have hunf : unpackFrom sset (f + 1) packed idx code =
              some (6, code ++ [(⟨s, p, mkArgs []⟩ : Gene)]) := by
            rw [unpackFrom_succ, if_pos h2le, hdecop, hdec]
            show (match (if s.parametric then
                  if idx + 6 ≤ packed.length then
                    some (6, (⟨s, decPar (packed.getD (idx + 2) 0)
                      (packed.getD (idx + 3) 0) (packed.getD (idx + 4) 0)
                      (packed.getD (idx + 5) 0), mkArgs []⟩ : Gene))
                  else none
                else some (2, (⟨s, 0, mkArgs []⟩ : Gene)) : Option (Nat × Gene)) with
              | none => none
              | some (hdr, g) =>
                unpackArgs (unpackFrom sset f packed) code.length idx
                  s.arity 0 hdr (code ++ [g])) = _
            rw [if_pos hp, if_pos h6le]
            show unpackArgs (unpackFrom sset f packed) code.length idx
                s.arity 0 6 (code ++ [(⟨s, decPar (packed.getD (idx + 2) 0)
                  (packed.getD (idx + 3) 0) (packed.getD (idx + 4) 0)
                  (packed.getD (idx + 5) 0), mkArgs []⟩ : Gene)]) = _
            rw [hdp, har0, unpackArgs_zero]
          refine ⟨[⟨s, p, mkArgs []⟩], ?_, ?_, ?_, ?_⟩
          · rw [hlen6]
            exact hunf
          · rfl
          · intro code2 fuelP hfp hagr2
            cases fuelP with
            | zero =>
              have := nodesT_pos (PTree.node s p [])
              omega
            | succ fp =>
              have hgene : Individual.gene ⟨0, code2⟩ code.length =
                  (⟨s, p, mkArgs []⟩ : Gene) := by
                show code2.getD code.length defaultGene = _
                have h1 := hagr2 0 (nodesT_pos (PTree.node s p []))
                rw [Nat.add_zero] at h1
                rw [h1]
                rfl
              rw [packFrom_succ, hgene]
              rw [if_pos hp]
              rw [serT_node, if_pos hp]
          · intro q hq a ha
            have hq0 : q = 0 := by
              rw [show ([(⟨s, p, mkArgs []⟩ : Gene)] : List Gene).length = 1
                from rfl] at hq
              omega
            subst hq0
            have h9 : ((([(⟨s, p, mkArgs []⟩ : Gene)] : List Gene)).getD 0
                defaultGene).argsUsed = [] := argsUsed_arity_zero _ har0
            rw [h9] at ha
            cases ha
        · rw [if_neg hp] at hif
          simp only [Bool.and_eq_true, decide_eq_true_eq] at hif
          obtain ⟨hclen, hpz⟩ := hif
          subst hpz
          have hlenT : (serT (PTree.node s 0 c)).length =
              2 + (serL c).length := by
            rw [serT_node, if_neg hp, List.length_append, henc2]
          have hmk4 : ((⟨s, 0, mkArgs []⟩ : Gene).args).length = 4 := rfl
          have hnodes : nodesT (PTree.node s 0 c) = 1 + nodesL c :=
            nodesT_node s 0 c
          have hunp : ∀ t2 ∈ c, unpOK sset t2 := by
            intro t2 ht2
            have h1 := mem_nodesL_le t2 c ht2
            exact ihN t2 (by omega) (wfL_mem sset t2 c hwl ht2)
          have hfc : ∀ t2 ∈ c, nodesT t2 < f := by
            intro t2 ht2
            have h1 := mem_nodesL_le t2 c ht2
            omega
          have hagc : ∀ k, k < (serL c).length →
              packed.getD (idx + 2 + k) 0 = (serL c).getD k 0 := by
            intro k hk
            have h1 := hagree (2 + k) (by omega)
            have h2 : (serT (PTree.node s 0 c)).getD (2 + k) 0 =
                (serL c).getD k 0 := by
              rw [serT_node, if_neg hp]
              have h3 : (2 : Nat) + k = (encOp s.opcode).length + k := by omega
              rw [h3, getD_append_right]
            have h4 : idx + 2 + k = idx + (2 + k) := by omega
            rw [h4, h1, h2]
          obtain ⟨gFin, blk, hA, hB, hC, hD, hE, hF, hG, hFwdB, hSlot⟩ :=
            unpackArgs_spec sset c hwl hunp packed f idx 2 0 code
              (⟨s, 0, mkArgs []⟩ : Gene) [] hfc
              (by
                rw [hmk4]
                have h9 : geneArgsCap = 4 := rfl
                omega) (by omega) hagc
          rw [List.append_nil] at hA
          rw [List.nil_append, List.append_assoc, List.singleton_append] at hA
          have hunf : unpackFrom sset (f + 1) packed idx code =
              unpackArgs (unpackFrom sset f packed) code.length idx
                s.arity 0 2 (code ++ [(⟨s, 0, mkArgs []⟩ : Gene)]) := by
            rw [unpackFrom_succ, if_pos h2le, hdecop, hdec]
            show (match (if s.parametric then
                  if idx + 6 ≤ packed.length then
                    some (6, (⟨s, decPar (packed.getD (idx + 2) 0)
                      (packed.getD (idx + 3) 0) (packed.getD (idx + 4) 0)
                      (packed.getD (idx + 5) 0), mkArgs []⟩ : Gene))
                  else none
                else some (2, (⟨s, 0, mkArgs []⟩ : Gene)) : Option (Nat × Gene)) with
              | none => none
              | some (hdr, g) =>
                unpackArgs (unpackFrom sset f packed) code.length idx
                  s.arity 0 hdr (code ++ [g])) = _
            rw [if_neg hp]
          refine ⟨gFin :: blk, ?_, ?_, ?_, ?_⟩
          · rw [hunf, ← hclen, hlenT]
            exact hA
          · rw [List.length_cons, hB, nodesT_node]
            omega
          · intro code2 fuelP hfp hagr2
            cases fuelP with
            | zero =>
              have := nodesT_pos (PTree.node s 0 c)
              omega
            | succ fp =>
              have hgene : Individual.gene ⟨0, code2⟩ code.length = gFin := by
                show code2.getD code.length defaultGene = gFin
                have h1 := hagr2 0 (nodesT_pos (PTree.node s 0 c))
                rw [Nat.add_zero] at h1
                rw [h1]
                rfl
              have hfp2 : ∀ t2 ∈ c, nodesT t2 < fp := by
                intro t2 ht2
                have h1 := mem_nodesL_le t2 c ht2
                omega
              have hagr3 : ∀ k, k < nodesL c →
                  code2.getD (code.length + 1 + ([] : List Gene).length + k)
                    defaultGene = blk.getD k defaultGene := by
                intro k hk
                have h1 := hagr2 (1 + k) (by omega)
                have h2 : code.length + (1 + k) =
                    code.length + 1 + ([] : List Gene).length + k := by
                  simp only [List.length_nil]
                  omega
                rw [← h2, h1]
                have h3 : (1 : Nat) + k = k + 1 := by omega
                rw [h3, List.getD_cons_succ]
              have hGrows := hG code2 fp hfp2 hagr3
              have hglen : s.arity ≤ gFin.args.length := by
                rw [hE, hmk4]
                have h9 : geneArgsCap = 4 := rfl
                omega
              have hau : gFin.argsUsed =
                  (List.range s.arity).map fun k => gFin.args.getD k 0 := by
                show gFin.args.take gFin.sym.arity = _
                rw [hC]
                exact take_eq_range_map_getD gFin.args 0 s.arity hglen
              have hmapeq : ((List.range c.length).map fun i =>
                  gFin.args.getD (0 + i) 0) =
                  (List.range s.arity).map fun k => gFin.args.getD k 0 := by
                rw [hclen]
                apply List.map_congr_left
                intro a _
                rw [Nat.zero_add]
              rw [hmapeq] at hGrows
              rw [packFrom_succ, hgene, hC, if_neg hp, hau, hGrows]
              rw [serT_node, if_neg hp]
              rfl
          · intro q hq a ha
            rw [List.length_cons] at hq
            cases q with
            | zero =>
              have hglen2 : s.arity ≤ gFin.args.length := by
                rw [hE, hmk4]
                have h9 : geneArgsCap = 4 := rfl
                omega
              have hau2 : gFin.argsUsed =
                  (List.range s.arity).map fun k => gFin.args.getD k 0 := by
                show gFin.args.take gFin.sym.arity = _
                rw [hC]
                exact take_eq_range_map_getD gFin.args 0 s.arity hglen2
              have ha2 : a ∈ (List.range s.arity).map fun k =>
                  gFin.args.getD k 0 := by
                rw [← hau2]
                exact ha
              obtain ⟨i2, hi2m, hieq⟩ := List.mem_map.mp ha2
              rw [List.mem_range] at hi2m
              have h9 := hSlot i2 (by omega)
              rw [Nat.zero_add] at h9
              subst hieq
              simp only [List.length_nil] at h9
              rw [List.length_cons]
              constructor
              · omega
              · omega
            | succ q2 =>
              rw [List.getD_cons_succ] at ha
              have h9 := hFwdB q2 (by omega) a ha
              simp only [List.length_nil] at h9
              rw [List.length_cons]
              constructor
              · omega
              · omega


theorem genesWf_elim (sset : List Symbol) (x : Individual)
    (hwf : genesWfB sset x = true) (i : Nat) (hi : i < x.size) :
    decodeSym sset (x.gene i).sym.opcode = some (x.gene i).sym ∧
    (x.gene i).sym.opcode < 2 ^ 16 ∧
    (x.gene i).sym.arity ≤ geneArgsCap ∧
    (x.gene i).sym.arity ≤ (x.gene i).args.length ∧
    ((x.gene i).sym.parametric = true →
      (x.gene i).sym.arity = 0 ∧ -(2 ^ 31 : Int) ≤ (x.gene i).par ∧
      (x.gene i).par < 2 ^ 31) := by
  unfold genesWfB at hwf
  rw [List.all_eq_true] at hwf
  have h1 := hwf i (List.mem_range.mpr hi)
  simp only [Bool.and_eq_true, decide_eq_true_eq, Bool.or_eq_true,
    Bool.not_eq_true', beq_iff_eq] at h1
  obtain ⟨⟨⟨⟨hdec, hop⟩, hcap⟩, hlen⟩, hpar⟩ := h1
  refine ⟨hdec, hop, hcap, hlen, ?_⟩
  intro hp
  rcases hpar with h | h
  · rw [hp] at h
    cases h
  · exact ⟨h.1.1, h.1.2, h.2⟩

theorem pack_serT (sset : List Symbol) (x : Individual)
    (hfw : forwardOkB x = true) (hwf : genesWfB sset x = true) :
    ∀ fuel idx, idx < x.size → x.size - idx < fuel →
    ∃ t, wfT sset t = true ∧ packFrom x fuel idx = some (serT t) := by
  intro fuel
  induction fuel with
  | zero =>
    intro idx _ h
    omega
  | succ f ih =>
    intro idx hidx hfu
    obtain ⟨hdec, hop, hcap, halen, hpar⟩ := genesWf_elim sset x hwf idx hidx
    by_cases hp : (x.gene idx).sym.parametric
    · obtain ⟨har0, hlb, hub⟩ := hpar hp
      refine ⟨.node (x.gene idx).sym (x.gene idx).par [], ?_, ?_⟩
      · simp only [wfT, if_pos hp, Bool.and_eq_true, beq_iff_eq,
          decide_eq_true_eq]
        exact ⟨⟨⟨⟨hdec, hop⟩, hcap⟩, ⟨⟨⟨har0, rfl⟩, hlb⟩, hub⟩⟩, rfl⟩
      · rw [packFrom_succ, if_pos hp, serT_node, if_pos hp]
    · have hkids : ∀ locs, (∀ a ∈ locs, idx < a ∧ a < x.size) →
          ∃ ts, packArgs (packFrom x f) locs = some (serL ts) ∧
            wfL sset ts = true ∧ ts.length = locs.length := by
        intro locs
        induction locs with
        | nil =>
          intro _
          exact ⟨[], by rw [packArgs_nil, serL_nil], rfl, rfl⟩
        | cons a rest ihl =>
          intro hmem
          obtain ⟨ha1, ha2⟩ := hmem a (List.mem_cons_self a rest)
          obtain ⟨t1, hw1, hp1⟩ := ih a ha2 (by omega)
          obtain ⟨ts, hps, hws, hls⟩ :=
            ihl (fun b hb => hmem b (List.mem_cons_of_mem a hb))
          refine ⟨t1 :: ts, ?_, ?_, ?_⟩
          · rw [packArgs_cons, hp1, hps, serL_cons]
          · rw [wfL_cons, Bool.and_eq_true]
            exact ⟨hw1, hws⟩
          · rw [List.length_cons, hls, List.length_cons]
      have hmema : ∀ a ∈ (x.gene idx).argsUsed, idx < a ∧ a < x.size :=
        fun a ha => forwardOk_elim x hfw idx hidx a ha
      obtain ⟨ts, hps, hws, hls⟩ := hkids (x.gene idx).argsUsed hmema
      have hal : (x.gene idx).argsUsed.length = (x.gene idx).sym.arity := by
        show ((x.gene idx).args.take (x.gene idx).sym.arity).length = _
        rw [List.length_take]
        exact Nat.min_eq_left halen
      refine ⟨.node (x.gene idx).sym 0 ts, ?_, ?_⟩
      · simp only [wfT, if_neg hp, Bool.and_eq_true, beq_iff_eq,
          decide_eq_true_eq]
        exact ⟨⟨⟨⟨hdec, hop⟩, hcap⟩, ⟨by rw [hls, hal], trivial⟩⟩, hws⟩
      · rw [packFrom_succ, if_neg hp, hps, serT_node, if_neg hp]
        rfl


/-- C8: round-trip of the persisted genome byte stream.  For any genome
satisfying the forward-reference invariant and the per-row catalog side
conditions, packing the active code to bytes succeeds, unpacking that
byte stream succeeds, the rebuilt individual packs back to the identical
byte stream, and therefore its canonical signature equals the
original's. -/
theorem C8_pack_unpack_roundtrip (sset : List Symbol) (x : Individual)
    (hfw : forwardOkB x = true) (hwf : genesWfB sset x = true)
    (hbest : x.best < x.size) :
    ∃ (packed : List Nat) (y : Individual),
      x.pack = some packed ∧
      unpackAll sset packed = some y ∧
      y.pack = some packed ∧
      signatureOf y = signatureOf x := by
  obtain ⟨t, hwt, hpk⟩ :=
    pack_serT sset x hfw hwf (x.size + 1) x.best hbest (by omega)
  have hx : x.pack = some (serT t) := hpk
  have hnle := nodesT_le_serT_len sset t hwt
  obtain ⟨blk, hun, hlen, hrep, hfwdblk⟩ :=
    unp_spec sset (nodesT t) t (Nat.le_refl _) hwt (serT t)
      ((serT t).length + 1) 0 [] (by omega) (by omega)
      (by
        intro k hk
        rw [Nat.zero_add])
  have hyall : unpackAll sset (serT t) = some ⟨0, blk⟩ := by
    unfold unpackAll
    rw [hun]
    show some (⟨0, [] ++ blk⟩ : Individual) = _
    rw [List.nil_append]
  have hyp : Individual.pack ⟨0, blk⟩ = some (serT t) := by
    show packFrom ⟨0, blk⟩ (blk.length + 1) 0 = some (serT t)
    apply hrep blk (blk.length + 1) (by omega)
    intro k hk
    rw [List.length_nil, Nat.zero_add]
  have hsig : signatureOf ⟨0, blk⟩ = signatureOf x := by
    unfold signatureOf
    rw [hyp, hx]
  exact ⟨serT t, ⟨0, blk⟩, hx, hyall, hyp, hsig⟩

/-- Witness for C8 on a three row genome mixing a function, a parametric
constant and an input terminal. -/
theorem C8_pack_unpack_roundtrip_witness :
    forwardOkB xMix = true ∧ genesWfB [exAdd, exX, exC] xMix = true ∧
    xMix.best < xMix.size ∧
    ∃ (packed : List Nat) (y : Individual),
      xMix.pack = some packed ∧
      unpackAll [exAdd, exX, exC] packed = some y ∧
      y.pack = some packed ∧
      signatureOf y = signatureOf xMix :=
  ⟨by decide, by decide, by decide,
   C8_pack_unpack_roundtrip [exAdd, exX, exC] xMix (by decide) (by decide)
     (by decide)⟩


theorem forwardOk_iff (x : Individual) :
    forwardOkB x = true ↔
    ∀ i, i < x.size → ∀ a ∈ (x.gene i).argsUsed, i < a ∧ a < x.size := by
  unfold forwardOkB forwardGeneB
  rw [List.all_eq_true]
  constructor
  · intro h i hi a ha
    have h1 := h i (List.mem_range.mpr hi)
    rw [List.all_eq_true] at h1
    have h2 := h1 a ha
    simp only [Bool.and_eq_true, decide_eq_true_eq] at h2
    exact h2
  · intro h p hp
    rw [List.all_eq_true]
    intro a ha
    have h1 := h p (List.mem_range.mp hp) a ha
    simp only [Bool.and_eq_true, decide_eq_true_eq]
    exact h1

theorem sampleGene_arity_terminal (sset : List Symbol) (lo hi : Nat)
    (d : GeneDraw) (hlh : ¬ lo < hi) :
    (sampleGene sset lo hi d).sym.arity = 0 := by
  have hallz : ∀ s2 ∈ (if lo < hi then sset
      else sset.filter fun s => s.terminal), s2.arity = 0 := by
    rw [if_neg hlh]
    intro s2 hs2
    have hterm := (List.mem_filter.mp hs2).2
    unfold Symbol.terminal at hterm
    rw [beq_iff_eq] at hterm
    exact hterm
  simp only [sampleGene]
  by_cases hlen : d.symIdx % (if lo < hi then sset
      else sset.filter fun s => s.terminal).length <
      (if lo < hi then sset else sset.filter fun s => s.terminal).length
  · rw [List.getD_eq_getElem _ nullSymbol hlen]
    exact hallz _ (List.getElem_mem hlen)
  · rw [List.getD_eq_default _ _ (by omega)]
    rfl

theorem sampleGene_forward (sset : List Symbol) (lo hi : Nat) (d : GeneDraw) :
    ∀ a ∈ (sampleGene sset lo hi d).argsUsed, lo ≤ a ∧ a < hi := by
  intro a ha
  by_cases hlh : lo < hi
  · have ha2 : a ∈ (List.range geneArgsCap).map fun j =>
        if lo < hi then lo + (d.argSeeds.getD j 0) % (hi - lo) else 0 := by
      unfold Gene.argsUsed at ha
      exact List.mem_of_mem_take ha
    obtain ⟨j, _, hj⟩ := List.mem_map.mp ha2
    rw [if_pos hlh] at hj
    have hm : (d.argSeeds.getD j 0) % (hi - lo) < hi - lo :=
      Nat.mod_lt _ (by omega)
    omega
  · rw [argsUsed_arity_zero _ (sampleGene_arity_terminal sset lo hi d hlh)] at ha
    cases ha

theorem mutation_forward (e : Env) (x : Individual) (coins : List ℚ)
    (draws : List GeneDraw) (hfw : forwardOkB x = true) :
    forwardOkB (Individual.mutation e x coins draws).2 = true := by
  obtain ⟨_, _, hsz, hgene⟩ := mutation_characterization e x coins draws
  rw [forwardOk_iff]
  intro i hi a ha
  rw [hsz] at hi
  rw [hgene i hi] at ha
  rw [hsz]
  by_cases hc : coinFires e.pMutation (coins.getD i 1)
  · rw [if_pos hc] at ha
    have h1 := sampleGene_forward _ _ _ _ a ha
    omega
  · rw [if_neg hc] at ha
    exact (forwardOk_iff x).mp hfw i hi a ha

theorem uniformCross_size (x parent : Individual) (flips : List Bool) :
    (x.uniformCross parent flips).size = x.size := by
  unfold Individual.uniformCross Individual.size
  rw [List.length_map, List.length_range]

theorem cross1_size (x parent : Individual) (cut : Nat) (base : Bool) :
    (x.cross1 parent cut base).size = x.size := by
  unfold Individual.cross1 Individual.size
  rw [List.length_map, List.length_range]

theorem cross2_size (x parent : Individual) (c1 c2 : Nat) (base : Bool) :
    (x.cross2 parent c1 c2 base).size = x.size := by
  unfold Individual.cross2 Individual.size
  rw [List.length_map, List.length_range]

theorem uniformCross_forward (x parent : Individual) (flips : List Bool)
    (hx : forwardOkB x = true) (hp : forwardOkB parent = true)
    (hsz : parent.size = x.size) :
    forwardOkB (x.uniformCross parent flips) = true := by
  rw [forwardOk_iff]
  intro i hi a ha
  rw [uniformCross_size] at hi
  rw [uniformCross_gene, if_pos hi] at ha
  rw [uniformCross_size]
  by_cases hf : flips.getD i true
  · rw [if_pos hf] at ha
    exact (forwardOk_iff x).mp hx i hi a ha
  · rw [if_neg hf] at ha
    have h1 := (forwardOk_iff parent).mp hp i (by omega) a ha
    omega

theorem cross1_forward (x parent : Individual) (cut : Nat) (base : Bool)
    (hx : forwardOkB x = true) (hp : forwardOkB parent = true)
    (hsz : parent.size = x.size) :
    forwardOkB (x.cross1 parent cut base) = true := by
  rw [forwardOk_iff]
  intro i hi a ha
  rw [cross1_size] at hi
  rw [cross1_gene, if_pos hi] at ha
  rw [cross1_size]
  have hxs := (forwardOk_iff x).mp hx i hi
  have hps : ∀ a ∈ (parent.gene i).argsUsed, i < a ∧ a < x.size := by
    intro b hb
    have h1 := (forwardOk_iff parent).mp hp i (by omega) b hb
    omega
  by_cases h1 : i < cut
  · rw [if_pos h1] at ha
    cases base
    · exact hxs a ha
    · exact hps a ha
  · rw [if_neg h1] at ha
    cases base
    · exact hps a ha
    · exact hxs a ha

theorem cross2_forward (x parent : Individual) (c1 c2 : Nat) (base : Bool)
    (hx : forwardOkB x = true) (hp : forwardOkB parent = true)
    (hsz : parent.size = x.size) :
    forwardOkB (x.cross2 parent c1 c2 base) = true := by
  rw [forwardOk_iff]
  intro i hi a ha
  rw [cross2_size] at hi
  rw [cross2_gene, if_pos hi] at ha
  rw [cross2_size]
  have hxs := (forwardOk_iff x).mp hx i hi
  have hps : ∀ a ∈ (parent.gene i).argsUsed, i < a ∧ a < x.size := by
    intro b hb
    have h1 := (forwardOk_iff parent).mp hp i (by omega) b hb
    omega
  by_cases h1 : i < c1
  · rw [if_pos h1] at ha
    cases base
    · exact hxs a ha
    · exact hps a ha
  · rw [if_neg h1] at ha
    by_cases h2 : i < c2
    · rw [if_pos h2] at ha
      cases base
      · exact hps a ha
      · exact hxs a ha
    · rw [if_neg h2] at ha
      cases base
      · exact hxs a ha
      · exact hps a ha

theorem overwriteArgs_length : ∀ (old new : List Nat),
    (overwriteArgs old new).length = old.length := by
  intro old
  induction old with
  | nil =>
    intro new
    cases new <;> rfl
  | cons h t ih =>
    intro new
    cases new with
    | nil => rfl
    | cons n rest =>
      show (n :: overwriteArgs t rest).length = _
      rw [List.length_cons, ih, List.length_cons]

theorem overwriteArgs_take : ∀ (old new : List Nat),
    new.length ≤ old.length → (overwriteArgs old new).take new.length = new := by
  intro old
  induction old with
  | nil =>
    intro new h
    have : new = [] := by
      cases new with
      | nil => rfl
      | cons a b => simp at h
    subst this
    rfl
  | cons h t ih =>
    intro new hlen
    cases new with
    | nil => rfl
    | cons n rest =>
      show (n :: overwriteArgs t rest).take (rest.length + 1) = n :: rest
      rw [List.take_succ_cons, ih rest (by simpa using hlen)]

theorem replace_forward (x : Individual) (sym : Symbol) (args : List Nat)
    (line : Nat) (hfw : forwardOkB x = true)
    (hlen : args.length = sym.arity)
    (hcap : sym.arity ≤ (x.gene line).args.length)
    (hargs : ∀ a ∈ args, line < a ∧ a < x.size) :
    forwardOkB (x.replace sym args line) = true := by
  rw [forwardOk_iff]
  intro i hi a ha
  have hsz : (x.replace sym args line).size = x.size := size_setGene x line _
  rw [hsz] at hi
  rw [hsz]
  have hgene : (x.replace sym args line).gene i =
      if line = i ∧ line < x.size then
        { x.gene line with
            sym := sym
            args := overwriteArgs (x.gene line).args args }
      else x.gene i := gene_setGene x line i _
  rw [hgene] at ha
  by_cases hc : line = i ∧ line < x.size
  · rw [if_pos hc] at ha
    have hau : ({ x.gene line with
        sym := sym
        args := overwriteArgs (x.gene line).args args } : Gene).argsUsed =
        args := by
      show (overwriteArgs (x.gene line).args args).take sym.arity = args
      rw [← hlen]
      exact overwriteArgs_take _ _ (by omega)
    rw [hau] at ha
    have h1 := hargs a ha
    omega
  · rw [if_neg hc] at ha
    exact (forwardOk_iff x).mp hfw i hi a ha

theorem destroyBlock_forward (e : Env) (x : Individual) (line : Nat)
    (d : GeneDraw) (hfw : forwardOkB x = true) :
    forwardOkB (x.destroyBlock e line d) = true := by
  rw [forwardOk_iff]
  intro i hi a ha
  have hsz : (x.destroyBlock e line d).size = x.size := size_setGene x line _
  rw [hsz] at hi
  rw [hsz]
  have hgene : (x.destroyBlock e line d).gene i =
      if line = i ∧ line < x.size then sampleGene e.sset 0 0 d
      else x.gene i := gene_setGene x line i _
  rw [hgene] at ha
  by_cases hc : line = i ∧ line < x.size
  · rw [if_pos hc] at ha
    have h1 := sampleGene_forward _ _ _ _ a ha
    omega
  · rw [if_neg hc] at ha
    exact (forwardOk_iff x).mp hfw i hi a ha

theorem setGene_argSymbol_forward (y : Individual) (line j : Nat)
    (h : forwardOkB y = true) :
    forwardOkB (y.setGene line { y.gene line with sym := argSymbol j }) =
      true := by
  rw [forwardOk_iff]
  intro i hi a ha
  rw [size_setGene] at hi
  rw [gene_setGene] at ha
  rw [size_setGene]
  by_cases hc : line = i ∧ line < y.size
  · rw [if_pos hc] at ha
    have hz : ({ y.gene line with sym := argSymbol j } : Gene).argsUsed = [] :=
      argsUsed_arity_zero _ rfl
    rw [hz] at ha
    cases ha
  · rw [if_neg hc] at ha
    exact (forwardOk_iff y).mp h i hi a ha

theorem foldl_generalize_forward (shuffled : List Nat) :
    ∀ (l : List Nat) (acc : Individual × List Nat × List Nat),
      forwardOkB acc.1 = true →
      forwardOkB (l.foldl
        (fun acc j =>
          let line := shuffled.getD j 0
          let g := acc.1.gene line
          (acc.1.setGene line { g with sym := argSymbol j },
           acc.2.1 ++ [line], acc.2.2 ++ [g.sym.category])) acc).1 = true := by
  intro l
  induction l with
  | nil =>
    intro acc h
    exact h
  | cons j rest ih =>
    intro acc h
    rw [List.foldl_cons]
    exact ih _ (setGene_argSymbol_forward acc.1 (shuffled.getD j 0) j h)

theorem generalize_forward (x : Individual) (maxArgs : Nat) (seeds : List Nat)
    (hfw : forwardOkB x = true) :
    forwardOkB (x.generalize maxArgs seeds).1 = true := by
  simp only [Individual.generalize]
  exact foldl_generalize_forward _ _ _ hfw


theorem randomIndividual_size (e : Env) (draws : List GeneDraw) :
    (randomIndividual e draws).size = e.codeLength := by
  unfold randomIndividual Individual.size
  rw [List.length_map, List.length_range]

theorem randomIndividual_forward (e : Env) (draws : List GeneDraw) :
    forwardOkB (randomIndividual e draws) = true := by
  rw [forwardOk_iff]
  intro i hi a ha
  rw [randomIndividual_size] at hi
  have hg : (randomIndividual e draws).gene i =
      sampleGene e.sset (i + 1) e.codeLength (draws.getD i default) := by
    unfold randomIndividual Individual.gene
    rw [getD_range_map, if_pos hi]
  rw [hg] at ha
  have h1 := sampleGene_forward _ _ _ _ a ha
  rw [randomIndividual_size]
  omega


theorem insertSorted_mem (n b : Nat) : ∀ (l : List Nat),
    b ∈ insertSorted n l ↔ b = n ∨ b ∈ l := by
  intro l
  induction l with
  | nil => simp [insertSorted]
  | cons m rest ih =>
    unfold insertSorted
    by_cases h1 : n < m
    · rw [if_pos h1]
      simp [List.mem_cons]
    · rw [if_neg h1]
      by_cases h2 : n = m
      · rw [if_pos h2]
        subst h2
        simp [List.mem_cons]
      · rw [if_neg h2]
        simp only [List.mem_cons, ih]
        tauto

theorem insertSorted_pairwise (n : Nat) : ∀ (l : List Nat),
    List.Pairwise (· < ·) l → List.Pairwise (· < ·) (insertSorted n l) := by
  intro l
  induction l with
  | nil =>
    intro _
    simp [insertSorted]
  | cons m rest ih =>
    intro hp
    rw [List.pairwise_cons] at hp
    obtain ⟨hm, hrest⟩ := hp
    unfold insertSorted
    by_cases h1 : n < m
    · rw [if_pos h1, List.pairwise_cons]
      constructor
      · intro b hb
        rcases List.mem_cons.mp hb with rfl | hb2
        · exact h1
        · exact lt_trans h1 (hm b hb2)
      · rw [List.pairwise_cons]
        exact ⟨hm, hrest⟩
    · rw [if_neg h1]
      by_cases h2 : n = m
      · rw [if_pos h2, List.pairwise_cons]
        exact ⟨hm, hrest⟩
      · rw [if_neg h2, List.pairwise_cons]
        constructor
        · intro b hb
          rcases (insertSorted_mem n b rest).mp hb with rfl | hb2
          · omega
          · exact hm b hb2
        · exact ih hrest

theorem insertAllSorted_mem : ∀ (l pending : List Nat) (b : Nat),
    b ∈ insertAllSorted l pending ↔ b ∈ l ∨ b ∈ pending := by
  intro l
  induction l with
  | nil =>
    intro pending b
    simp [insertAllSorted]
  | cons a rest ih =>
    intro pending b
    show b ∈ insertAllSorted rest (insertSorted a pending) ↔ _
    rw [ih, insertSorted_mem]
    simp only [List.mem_cons]
    tauto

theorem insertAllSorted_pairwise : ∀ (l pending : List Nat),
    List.Pairwise (· < ·) pending →
    List.Pairwise (· < ·) (insertAllSorted l pending) := by
  intro l
  induction l with
  | nil =>
    intro pending h
    exact h
  | cons a rest ih =>
    intro pending h
    exact ih _ (insertSorted_pairwise a pending h)

theorem activeStep_spec (x : Individual) (hfw : forwardOkB x = true) :
    ∀ (fuel : Nat) (pending : List Nat),
      List.Pairwise (· < ·) pending →
      (∀ p ∈ pending, p < x.size) →
      (∀ p ∈ pending, x.size - p < fuel) →
      (∀ p ∈ pending, p ∈ activeStep x fuel pending) ∧
      List.Pairwise (· < ·) (activeStep x fuel pending) ∧
      (∀ v ∈ activeStep x fuel pending, v < x.size ∧ ∃ p ∈ pending, p ≤ v) ∧
      (∀ l ∈ activeStep x fuel pending,
        ∀ a ∈ (x.gene l).argsUsed, a ∈ activeStep x fuel pending) := by
  intro fuel
  induction fuel with
  | zero =>
    intro pending hsort hlt hfu
    have hemp : pending = [] := by
      cases pending with
      | nil => rfl
      | cons p rest =>
        have h1 := hfu p (List.mem_cons_self p rest)
        omega
    subst hemp
    refine ⟨?_, ?_, ?_, ?_⟩ <;> simp [activeStep]
  | succ f ih =>
    intro pending hsort hlt hfu
    cases pending with
    | nil =>
      refine ⟨?_, ?_, ?_, ?_⟩ <;> simp [activeStep]
    | cons l rest =>
      have hstep : activeStep x (f + 1) (l :: rest) =
          l :: activeStep x f (insertAllSorted (x.gene l).argsUsed rest) := rfl
      rw [List.pairwise_cons] at hsort
      obtain ⟨hlall, hrsort⟩ := hsort
      have hlsz : l < x.size := hlt l (List.mem_cons_self l rest)
      have hargs : ∀ a ∈ (x.gene l).argsUsed, l < a ∧ a < x.size :=
        (forwardOk_iff x).mp hfw l hlsz
      have hmem2 : ∀ b, b ∈ insertAllSorted (x.gene l).argsUsed rest ↔
          b ∈ (x.gene l).argsUsed ∨ b ∈ rest :=
        fun b => insertAllSorted_mem _ _ _
      have hgt : ∀ p ∈ insertAllSorted (x.gene l).argsUsed rest, l < p := by
        intro p hp
        rcases (hmem2 p).mp hp with h | h
        · exact (hargs p h).1
        · exact hlall p h
      have hsort2 : List.Pairwise (· < ·)
          (insertAllSorted (x.gene l).argsUsed rest) :=
        insertAllSorted_pairwise _ _ hrsort
      have hlt2 : ∀ p ∈ insertAllSorted (x.gene l).argsUsed rest,
          p < x.size := by
        intro p hp
        rcases (hmem2 p).mp hp with h | h
        · exact (hargs p h).2
        · exact hlt p (List.mem_cons_of_mem l h)
      have hfu2 : ∀ p ∈ insertAllSorted (x.gene l).argsUsed rest,
          x.size - p < f := by
        intro p hp
        have h1 := hgt p hp
        have h2 := hfu l (List.mem_cons_self l rest)
        omega
      obtain ⟨ihmem, ihsort, ihbnd, ihclose⟩ := ih _ hsort2 hlt2 hfu2
      rw [hstep]
      refine ⟨?_, ?_, ?_, ?_⟩
      · intro p hp
        rcases List.mem_cons.mp hp with rfl | h
        · exact List.mem_cons_self _ _
        · exact List.mem_cons_of_mem _ (ihmem p ((hmem2 p).mpr (Or.inr h)))
      · rw [List.pairwise_cons]
        refine ⟨?_, ihsort⟩
        intro b hb
        obtain ⟨_, p, hp, hpb⟩ := ihbnd b hb
        have h1 := hgt p hp
        omega
      · intro v hv
        rcases List.mem_cons.mp hv with h | h
        · subst h
          exact ⟨hlsz, v, List.mem_cons_self _ _, Nat.le_refl v⟩
        · obtain ⟨h1, p, hp, hpv⟩ := ihbnd v h
          refine ⟨h1, l, List.mem_cons_self _ _, ?_⟩
          have h2 := hgt p hp
          omega
      · intro l2 hl2 a ha
        rcases List.mem_cons.mp hl2 with rfl | h
        · exact List.mem_cons_of_mem _ (ihmem a ((hmem2 a).mpr (Or.inl ha)))
        · exact List.mem_cons_of_mem _ (ihclose l2 h a ha)

theorem activeLoci_spec (x : Individual) (hfw : forwardOkB x = true)
    (hbest : x.best < x.size) :
    List.Pairwise (· < ·) x.activeLoci ∧
    (∀ v ∈ x.activeLoci, x.best ≤ v ∧ v < x.size) ∧
    (∀ l ∈ x.activeLoci, ∀ a ∈ (x.gene l).argsUsed, a ∈ x.activeLoci) ∧
    x.best ∈ x.activeLoci := by
  have h := activeStep_spec x hfw (x.size + 1) [x.best]
    (by simp)
    (by
      intro p hp
      rcases List.mem_cons.mp hp with rfl | h2
      · exact hbest
      · cases h2)
    (by
      intro p hp
      rcases List.mem_cons.mp hp with rfl | h2
      · omega
      · cases h2)
  obtain ⟨hmem, hsort, hbnd, hclose⟩ := h
  refine ⟨hsort, ?_, hclose, hmem x.best (List.mem_cons_self _ _)⟩
  intro v hv
  obtain ⟨h1, p, hp, hpv⟩ := hbnd v hv
  rcases List.mem_cons.mp hp with rfl | h2
  · exact ⟨hpv, h1⟩
  · cases h2

theorem pairwise_lt_getD (L : List Nat) (hs : List.Pairwise (· < ·) L) :
    ∀ r s2, r < s2 → s2 < L.length → L.getD r 0 < L.getD s2 0 := by
  intro r s2 hrs hsl
  rw [List.getD_eq_getElem L 0 (by omega), List.getD_eq_getElem L 0 hsl]
  exact List.pairwise_iff_getElem.mp hs r s2 (by omega) hsl hrs

theorem pairwise_getD_ge_index (L : List Nat)
    (hs : List.Pairwise (· < ·) L) :
    ∀ r, r < L.length → r ≤ L.getD r 0 := by
  intro r
  induction r with
  | zero =>
    intro _
    omega
  | succ k ih =>
    intro h
    have h1 := ih (by omega)
    have h2 := pairwise_lt_getD L hs k (k + 1) (by omega) h
    omega

theorem pairwise_length_le (L : List Nat) (N : Nat)
    (hs : List.Pairwise (· < ·) L) (hb : ∀ v ∈ L, v < N) :
    L.length ≤ N := by
  cases hL : L.length with
  | zero => omega
  | succ k =>
    have h1 := pairwise_getD_ge_index L hs k (by omega)
    have h2 : L.getD k 0 ∈ L := by
      rw [List.getD_eq_getElem L 0 (by omega)]
      exact List.getElem_mem (by omega)
    have h3 := hb _ h2
    omega


theorem posIn_some_spec : ∀ (L : List Nat) (a j : Nat),
    posIn L a = some j → j < L.length ∧ L.getD j 0 = a := by
  intro L
  induction L with
  | nil =>
    intro a j h
    cases h
  | cons b rest ih =>
    intro a j h
    unfold posIn at h
    by_cases hab : a = b
    · rw [if_pos hab] at h
      cases h
      subst hab
      constructor
      · rw [List.length_cons]
        omega
      · rfl
    · rw [if_neg hab] at h
      obtain ⟨j2, h2, h3⟩ := Option.map_eq_some'.mp h
      obtain ⟨h4, h5⟩ := ih a j2 h2
      subst h3
      constructor
      · rw [List.length_cons]
        omega
      · show rest.getD j2 0 = a
        exact h5

theorem posIn_mem : ∀ (L : List Nat) (a : Nat), a ∈ L →
    ∃ j, posIn L a = some j := by
  intro L
  induction L with
  | nil =>
    intro a h
    cases h
  | cons b rest ih =>
    intro a h
    unfold posIn
    by_cases hab : a = b
    · rw [if_pos hab]
      exact ⟨0, rfl⟩
    · rw [if_neg hab]
      rcases List.mem_cons.mp h with h2 | h2
      · exact absurd h2 hab
      · obtain ⟨j, hj⟩ := ih a h2
        exact ⟨j + 1, by rw [hj]; rfl⟩

theorem mapUsedArgs_sym (f : Nat → Nat) (g : Gene) :
    (mapUsedArgs f g).sym = g.sym := rfl

theorem mapUsedArgs_par (f : Nat → Nat) (g : Gene) :
    (mapUsedArgs f g).par = g.par := rfl

theorem mapUsedArgs_args_length (f : Nat → Nat) (g : Gene) :
    (mapUsedArgs f g).args.length = g.args.length := by
  show ((g.args.take g.sym.arity).map f ++ g.args.drop g.sym.arity).length =
    g.args.length
  rw [List.length_append, List.length_map, List.length_take, List.length_drop]
  omega

theorem argsUsed_mapUsedArgs (f : Nat → Nat) (g : Gene) :
    (mapUsedArgs f g).argsUsed = g.argsUsed.map f := by
  show (((g.args.take g.sym.arity).map f ++ g.args.drop g.sym.arity).take
    g.sym.arity) = (g.args.take g.sym.arity).map f
  rw [List.take_append_eq_append_take]
  have h1 : ((g.args.take g.sym.arity).map f).length =
      min g.sym.arity g.args.length := by
    rw [List.length_map, List.length_take]
  by_cases h : g.sym.arity ≤ g.args.length
  · rw [List.take_of_length_le (by omega)]
    have h2 : g.sym.arity - ((g.args.take g.sym.arity).map f).length = 0 := by
      omega
    rw [h2, List.take_zero, List.append_nil]
  · rw [List.take_of_length_le (by omega)]
    have h2 : g.args.drop g.sym.arity = [] :=
      List.drop_eq_nil_of_le (by omega)
    rw [h2]
    simp
  
theorem mapUsedArgs_comp (f g : Nat → Nat) (x : Gene) :
    mapUsedArgs f (mapUsedArgs g x) = mapUsedArgs (fun b => f (g b)) x := by
  unfold mapUsedArgs
  have hsym : ({ x with args :=
      (x.args.take x.sym.arity).map g ++ x.args.drop x.sym.arity } :
      Gene).sym = x.sym := rfl
  congr 1
  rw [hsym]
  have htake := argsUsed_mapUsedArgs g x
  unfold Gene.argsUsed mapUsedArgs at htake
  rw [htake, List.map_map]
  congr 1
  show ((x.args.take x.sym.arity).map g ++ x.args.drop x.sym.arity).drop
    x.sym.arity = x.args.drop x.sym.arity
  rw [List.drop_append_eq_append_drop]
  have h1 : ((x.args.take x.sym.arity).map g).length =
      min x.sym.arity x.args.length := by
    rw [List.length_map, List.length_take]
  by_cases h : x.sym.arity ≤ x.args.length
  · rw [List.drop_eq_nil_of_le (by omega)]
    have h2 : x.sym.arity - ((x.args.take x.sym.arity).map g).length = 0 := by
      omega
    rw [h2, List.drop_zero, List.nil_append]
  · have h2 : x.args.drop x.sym.arity = [] :=
      List.drop_eq_nil_of_le (by omega)
    rw [h2]
    simp

theorem mapUsedArgs_eq_self (f : Nat → Nat) (g : Gene)
    (h : ∀ b ∈ g.argsUsed, f b = b) : mapUsedArgs f g = g := by
  unfold mapUsedArgs
  have h1 : (g.args.take g.sym.arity).map f = g.args.take g.sym.arity := by
    have h2 := List.map_congr_left (f := f) (g := id) h
    unfold Gene.argsUsed at h2
    rw [h2, List.map_id]
  rw [h1, List.take_append_drop]

theorem mapUsedArgs_congr (f1 f2 : Nat → Nat) (g : Gene)
    (h : ∀ b, f1 b = f2 b) : mapUsedArgs f1 g = mapUsedArgs f2 g := by
  have : f1 = f2 := funext h
  rw [this]


theorem length_enum_map {α β : Type} (l : List α) (f : Nat × α → β) :
    (l.enum.map f).length = l.length := by
  rw [List.length_map, List.enum_length]

theorem getD_enum_map {α β : Type} (l : List α) (f : Nat × α → β) (r : Nat)
    (d : β) (dl : α) (h : r < l.length) :
    (l.enum.map f).getD r d = f (r, l.getD r dl) := by
  rw [List.getD_eq_getElem _ d (by rw [length_enum_map]; exact h)]
  rw [List.getElem_map, List.getElem_enum]
  rw [List.getD_eq_getElem _ dl h]

theorem retargetBelow_length (bound oldL newL : Nat) (code : List Gene) :
    (retargetBelow bound oldL newL code).length = code.length :=
  length_enum_map code _

theorem retargetBelow_getD (bound oldL newL : Nat) (code : List Gene)
    (r : Nat) (h : r < code.length) :
    (retargetBelow bound oldL newL code).getD r defaultGene =
      if r < bound then
        mapUsedArgs (fun a => if a = oldL then newL else a)
          (code.getD r defaultGene)
      else code.getD r defaultGene := by
  unfold retargetBelow
  rw [getD_enum_map code _ r defaultGene defaultGene h]

theorem phiC_of_some (order : List Nat) (k b j : Nat)
    (h : posIn order b = some j) : phiC order k b = if j < k then j else b := by
  unfold phiC
  rw [h]

theorem phiC_of_none (order : List Nat) (k b : Nat)
    (h : posIn order b = none) : phiC order k b = b := by
  unfold phiC
  rw [h]

theorem phi_step (order : List Nat) (hs : List.Pairwise (· < ·) order)
    (k : Nat) (hk : k < order.length) :
    ∀ b, (if phiC order k b = order.getD k 0 then k else phiC order k b) =
      phiC order (k + 1) b := by
  intro b
  cases hpos : posIn order b with
  | none =>
    rw [phiC_of_none order k b hpos, phiC_of_none order (k + 1) b hpos]
    have hne : b ≠ order.getD k 0 := by
      intro hEq
      have hmem : b ∈ order := by
        rw [hEq, List.getD_eq_getElem _ 0 hk]
        exact List.getElem_mem hk
      obtain ⟨j, hj⟩ := posIn_mem order b hmem
      rw [hj] at hpos
      cases hpos
    rw [if_neg hne]
  | some j =>
    obtain ⟨hjl, hjv⟩ := posIn_some_spec order b j hpos
    rw [phiC_of_some order k b j hpos, phiC_of_some order (k + 1) b j hpos]
    by_cases h1 : j < k
    · have hne : j ≠ order.getD k 0 := by
        have h2 := pairwise_getD_ge_index order hs k hk
        omega
      rw [if_pos h1, if_neg hne, if_pos (by omega)]
    · by_cases h2 : j = k
      · subst h2
        rw [if_neg h1, if_pos hjv.symm, if_pos (by omega)]
      · have h3 : k < j := by omega
        have h4 : order.getD k 0 < order.getD j 0 :=
          pairwise_lt_getD order hs k j h3 hjl
        have hne : b ≠ order.getD k 0 := by omega
        rw [if_neg h1, if_neg hne, if_neg (by omega)]


theorem compact_eq (x : Individual) :
    x.compact = (x.activeLoci.enum.foldl (compactStep x) x,
      x.activeLoci.length) := rfl

theorem compactStep_len (x d : Individual) (k a : Nat)
    (hdl : d.code.length = x.size) :
    (compactStep x d (k, a)).code.length = x.size := by
  show (retargetBelow k a k (d.code.set k (x.gene a))).length = x.size
  rw [retargetBelow_length, List.length_set]
  exact hdl

theorem compactStep_gene (x d : Individual) (k a r : Nat)
    (hdl : d.code.length = x.size) (hk : k < x.size) :
    (compactStep x d (k, a)).gene r =
      if r < k then
        mapUsedArgs (fun b => if b = a then k else b) (d.gene r)
      else if r = k then x.gene a
      else d.gene r := by
  show (retargetBelow k a k (d.code.set k (x.gene a))).getD r defaultGene = _
  by_cases hrs : r < x.size
  · rw [retargetBelow_getD _ _ _ _ r (by rw [List.length_set]; omega)]
    rw [getD_set_ite]
    by_cases h1 : r < k
    · rw [if_pos h1, if_neg (by omega : ¬(k = r ∧ k < d.code.length)),
        if_pos h1]
      rfl
    · rw [if_neg h1, if_neg h1]
      by_cases h2 : r = k
      · rw [if_pos (by omega : k = r ∧ k < d.code.length), if_pos h2]
      · rw [if_neg (by omega : ¬(k = r ∧ k < d.code.length)), if_neg h2]
        rfl
  · have h1 : (retargetBelow k a k (d.code.set k (x.gene a))).getD r
        defaultGene = defaultGene := by
      apply List.getD_eq_default
      rw [retargetBelow_length, List.length_set]
      omega
    rw [h1, if_neg (by omega), if_neg (by omega)]
    show defaultGene = d.code.getD r defaultGene
    symm
    apply List.getD_eq_default
    omega

theorem compact_fold_spec (x : Individual) (hfw : forwardOkB x = true)
    (order : List Nat) (hs : List.Pairwise (· < ·) order)
    (hlt : ∀ v ∈ order, v < x.size) :
    ∀ (tail : List Nat), ∀ (k : Nat) (d : Individual),
      order.drop k = tail →
      k ≤ order.length →
      d.code.length = x.size →
      (∀ r, k ≤ r → d.gene r = x.gene r) →
      (∀ r, r < k → d.gene r =
        mapUsedArgs (phiC order k) (x.gene (order.getD r 0))) →
      ((List.enumFrom k tail).foldl (compactStep x) d).code.length = x.size ∧
      (∀ r, order.length ≤ r →
        ((List.enumFrom k tail).foldl (compactStep x) d).gene r = x.gene r) ∧
      (∀ r, r < order.length →
        ((List.enumFrom k tail).foldl (compactStep x) d).gene r =
          mapUsedArgs (phiC order order.length)
            (x.gene (order.getD r 0))) := by
  intro tail
  induction tail with
  | nil =>
    intro k d hdrop hkle hdl hup hlo
    have hk : order.length ≤ k := by
      have h1 : (order.drop k).length = order.length - k :=
        List.length_drop k order
      rw [hdrop] at h1
      rw [List.length_nil] at h1
      by_contra hc
      omega
    refine ⟨hdl, ?_, ?_⟩
    · intro r hr
      show d.gene r = x.gene r
      exact hup r (by omega)
    · intro r hr
      have h1 := hlo r (by omega)
      show d.gene r = _
      rw [h1]
      apply mapUsedArgs_congr
      intro b
      cases hpos : posIn order b with
      | none => rw [phiC_of_none _ _ _ hpos, phiC_of_none _ _ _ hpos]
      | some j =>
        obtain ⟨hjl, _⟩ := posIn_some_spec order b j hpos
        rw [phiC_of_some _ _ _ _ hpos, phiC_of_some _ _ _ _ hpos,
          if_pos (by omega), if_pos hjl]
  | cons a tail2 ih =>
    intro k d hdrop hkle hdl hup hlo
    have hk : k < order.length := by
      have h1 : (order.drop k).length = order.length - k :=
        List.length_drop k order
      rw [hdrop, List.length_cons] at h1
      omega
    have ha : order.getD k 0 = a := by
      have h1 := getD_drop order k 0 0
      rw [hdrop] at h1
      rw [Nat.add_zero] at h1
      exact h1.symm
    have hdrop2 : order.drop (k + 1) = tail2 := by
      have h1 : order.drop (k + 1) = (order.drop k).drop 1 := by
        rw [List.drop_drop]
      rw [h1, hdrop]
      rfl
    have hamem : a ∈ order := by
      rw [← ha, List.getD_eq_getElem _ 0 hk]
      exact List.getElem_mem hk
    have hklt : k < x.size := by
      have h2 := hlt a hamem
      have h3 := pairwise_getD_ge_index order hs k hk
      omega
    have hstep : (List.enumFrom k (a :: tail2)).foldl (compactStep x) d =
        (List.enumFrom (k + 1) tail2).foldl (compactStep x)
          (compactStep x d (k, a)) := rfl
    have hd2len : (compactStep x d (k, a)).code.length = x.size :=
      compactStep_len x d k a hdl
    have hup2 : ∀ r, k + 1 ≤ r → (compactStep x d (k, a)).gene r =
        x.gene r := by
      intro r hr
      rw [compactStep_gene x d k a r hdl hklt]
      rw [if_neg (by omega), if_neg (by omega)]
      exact hup r (by omega)
    have hlo2 : ∀ r, r < k + 1 → (compactStep x d (k, a)).gene r =
        mapUsedArgs (phiC order (k + 1)) (x.gene (order.getD r 0)) := by
      intro r hr
      rw [compactStep_gene x d k a r hdl hklt]
      by_cases h1 : r < k
      · rw [if_pos h1, hlo r h1, mapUsedArgs_comp]
        apply mapUsedArgs_congr
        intro b
        rw [← phi_step order hs k hk b, ha]
      · have h2 : r = k := by omega
        subst h2
        rw [if_neg (by omega), if_pos rfl, ← ha]
        symm
        apply mapUsedArgs_eq_self
        intro b hb
        have hsz : order.getD r 0 < x.size := by
          rw [ha]
          exact hlt a hamem
        have hfwd := (forwardOk_iff x).mp hfw (order.getD r 0) hsz b hb
        cases hpos : posIn order b with
        | none => exact phiC_of_none _ _ _ hpos
        | some j =>
          rw [phiC_of_some _ _ _ _ hpos]
          obtain ⟨hjl, hjv⟩ := posIn_some_spec order b j hpos
          have hjr : r < j := by
            by_contra hc
            rcases Nat.lt_or_ge j r with h4 | h4
            · have h5 := pairwise_lt_getD order hs j r h4 hk
              omega
            · have h5 : j = r := by omega
              subst h5
              omega
          rw [if_neg (by omega)]
    rw [hstep]
    exact ih (k + 1) (compactStep x d (k, a)) hdrop2 (by omega) hd2len hup2 hlo2

theorem compact_spec (x : Individual) (hfw : forwardOkB x = true)
    (hbest : x.best < x.size) :
    (x.compact).1.code.length = x.size ∧
    (x.compact).2 = x.activeLoci.length ∧
    (∀ r, x.activeLoci.length ≤ r → (x.compact).1.gene r = x.gene r) ∧
    (∀ r, r < x.activeLoci.length → (x.compact).1.gene r =
      mapUsedArgs (phiC x.activeLoci x.activeLoci.length)
        (x.gene (x.activeLoci.getD r 0))) := by
  obtain ⟨hsort, hbnd, _, _⟩ := activeLoci_spec x hfw hbest
  have h := compact_fold_spec x hfw x.activeLoci hsort
    (fun v hv => (hbnd v hv).2) x.activeLoci 0 x rfl (by omega) rfl
    (fun r _ => rfl) (fun r hr => absurd hr (by omega))
  obtain ⟨h1, h2, h3⟩ := h
  rw [compact_eq]
  exact ⟨h1, rfl, h2, h3⟩


theorem kind_not_adf_iff (k : SymKind) :
    (match k with
     | SymKind.adfRef _ => false
     | _ => true) = true ↔ ∀ id, k ≠ SymKind.adfRef id := by
  cases k <;> simp

theorem genesOk_elim (x : Individual) (hgo : genesOkB x = true) :
    ∀ i, i < x.size → GeneOk (x.gene i) := by
  intro i hi
  unfold genesOkB at hgo
  rw [List.all_eq_true] at hgo
  have h1 := hgo i (List.mem_range.mpr hi)
  simp only [Bool.and_eq_true, decide_eq_true_eq, Bool.or_eq_true,
    Bool.not_eq_true'] at h1
  obtain ⟨⟨⟨h2, h3⟩, h4⟩, h5⟩ := h1
  refine ⟨h2, h3, ?_, (kind_not_adf_iff _).mp h5⟩
  intro hp
  rcases h4 with h | h
  · rw [hp] at h
    cases h
  · exact h

theorem geneOk_default : GeneOk defaultGene := by
  refine ⟨by decide, by decide, fun _ => rfl, ?_⟩
  intro id h
  cases h

theorem geneOk_mapUsedArgs (f : Nat → Nat) (g : Gene) (h : GeneOk g) :
    GeneOk (mapUsedArgs f g) := by
  obtain ⟨h1, h2, h3, h4⟩ := h
  refine ⟨?_, ?_, ?_, ?_⟩
  · rw [mapUsedArgs_sym]
    exact h1
  · rw [mapUsedArgs_sym, mapUsedArgs_args_length]
    exact h2
  · rw [mapUsedArgs_sym]
    exact h3
  · rw [mapUsedArgs_sym]
    exact h4

theorem pairwise_index_lt (order : List Nat)
    (hs : List.Pairwise (· < ·) order) (r j : Nat)
    (hr : r < order.length) (_hj : j < order.length)
    (h : order.getD r 0 < order.getD j 0) : r < j := by
  by_contra hc
  rcases Nat.lt_or_ge j r with h4 | h4
  · have h5 := pairwise_lt_getD order hs j r h4 hr
    omega
  · have h5 : j = r := by omega
    subst h5
    omega

theorem compact_size (x : Individual) (hfw : forwardOkB x = true)
    (hbest : x.best < x.size) : (x.compact).1.size = x.size :=
  (compact_spec x hfw hbest).1

theorem compact_arg_spec (x : Individual) (hfw : forwardOkB x = true)
    (hbest : x.best < x.size) :
    ∀ r, r < x.activeLoci.length →
      GeneOk (x.gene (x.activeLoci.getD r 0)) →
      (GeneOk ((x.compact).1.gene r) ∧
       ∀ b ∈ ((x.compact).1.gene r).argsUsed,
         r < b ∧ b < x.activeLoci.length) := by
  obtain ⟨hsort, hbnd, hclose, _⟩ := activeLoci_spec x hfw hbest
  obtain ⟨_, _, _, hlo⟩ := compact_spec x hfw hbest
  intro r hr hok
  rw [hlo r hr]
  constructor
  · exact geneOk_mapUsedArgs _ _ hok
  · intro b hb
    rw [argsUsed_mapUsedArgs] at hb
    obtain ⟨b0, hb0, hbeq⟩ := List.mem_map.mp hb
    have hmemr : x.activeLoci.getD r 0 ∈ x.activeLoci := by
      rw [List.getD_eq_getElem _ 0 hr]
      exact List.getElem_mem hr
    have hb0mem : b0 ∈ x.activeLoci := hclose _ hmemr b0 hb0
    have hfwd := (forwardOk_iff x).mp hfw (x.activeLoci.getD r 0)
      (hbnd _ hmemr).2 b0 hb0
    obtain ⟨j, hj⟩ := posIn_mem _ _ hb0mem
    obtain ⟨hjl, hjv⟩ := posIn_some_spec _ _ _ hj
    rw [phiC_of_some _ _ _ _ hj, if_pos hjl] at hbeq
    subst hbeq
    refine ⟨?_, hjl⟩
    apply pairwise_index_lt x.activeLoci hsort r j hr hjl
    omega

theorem compact_forward (x : Individual) (hfw : forwardOkB x = true)
    (hbest : x.best < x.size) (hgo : genesOkB x = true) :
    forwardOkB (x.compact).1 = true := by
  obtain ⟨hsort, hbnd, hclose, _⟩ := activeLoci_spec x hfw hbest
  have hLsz : x.activeLoci.length ≤ x.size :=
    pairwise_length_le _ _ hsort (fun v hv => (hbnd v hv).2)
  rw [forwardOk_iff]
  intro i hi a ha
  rw [compact_size x hfw hbest] at hi ⊢
  by_cases hiL : i < x.activeLoci.length
  · have hok := genesOk_elim x hgo (x.activeLoci.getD i 0)
      (hbnd _ (by
        rw [List.getD_eq_getElem _ 0 hiL]
        exact List.getElem_mem hiL)).2
    have h1 := (compact_arg_spec x hfw hbest i hiL hok).2 a ha
    omega
  · rw [(compact_spec x hfw hbest).2.2.1 i (by omega)] at ha
    exact (forwardOk_iff x).mp hfw i hi a ha

theorem compact_rowOk (x : Individual) (hfw : forwardOkB x = true)
    (hbest : x.best < x.size) (hgo : genesOkB x = true) :
    RowOk (x.compact).1.code (x.activeLoci.length - 1) := by
  obtain ⟨hsort, hbnd, hclose, hbm⟩ := activeLoci_spec x hfw hbest
  have hL1 : 1 ≤ x.activeLoci.length := by
    cases hL : x.activeLoci.length with
    | zero =>
      rw [List.length_eq_zero] at hL
      rw [hL] at hbm
      cases hbm
    | succ n => omega
  intro i hiT
  have hiL : i < x.activeLoci.length := by omega
  have hok := genesOk_elim x hgo (x.activeLoci.getD i 0)
    (hbnd _ (by
      rw [List.getD_eq_getElem _ 0 hiL]
      exact List.getElem_mem hiL)).2
  obtain ⟨h1, h2⟩ := compact_arg_spec x hfw hbest i hiL hok
  constructor
  · show GeneOk ((x.compact).1.gene i)
    exact h1
  · intro a ha
    have h3 := h2 a ha
    omega


theorem shiftUp_length (code : List Gene) (i found : Nat) :
    (shiftUp code i found).length = code.length :=
  length_enum_map code _

theorem shiftUp_getD (code : List Gene) (i found r : Nat)
    (h : r < code.length) :
    (shiftUp code i found).getD r defaultGene =
      if r = 0 ∨ i < r then code.getD r defaultGene
      else adjFound i found (code.getD (r - 1) defaultGene) := by
  unfold shiftUp
  rw [getD_enum_map code _ r defaultGene defaultGene h]

theorem shiftUp_spec (code : List Gene) (lastT i found : Nat)
    (hlen : lastT < code.length) (hrow : RowOk code lastT)
    (hiT : i ≤ lastT) (hfd1 : i < found) (hfd2 : found ≤ lastT) :
    RowOk (shiftUp code i found) lastT ∧
    (∀ r, lastT < r → (shiftUp code i found).getD r defaultGene =
      code.getD r defaultGene) := by
  constructor
  · intro r hrT
    rw [shiftUp_getD _ _ _ r (by omega)]
    by_cases hc : r = 0 ∨ i < r
    · rw [if_pos hc]
      exact hrow r hrT
    · rw [if_neg hc]
      push_neg at hc
      obtain ⟨hr0, hri⟩ := hc
      obtain ⟨hok0, hargs0⟩ := hrow (r - 1) (by omega)
      constructor
      · exact geneOk_mapUsedArgs _ _ hok0
      · intro a ha
        unfold adjFound at ha
        rw [argsUsed_mapUsedArgs] at ha
        obtain ⟨b0, hb0, hbeq⟩ := List.mem_map.mp ha
        obtain ⟨h1, h2⟩ := hargs0 b0 hb0
        subst hbeq
        by_cases hbi : b0 = i
        · rw [if_pos hbi]
          omega
        · rw [if_neg hbi]
          by_cases hbl : b0 < i
          · rw [if_pos hbl]
            omega
          · rw [if_neg hbl]
            omega
  · intro r hrT
    by_cases hrl : r < code.length
    · rw [shiftUp_getD _ _ _ r hrl, if_pos (by omega)]
    · rw [List.getD_eq_default _ _ (by rw [shiftUp_length]; omega),
        List.getD_eq_default _ _ (by omega)]

theorem moveBack_length (code : List Gene) (best i ft : Nat) :
    (moveBack code best i ft).length = code.length := by
  unfold moveBack
  rw [length_enum_map, length_enum_map]

theorem mbInner_getD (code : List Gene) (best i ft s : Nat)
    (h : s < code.length) :
    ((code.enum.map fun gi =>
        if best ≤ gi.1 ∧ gi.1 < i then
          mapUsedArgs
            (fun a => if a = i then ft else if i < a ∧ a ≤ ft then a - 1 else a)
            gi.2
        else gi.2) : List Gene).getD s defaultGene =
      if best ≤ s ∧ s < i then
        mapUsedArgs
          (fun a => if a = i then ft else if i < a ∧ a ≤ ft then a - 1 else a)
          (code.getD s defaultGene)
      else code.getD s defaultGene := by
  rw [getD_enum_map code _ s defaultGene defaultGene h]

theorem moveBack_getD (code : List Gene) (best i ft r : Nat)
    (h : r < code.length) :
    (moveBack code best i ft).getD r defaultGene =
      (if i ≤ r ∧ r < ft then
        mapUsedArgs (fun a => if a ≤ ft then a - 1 else a)
          (((code.enum.map fun gi =>
              if best ≤ gi.1 ∧ gi.1 < i then
                mapUsedArgs (fun a => if a = i then ft
                  else if i < a ∧ a ≤ ft then a - 1 else a) gi.2
              else gi.2) : List Gene).getD (r + 1) defaultGene)
      else if r = ft then
        ((code.enum.map fun gi =>
            if best ≤ gi.1 ∧ gi.1 < i then
              mapUsedArgs (fun a => if a = i then ft
                else if i < a ∧ a ≤ ft then a - 1 else a) gi.2
            else gi.2) : List Gene).getD i defaultGene
      else
        ((code.enum.map fun gi =>
            if best ≤ gi.1 ∧ gi.1 < i then
              mapUsedArgs (fun a => if a = i then ft
                else if i < a ∧ a ≤ ft then a - 1 else a) gi.2
            else gi.2) : List Gene).getD r defaultGene) := by
  unfold moveBack
  rw [getD_enum_map _ _ r defaultGene defaultGene
    (by rw [length_enum_map]; exact h)]

theorem moveBack_spec (code : List Gene) (lastT best i ft : Nat)
    (hlen : lastT < code.length) (hrow : RowOk code lastT)
    (hift : i < ft) (hftT : ft ≤ lastT)
    (hterm : (code.getD i defaultGene).sym.arity = 0) :
    RowOk (moveBack code best i ft) lastT ∧
    (∀ r, lastT < r → (moveBack code best i ft).getD r defaultGene =
      code.getD r defaultGene) := by
  have hinner : ∀ s, s ≤ lastT →
      GeneOk (((code.enum.map fun gi =>
          if best ≤ gi.1 ∧ gi.1 < i then
            mapUsedArgs (fun a => if a = i then ft
              else if i < a ∧ a ≤ ft then a - 1 else a) gi.2
          else gi.2) : List Gene).getD s defaultGene) ∧
      (∀ a ∈ (((code.enum.map fun gi =>
          if best ≤ gi.1 ∧ gi.1 < i then
            mapUsedArgs (fun a => if a = i then ft
              else if i < a ∧ a ≤ ft then a - 1 else a) gi.2
          else gi.2) : List Gene).getD s defaultGene).argsUsed,
        s < a ∧ a ≤ lastT) := by
    intro s hsT
    rw [mbInner_getD _ _ _ _ _ (by omega)]
    obtain ⟨hok0, hargs0⟩ := hrow s hsT
    by_cases hc : best ≤ s ∧ s < i
    · rw [if_pos hc]
      refine ⟨geneOk_mapUsedArgs _ _ hok0, ?_⟩
      intro a ha
      rw [argsUsed_mapUsedArgs] at ha
      obtain ⟨b0, hb0, hbeq⟩ := List.mem_map.mp ha
      obtain ⟨h1, h2⟩ := hargs0 b0 hb0
      subst hbeq
      by_cases hbi : b0 = i
      · rw [if_pos hbi]
        omega
      · rw [if_neg hbi]
        by_cases hbl : i < b0 ∧ b0 ≤ ft
        · rw [if_pos hbl]
          omega
        · rw [if_neg hbl]
          omega
    · rw [if_neg hc]
      exact ⟨hok0, hargs0⟩
  have hinner_high : ∀ s, lastT < s →
      (((code.enum.map fun gi =>
          if best ≤ gi.1 ∧ gi.1 < i then
            mapUsedArgs (fun a => if a = i then ft
              else if i < a ∧ a ≤ ft then a - 1 else a) gi.2
          else gi.2) : List Gene).getD s defaultGene) =
        code.getD s defaultGene := by
    intro s hsT
    by_cases hsl : s < code.length
    · rw [mbInner_getD _ _ _ _ _ hsl, if_neg (by omega)]
    · rw [List.getD_eq_default _ _ (by rw [length_enum_map]; omega),
        List.getD_eq_default _ _ (by omega)]
  constructor
  · intro r hrT
    rw [moveBack_getD _ _ _ _ r (by omega)]
    by_cases hc1 : i ≤ r ∧ r < ft
    · rw [if_pos hc1]
      obtain ⟨hok1, hargs1⟩ := hinner (r + 1) (by omega)
      refine ⟨geneOk_mapUsedArgs _ _ hok1, ?_⟩
      intro a ha
      rw [argsUsed_mapUsedArgs] at ha
      obtain ⟨b0, hb0, hbeq⟩ := List.mem_map.mp ha
      obtain ⟨h1, h2⟩ := hargs1 b0 hb0
      subst hbeq
      by_cases hbl : b0 ≤ ft
      · rw [if_pos hbl]
        omega
      · rw [if_neg hbl]
        omega
    · rw [if_neg hc1]
      by_cases hc2 : r = ft
      · rw [if_pos hc2]
        have h1 : ¬(best ≤ i ∧ i < i) := by omega
        rw [mbInner_getD _ _ _ _ _ (by omega), if_neg h1]
        obtain ⟨hok2, _⟩ := hrow i (by omega)
        refine ⟨hok2, ?_⟩
        intro a ha
        rw [argsUsed_arity_zero _ hterm] at ha
        cases ha
      · rw [if_neg hc2]
        exact hinner r hrT
  · intro r hrT
    by_cases hrl : r < code.length
    · rw [moveBack_getD _ _ _ _ r hrl, if_neg (by omega), if_neg (by omega)]
      exact hinner_high r hrT
    · rw [List.getD_eq_default _ _ (by rw [moveBack_length]; omega),
        List.getD_eq_default _ _ (by omega)]

theorem findDup_bounds (code : List Gene) (firstT lastT i found : Nat)
    (h : findDup code firstT lastT i = some found) :
    firstT ≤ found ∧ found ≤ lastT := by
  unfold findDup at h
  have hmem := List.mem_of_find?_eq_some h
  obtain ⟨v, hv, hveq⟩ := List.mem_map.mp hmem
  rw [List.mem_range] at hv
  omega

theorem optLoop_succ (lastT fuel : Nat) (st : OptState) (i : Nat) :
    optLoop lastT (fuel + 1) st i =
      if st.firstT ≤ i then st
      else
        if (st.code.getD i defaultGene).sym.terminal then
          match findDup st.code st.firstT lastT i with
          | some found =>
            optLoop lastT fuel
              { st with
                  code := shiftUp st.code i found
                  best := st.best + 1 }
              (i + 1)
          | none =>
            if st.firstT - 1 = i then
              optLoop lastT fuel { st with firstT := st.firstT - 1 } (i + 1)
            else
              optLoop lastT fuel
                { st with
                    code := moveBack st.code st.best i (st.firstT - 1)
                    firstT := st.firstT - 1 } i
        else optLoop lastT fuel st (i + 1) := rfl

theorem optLoop_spec (lastT : Nat) :
    ∀ (fuel : Nat) (st : OptState) (i : Nat),
      lastT < st.code.length →
      RowOk st.code lastT →
      st.firstT ≤ lastT + 1 →
      ((optLoop lastT fuel st i).code.length = st.code.length ∧
       RowOk (optLoop lastT fuel st i).code lastT ∧
       (∀ r, lastT < r → (optLoop lastT fuel st i).code.getD r defaultGene =
         st.code.getD r defaultGene)) := by
  intro fuel
  induction fuel with
  | zero =>
    intro st i h1 h2 h3
    exact ⟨rfl, h2, fun _ _ => rfl⟩
  | succ f ih =>
    intro st i h1 h2 h3
    rw [optLoop_succ]
    by_cases hout : st.firstT ≤ i
    · rw [if_pos hout]
      exact ⟨rfl, h2, fun _ _ => rfl⟩
    · rw [if_neg hout]
      have hiT : i ≤ lastT := by omega
      by_cases hterm : (st.code.getD i defaultGene).sym.terminal
      · rw [if_pos hterm]
        have harz : (st.code.getD i defaultGene).sym.arity = 0 := by
          unfold Symbol.terminal at hterm
          rw [beq_iff_eq] at hterm
          exact hterm
        cases hfind : findDup st.code st.firstT lastT i with
        | some found =>
          obtain ⟨hfd1, hfd2⟩ := findDup_bounds _ _ _ _ _ hfind
          obtain ⟨hro, hhi⟩ := shiftUp_spec st.code lastT i found h1 h2 hiT
            (by omega) hfd2
          obtain ⟨ih1, ih2, ih3⟩ := ih
            { st with
                code := shiftUp st.code i found
                best := st.best + 1 }
            (i + 1)
            (by
              show lastT < (shiftUp st.code i found).length
              rw [shiftUp_length]
              exact h1)
            hro h3
          refine ⟨?_, ih2, ?_⟩
          · rw [ih1]
            exact shiftUp_length _ _ _
          · intro r hr
            rw [ih3 r hr]
            exact hhi r hr
        | none =>
          by_cases hft : st.firstT - 1 = i
          · rw [if_pos hft]
            exact ih { st with firstT := st.firstT - 1 } (i + 1) h1 h2
              (by
                show st.firstT - 1 ≤ lastT + 1
                omega)
          · rw [if_neg hft]
            have hift : i < st.firstT - 1 := by omega
            obtain ⟨hro, hhi⟩ := moveBack_spec st.code lastT st.best i
              (st.firstT - 1) h1 h2 hift (by omega) harz
            obtain ⟨ih1, ih2, ih3⟩ := ih
              { st with
                  code := moveBack st.code st.best i (st.firstT - 1)
                  firstT := st.firstT - 1 }
              i
              (by
                show lastT < (moveBack st.code st.best i (st.firstT - 1)).length
                rw [moveBack_length]
                exact h1)
              hro
              (by
                show st.firstT - 1 ≤ lastT + 1
                omega)
            refine ⟨?_, ih2, ?_⟩
            · rw [ih1]
              exact moveBack_length _ _ _ _
            · intro r hr
              rw [ih3 r hr]
              exact hhi r hr
      · rw [if_neg hterm]
        exact ih st (i + 1) h1 h2 h3


theorem optimize_spec (x : Individual) (hfw : forwardOkB x = true)
    (hbest : x.best < x.size) (hgo : genesOkB x = true) :
    (x.optimize).1.size = x.size ∧
    (x.optimize).2.2 < x.size ∧
    RowOk (x.optimize).1.code ((x.optimize).2.2) ∧
    (∀ r, (x.optimize).2.2 < r → (x.optimize).1.gene r = x.gene r) ∧
    forwardOkB (x.optimize).1 = true := by
  obtain ⟨hclen, hc2, hchigh, hclo⟩ := compact_spec x hfw hbest
  obtain ⟨hsort, hbnd, hclose, hbm⟩ := activeLoci_spec x hfw hbest
  have hL1 : 1 ≤ x.activeLoci.length := by
    cases hL : x.activeLoci.length with
    | zero =>
      rw [List.length_eq_zero] at hL
      rw [hL] at hbm
      cases hbm
    | succ n => omega
  have hLsz : x.activeLoci.length ≤ x.size :=
    pairwise_length_le _ _ hsort (fun v hv => (hbnd v hv).2)
  have hrowc := compact_rowOk x hfw hbest hgo
  have heq : x.optimize =
      (⟨(optLoop ((x.compact).2 - 1) (2 * x.size + 2)
          ⟨(x.compact).1.code, (x.compact).1.best, (x.compact).2 - 1⟩ 1).best,
        (optLoop ((x.compact).2 - 1) (2 * x.size + 2)
          ⟨(x.compact).1.code, (x.compact).1.best, (x.compact).2 - 1⟩ 1).code⟩,
       (optLoop ((x.compact).2 - 1) (2 * x.size + 2)
          ⟨(x.compact).1.code, (x.compact).1.best, (x.compact).2 - 1⟩ 1).firstT,
       (x.compact).2 - 1) := rfl
  obtain ⟨ho1, ho2, ho3⟩ := optLoop_spec ((x.compact).2 - 1) (2 * x.size + 2)
    ⟨(x.compact).1.code, (x.compact).1.best, (x.compact).2 - 1⟩ 1
    (by
      show (x.compact).2 - 1 < (x.compact).1.code.length
      rw [hclen, hc2]
      omega)
    (by
      show RowOk (x.compact).1.code ((x.compact).2 - 1)
      rw [hc2]
      exact hrowc)
    (by
      show (x.compact).2 - 1 ≤ (x.compact).2 - 1 + 1
      omega)
  rw [heq]
  set st1 := optLoop ((x.compact).2 - 1) (2 * x.size + 2)
    ⟨(x.compact).1.code, (x.compact).1.best, (x.compact).2 - 1⟩ 1 with hst
  have hsz1 : st1.code.length = x.size := by
    rw [ho1]
    exact hclen
  have hhigh : ∀ r, (x.compact).2 - 1 < r →
      st1.code.getD r defaultGene = x.gene r := by
    intro r hr
    rw [ho3 r hr]
    show (x.compact).1.gene r = x.gene r
    exact hchigh r (by omega)
  refine ⟨hsz1, ?_, ho2, ?_, ?_⟩
  · show (x.compact).2 - 1 < x.size
    rw [hc2]
    omega
  · intro r hr
    exact hhigh r hr
  · rw [forwardOk_iff]
    intro i hi a ha
    have hi2 : i < x.size := by
      have h4 := hi
      rw [show (⟨st1.best, st1.code⟩ : Individual).size = st1.code.length from
        rfl, hsz1] at h4
      exact h4
    have hsz2 : (⟨st1.best, st1.code⟩ : Individual).size = x.size := by
      show st1.code.length = x.size
      exact hsz1
    rw [hsz2]
    by_cases hiT : i ≤ (x.compact).2 - 1
    · obtain ⟨_, hargs⟩ := ho2 i hiT
      have h2 := hargs a ha
      omega
    · have h3 : (⟨st1.best, st1.code⟩ : Individual).gene i = x.gene i := by
        show st1.code.getD i defaultGene = x.gene i
        exact hhigh i (by omega)
      rw [h3] at ha
      exact (forwardOk_iff x).mp hfw i hi2 a ha


theorem getD_args_mem (g : Gene) (j : Nat) (hj : j < g.sym.arity)
    (hlen : g.sym.arity ≤ g.args.length) : g.args.getD j 0 ∈ g.argsUsed := by
  unfold Gene.argsUsed
  have h1 : (g.args.take g.sym.arity).getD j 0 = g.args.getD j 0 := by
    rw [List.getD_eq_getElem _ 0 (by rw [List.length_take]; omega),
      List.getD_eq_getElem _ 0 (by omega)]
    exact List.getElem_take g.args
  rw [← h1, List.getD_eq_getElem _ 0 (by rw [List.length_take]; omega)]
  exact List.getElem_mem _

theorem normWriteGene_args_length (base g : Gene) (ll : List (Option Nat)) :
    (normWriteGene base g ll).args.length = base.args.length := by
  unfold normWriteGene
  by_cases hp : g.sym.parametric
  · rw [if_pos hp]
  · rw [if_neg hp]
    exact overwriteArgs_length _ _

theorem normLoop_succ (e : Env) (source : Individual)
    (args : Option (List Nat))
    (recNorm : Individual → Option (List Nat) → Nat → Individual →
      Option (Nat × Individual)) (n i : Nat)
    (ll : List (Option Nat)) (destL : Nat) (dest : Individual) :
    normLoop e source args recNorm (n + 1) i ll destL dest =
      (if destL = 0 then none
      else
        match ll.getD i none with
        | none => normLoop e source args recNorm n (i - 1) ll destL dest
        | some _ =>
          match (source.gene i).sym.kind with
          | SymKind.adfRef id =>
            match recNorm (e.adfs.getD id ⟨0, []⟩)
                (some ((List.range (source.gene i).sym.arity).map fun j =>
                  (ll.getD ((source.gene i).args.getD j 0) none).getD 0))
                destL dest with
            | none => none
            | some r =>
              normLoop e source args recNorm n (i - 1)
                (ll.set i (some r.1)) r.1 r.2
          | SymKind.argPh idx =>
            match args with
            | some av =>
              normLoop e source args recNorm n (i - 1)
                (ll.set i (some (av.getD idx 0))) destL dest
            | none =>
              normLoop e source args recNorm n (i - 1)
                (ll.set i (some (destL - 1))) (destL - 1)
                (dest.setGene (destL - 1)
                  (normWriteGene (dest.gene (destL - 1)) (source.gene i) ll))
          | _ =>
            normLoop e source args recNorm n (i - 1)
              (ll.set i (some (destL - 1))) (destL - 1)
              (dest.setGene (destL - 1)
                (normWriteGene (dest.gene (destL - 1)) (source.gene i) ll))) := by
  rfl


theorem normLoop_spec (e : Env) (source : Individual)
    (recNorm : Individual → Option (List Nat) → Nat → Individual →
      Option (Nat × Individual))
    (lastT : Nat) (hrow : RowOk source.code lastT) :
    ∀ (n i : Nat) (ll : List (Option Nat)) (destL : Nat) (dest : Individual),
      i ≤ lastT →
      lastT < ll.length →
      destL ≤ dest.size →
      forwardOkB dest = true →
      (∀ r : Nat, geneArgsCap ≤ (dest.gene r).args.length) →
      (∀ k, i + 1 ≤ k + n → k ≤ i → (ll.getD k none).isSome = true) →
      (∀ k, i < k → k ≤ lastT →
        ∃ v, ll.getD k none = some v ∧ destL ≤ v ∧ v < dest.size) →
      match normLoop e source none recNorm n i ll destL dest with
      | none => True
      | some r => forwardOkB r.2.2 = true ∧ r.2.2.size = dest.size := by
  intro n
  induction n with
  | zero =>
    intro i ll destL dest _ _ _ hfwd _ _ _
    exact ⟨hfwd, rfl⟩
  | succ m ih =>
    intro i ll destL dest hiT hlll hdL hfwd hcap hsome hll
    by_cases hd0 : destL = 0
    · have hstep : normLoop e source none recNorm (m + 1) i ll destL dest =
          none := by
        rw [normLoop_succ, if_pos hd0]
      rw [hstep]
      trivial
    · cases hllv : ll.getD i none with
      | none =>
        have h1 := hsome i (by omega) (by omega)
        rw [hllv] at h1
        simp at h1
      | some w =>
        obtain ⟨⟨hgcap, hglen, hgpar, hgkind⟩, hgargs⟩ := hrow i hiT
        have hvals : ∀ v ∈ (List.range (source.gene i).sym.arity).map
            (fun j => (ll.getD ((source.gene i).args.getD j 0) none).getD 0),
            destL ≤ v ∧ v < dest.size := by
          intro v hv
          obtain ⟨j, hj, hveq⟩ := List.mem_map.mp hv
          rw [List.mem_range] at hj
          have hkmem : (source.gene i).args.getD j 0 ∈
              (source.gene i).argsUsed :=
            getD_args_mem (source.gene i) j hj hglen
          have hka := hgargs _ hkmem
          obtain ⟨v2, hv2, hb1, hb2⟩ := hll _ hka.1 hka.2
          rw [hv2] at hveq
          have hveq2 : v2 = v := hveq
          subst hveq2
          exact ⟨hb1, hb2⟩
        have hwargs : ∀ b ∈ (normWriteGene (dest.gene (destL - 1))
            (source.gene i) ll).argsUsed, destL ≤ b ∧ b < dest.size := by
          intro b hb
          unfold normWriteGene at hb
          by_cases hp : (source.gene i).sym.parametric
          · rw [if_pos hp] at hb
            have hz : ({ dest.gene (destL - 1) with
                sym := (source.gene i).sym
                par := (source.gene i).par } : Gene).argsUsed = [] :=
              argsUsed_arity_zero _ (hgpar hp)
            rw [hz] at hb
            cases hb
          · rw [if_neg hp] at hb
            have hlen2 : ((List.range (source.gene i).sym.arity).map fun j =>
                (ll.getD ((source.gene i).args.getD j 0) none).getD 0).length =
                (source.gene i).sym.arity := by
              rw [List.length_map, List.length_range]
            have htk : ({ dest.gene (destL - 1) with
                sym := (source.gene i).sym
                args := overwriteArgs (dest.gene (destL - 1)).args
                  ((List.range (source.gene i).sym.arity).map fun j =>
                    (ll.getD ((source.gene i).args.getD j 0) none).getD 0) } :
                Gene).argsUsed =
                (List.range (source.gene i).sym.arity).map fun j =>
                  (ll.getD ((source.gene i).args.getD j 0) none).getD 0 := by
              have h8 := overwriteArgs_take (dest.gene (destL - 1)).args
                ((List.range (source.gene i).sym.arity).map fun j =>
                  (ll.getD ((source.gene i).args.getD j 0) none).getD 0)
                (by
                  rw [hlen2]
                  have h6 := hcap (destL - 1)
                  have h7 : (source.gene i).sym.arity ≤ geneArgsCap := hgcap
                  omega)
              rw [hlen2] at h8
              show (overwriteArgs (dest.gene (destL - 1)).args _).take
                (source.gene i).sym.arity = _
              exact h8
            rw [htk] at hb
            exact hvals b hb
        have hfwd2 : forwardOkB (dest.setGene (destL - 1)
            (normWriteGene (dest.gene (destL - 1)) (source.gene i) ll)) =
            true := by
          rw [forwardOk_iff]
          intro r hr a ha
          rw [size_setGene] at hr ⊢
          rw [gene_setGene] at ha
          by_cases hc : destL - 1 = r ∧ destL - 1 < dest.size
          · rw [if_pos hc] at ha
            have h5 := hwargs a ha
            omega
          · rw [if_neg hc] at ha
            exact (forwardOk_iff dest).mp hfwd r hr a ha
        have hcap2 : ∀ r, geneArgsCap ≤
            ((dest.setGene (destL - 1)
              (normWriteGene (dest.gene (destL - 1)) (source.gene i) ll)).gene
                r).args.length := by
          intro r
          rw [gene_setGene]
          by_cases hc : destL - 1 = r ∧ destL - 1 < dest.size
          · rw [if_pos hc, normWriteGene_args_length]
            exact hcap (destL - 1)
          · rw [if_neg hc]
            exact hcap r
        have hsome2 : ∀ k, (i - 1) + 1 ≤ k + m → k ≤ i - 1 →
            (((ll.set i (some (destL - 1))).getD k none)).isSome = true := by
          intro k hk1 hk2
          rw [getD_set_ite]
          by_cases hc : i = k ∧ i < ll.length
          · rw [if_pos hc]
            rfl
          · rw [if_neg hc]
            have hki : ¬ i = k ∨ ¬ i < ll.length := by tauto
            rcases hki with h7 | h7
            · exact hsome k (by omega) (by omega)
            · exact absurd (by omega : i < ll.length) h7
        have hll2 : ∀ k, i - 1 < k → k ≤ lastT →
            ∃ v, (ll.set i (some (destL - 1))).getD k none = some v ∧
              destL - 1 ≤ v ∧
              v < (dest.setGene (destL - 1)
                (normWriteGene (dest.gene (destL - 1)) (source.gene i)
                  ll)).size := by
          intro k hk1 hk2
          rw [size_setGene, getD_set_ite]
          by_cases hc : i = k ∧ i < ll.length
          · rw [if_pos hc]
            exact ⟨destL - 1, rfl, Nat.le_refl _, by omega⟩
          · rw [if_neg hc]
            have hki : ¬ i = k := by
              intro h7
              exact hc ⟨h7, by omega⟩
            obtain ⟨v, hv, hb1, hb2⟩ := hll k (by omega) hk2
            exact ⟨v, hv, by omega, hb2⟩
        have hcont : normLoop e source none recNorm (m + 1) i ll destL dest =
            normLoop e source none recNorm m (i - 1)
              (ll.set i (some (destL - 1))) (destL - 1)
              (dest.setGene (destL - 1)
                (normWriteGene (dest.gene (destL - 1)) (source.gene i) ll)) →
            (match normLoop e source none recNorm (m + 1) i ll destL dest with
             | none => True
             | some r => forwardOkB r.2.2 = true ∧
                 r.2.2.size = dest.size) := by
          intro hstep
          rw [hstep]
          have hres := ih (i - 1) (ll.set i (some (destL - 1))) (destL - 1)
            (dest.setGene (destL - 1)
              (normWriteGene (dest.gene (destL - 1)) (source.gene i) ll))
            (by omega) (by rw [List.length_set]; exact hlll)
            (by rw [size_setGene]; omega) hfwd2 hcap2 hsome2 hll2
          cases hcall : normLoop e source none recNorm m (i - 1)
              (ll.set i (some (destL - 1))) (destL - 1)
              (dest.setGene (destL - 1)
                (normWriteGene (dest.gene (destL - 1)) (source.gene i) ll))
            with
          | none => trivial
          | some r =>
            rw [hcall] at hres
            obtain ⟨ha, hb⟩ := hres
            refine ⟨ha, ?_⟩
            rw [hb, size_setGene]
        cases hgk : (source.gene i).sym.kind with
        | adfRef id => exact absurd hgk (hgkind id)
        | argPh idx =>
          apply hcont
          simp only [normLoop_succ, if_neg hd0, hllv, hgk]
        | plain =>
          apply hcont
          simp only [normLoop_succ, if_neg hd0, hllv, hgk]
        | nullSym =>
          apply hcont
          simp only [normLoop_succ, if_neg hd0, hllv, hgk]


theorem normalizeRec_succ (e : Env) (fuel : Nat) (src : Individual)
    (args : Option (List Nat)) (destL : Nat) (dest : Individual) :
    normalizeRec e (fuel + 1) src args destL dest =
      (match normLoop e (src.optimize).1 args (normalizeRec e fuel)
          ((src.optimize).2.2 + 1 - (src.optimize).1.best) (src.optimize).2.2
          ((List.range (src.optimize).1.size).map fun i =>
            if (src.optimize).1.best ≤ i ∧ i ≤ (src.optimize).2.2 then some i
            else none)
          destL dest with
      | none => none
      | some r =>
          if src.size - ((src.optimize).2.2 - (src.optimize).2.1 + 1) = 0
          then none
          else some (r.2.1, r.2.2)) := rfl

theorem normTop_forward (e : Env) (x : Individual)
    (hfw : forwardOkB x = true) (hbest : x.best < x.size)
    (hgo : genesOkB x = true) (hsz : x.size ≤ e.codeLength) :
    ∀ y, x.normTop e = some y → forwardOkB y = true := by
  intro y hy
  obtain ⟨ho1, ho2, ho3, ho4, ho5⟩ := optimize_spec x hfw hbest hgo
  have hd0fwd : forwardOkB (⟨0, List.replicate e.codeLength defaultGene⟩ :
      Individual) = true := by
    rw [forwardOk_iff]
    intro i hi a ha
    have hgd : (⟨0, List.replicate e.codeLength defaultGene⟩ :
        Individual).gene i = defaultGene := by
      show (List.replicate e.codeLength defaultGene).getD i defaultGene = _
      by_cases hl : i < e.codeLength
      · rw [List.getD_eq_getElem _ _ (by rw [List.length_replicate]; omega),
          List.getElem_replicate]
      · rw [List.getD_eq_default _ _ (by rw [List.length_replicate]; omega)]
    rw [hgd] at ha
    have h2 : defaultGene.argsUsed = [] := argsUsed_arity_zero _ rfl
    rw [h2] at ha
    cases ha
  have hd0cap : ∀ r, geneArgsCap ≤
      ((⟨0, List.replicate e.codeLength defaultGene⟩ : Individual).gene
        r).args.length := by
    intro r
    show geneArgsCap ≤
      ((List.replicate e.codeLength defaultGene).getD r defaultGene).args.length
    by_cases hl : r < e.codeLength
    · rw [List.getD_eq_getElem _ _ (by rw [List.length_replicate]; omega),
        List.getElem_replicate]
      decide
    · rw [List.getD_eq_default _ _ (by rw [List.length_replicate]; omega)]
      decide
  have hsome0 : ∀ k, (x.optimize).2.2 + 1 ≤
      k + ((x.optimize).2.2 + 1 - (x.optimize).1.best) → k ≤ (x.optimize).2.2 →
      ((((List.range (x.optimize).1.size).map fun i =>
        if (x.optimize).1.best ≤ i ∧ i ≤ (x.optimize).2.2 then some i
        else none)).getD k none).isSome = true := by
    intro k hk1 hk2
    have hkb : (x.optimize).1.best ≤ k := by omega
    have hks : k < (x.optimize).1.size := by
      rw [ho1]
      omega
    rw [getD_range_map, if_pos hks, if_pos ⟨hkb, hk2⟩]
    rfl
  have hll0 : ∀ k, (x.optimize).2.2 < k → k ≤ (x.optimize).2.2 →
      ∃ v, (((List.range (x.optimize).1.size).map fun i =>
        if (x.optimize).1.best ≤ i ∧ i ≤ (x.optimize).2.2 then some i
        else none)).getD k none = some v ∧ x.size ≤ v ∧
        v < (⟨0, List.replicate e.codeLength defaultGene⟩ :
          Individual).size := by
    intro k hk1 hk2
    exact absurd hk2 (by omega)
  have hspec := normLoop_spec e (x.optimize).1 (normalizeRec e e.adfs.length)
    (x.optimize).2.2 ho3
    ((x.optimize).2.2 + 1 - (x.optimize).1.best)
    (x.optimize).2.2
    ((List.range (x.optimize).1.size).map fun i =>
      if (x.optimize).1.best ≤ i ∧ i ≤ (x.optimize).2.2 then some i else none)
    x.size
    (⟨0, List.replicate e.codeLength defaultGene⟩ : Individual)
    (Nat.le_refl _)
    (by
      rw [List.length_map, List.length_range, ho1]
      exact ho2)
    (by
      show x.size ≤ (List.replicate e.codeLength defaultGene).length
      rw [List.length_replicate]
      exact hsz)
    hd0fwd hd0cap hsome0 hll0
  have hy2 : (match normalizeRec e (e.adfs.length + 1) x none x.size
      (⟨0, List.replicate e.codeLength defaultGene⟩ : Individual) with
      | none => none
      | some r => some { r.2 with best := r.1 }) = some y := hy
  cases hcall : normLoop e (x.optimize).1 none (normalizeRec e e.adfs.length)
      ((x.optimize).2.2 + 1 - (x.optimize).1.best) (x.optimize).2.2
      ((List.range (x.optimize).1.size).map fun i =>
        if (x.optimize).1.best ≤ i ∧ i ≤ (x.optimize).2.2 then some i
        else none)
      x.size (⟨0, List.replicate e.codeLength defaultGene⟩ : Individual) with
  | none =>
    have hnone : normalizeRec e (e.adfs.length + 1) x none x.size
        (⟨0, List.replicate e.codeLength defaultGene⟩ : Individual) = none := by
      rw [normalizeRec_succ, hcall]
    rw [hnone] at hy2
    exact Option.noConfusion hy2
  | some r =>
    by_cases hret : x.size - ((x.optimize).2.2 - (x.optimize).2.1 + 1) = 0
    · have hnone : normalizeRec e (e.adfs.length + 1) x none x.size
          (⟨0, List.replicate e.codeLength defaultGene⟩ : Individual) =
          none := by
        rw [normalizeRec_succ, hcall]
        show (if x.size - ((x.optimize).2.2 - (x.optimize).2.1 + 1) = 0
          then none else some (r.2.1, r.2.2)) = none
        rw [if_pos hret]
      rw [hnone] at hy2
      exact Option.noConfusion hy2
    · have hsome : normalizeRec e (e.adfs.length + 1) x none x.size
          (⟨0, List.replicate e.codeLength defaultGene⟩ : Individual) =
          some (r.2.1, r.2.2) := by
        rw [normalizeRec_succ, hcall]
        show (if x.size - ((x.optimize).2.2 - (x.optimize).2.1 + 1) = 0
          then none else some (r.2.1, r.2.2)) = some (r.2.1, r.2.2)
        rw [if_neg hret]
      rw [hsome] at hy2
      have hy3 : ({ r.2.2 with best := r.2.1 } : Individual) = y :=
        Option.some.inj hy2
      rw [← hy3]
      show forwardOkB r.2.2 = true
      rw [hcall] at hspec
      exact hspec.1

theorem canon_forward (e : Env) (x : Individual)
    (hfw : forwardOkB x = true) (hbest : x.best < x.size)
    (hgo : genesOkB x = true) (hsz : x.size ≤ e.codeLength) :
    ∀ y, canon e x = some y → forwardOkB y = true :=
  normTop_forward e x hfw hbest hgo hsz


theorem unpack_roundtrip_forward (sset : List Symbol) (x : Individual)
    (hfw : forwardOkB x = true) (hwf : genesWfB sset x = true)
    (hbest : x.best < x.size) :
    ∃ (packed : List Nat) (y : Individual),
      x.pack = some packed ∧ unpackAll sset packed = some y ∧
      forwardOkB y = true := by
  obtain ⟨t, hwt, hpk⟩ :=
    pack_serT sset x hfw hwf (x.size + 1) x.best hbest (by omega)
  have hnle := nodesT_le_serT_len sset t hwt
  obtain ⟨blk, hun, hlen, hrep, hfwdblk⟩ :=
    unp_spec sset (nodesT t) t (Nat.le_refl _) hwt (serT t)
      ((serT t).length + 1) 0 [] (by omega) (by omega)
      (by
        intro k hk
        rw [Nat.zero_add])
  have hyall : unpackAll sset (serT t) = some ⟨0, blk⟩ := by
    unfold unpackAll
    rw [hun]
    show some (⟨0, [] ++ blk⟩ : Individual) = _
    rw [List.nil_append]
  refine ⟨serT t, ⟨0, blk⟩, hpk, hyall, ?_⟩
  rw [forwardOk_iff]
  intro r hr a ha
  have hr2 : r < blk.length := hr
  have h9 := hfwdblk r hr2 a ha
  simp only [List.length_nil, Nat.zero_add] at h9
  exact h9

/-- C1: the forward-reference invariant - every used argument locus is
strictly greater than its own row and strictly less than the genome size,
genome wide.  It holds for a freshly random-constructed genome, for the
individual rebuilt by unpack from a packed genome, and is preserved by
mutation, the three crossovers, replace (for argument loci that are
forward for the replaced line), destroy_block, generalize, compact,
optimize and the full canonicalization chain (normalize). -/
theorem C1_forward_reference_invariant :
    (∀ (e : Env) (draws : List GeneDraw),
      forwardOkB (randomIndividual e draws) = true) ∧
    (∀ (sset : List Symbol) (x : Individual),
      forwardOkB x = true → genesWfB sset x = true → x.best < x.size →
      ∃ (packed : List Nat) (y : Individual),
        x.pack = some packed ∧ unpackAll sset packed = some y ∧
        forwardOkB y = true) ∧
    (∀ (e : Env) (x : Individual) (coins : List ℚ) (draws : List GeneDraw),
      forwardOkB x = true →
      forwardOkB (Individual.mutation e x coins draws).2 = true) ∧
    (∀ (x parent : Individual) (flips : List Bool),
      forwardOkB x = true → forwardOkB parent = true → parent.size = x.size →
      forwardOkB (x.uniformCross parent flips) = true) ∧
    (∀ (x parent : Individual) (cut : Nat) (base : Bool),
      forwardOkB x = true → forwardOkB parent = true → parent.size = x.size →
      forwardOkB (x.cross1 parent cut base) = true) ∧
    (∀ (x parent : Individual) (cut1 cut2 : Nat) (base : Bool),
      forwardOkB x = true → forwardOkB parent = true → parent.size = x.size →
      forwardOkB (x.cross2 parent cut1 cut2 base) = true) ∧
    (∀ (x : Individual) (sym : Symbol) (args : List Nat) (line : Nat),
      forwardOkB x = true → args.length = sym.arity →
      sym.arity ≤ (x.gene line).args.length →
      (∀ a ∈ args, line < a ∧ a < x.size) →
      forwardOkB (x.replace sym args line) = true) ∧
    (∀ (e : Env) (x : Individual) (line : Nat) (d : GeneDraw),
      forwardOkB x = true → forwardOkB (x.destroyBlock e line d) = true) ∧
    (∀ (x : Individual) (maxArgs : Nat) (seeds : List Nat),
      forwardOkB x = true → forwardOkB (x.generalize maxArgs seeds).1 = true) ∧
    (∀ (x : Individual),
      forwardOkB x = true → x.best < x.size → genesOkB x = true →
      forwardOkB (x.compact).1 = true) ∧
    (∀ (x : Individual),
      forwardOkB x = true → x.best < x.size → genesOkB x = true →
      forwardOkB (x.optimize).1 = true) ∧
    (∀ (e : Env) (x : Individual),
      forwardOkB x = true → x.best < x.size → genesOkB x = true →
      x.size ≤ e.codeLength →
      ∀ y, canon e x = some y → forwardOkB y = true) :=
  ⟨fun e draws => randomIndividual_forward e draws,
   fun sset x hfw hwf hbest => unpack_roundtrip_forward sset x hfw hwf hbest,
   fun e x coins draws hfw => mutation_forward e x coins draws hfw,
   fun x parent flips hx hp hsz => uniformCross_forward x parent flips hx hp hsz,
   fun x parent cut base hx hp hsz => cross1_forward x parent cut base hx hp hsz,
   fun x parent c1 c2 base hx hp hsz => cross2_forward x parent c1 c2 base hx hp hsz,
   fun x sym args line hfw h1 h2 h3 => replace_forward x sym args line hfw h1 h2 h3,
   fun e x line d hfw => destroyBlock_forward e x line d hfw,
   fun x maxArgs seeds hfw => generalize_forward x maxArgs seeds hfw,
   fun x hfw hbest hgo => compact_forward x hfw hbest hgo,
   fun x hfw hbest hgo => (optimize_spec x hfw hbest hgo).2.2.2.2,
   fun e x hfw hbest hgo hsz => canon_forward e x hfw hbest hgo hsz⟩

/-- Witness for C1: the invariant components evaluated on concrete
genomes over the {FADD, X1} catalog. -/
theorem C1_forward_reference_invariant_witness :
    forwardOkB xDup = true ∧ forwardOkB xMix = true ∧
    genesOkB xDup = true ∧ xDup.best < xDup.size ∧
    xDup.size ≤ envAX.codeLength ∧ xMix.size = xDup.size ∧
    forwardOkB (Individual.mutation envAX xDup [] []).2 = true ∧
    forwardOkB (xDup.uniformCross xMix []) = true ∧
    forwardOkB (xDup.cross1 xMix 1 true) = true ∧
    forwardOkB (xDup.cross2 xMix 1 2 false) = true ∧
    forwardOkB (xDup.replace exX [] 1) = true ∧
    forwardOkB (xDup.destroyBlock envAX 0 default) = true ∧
    forwardOkB (xDup.generalize 2 []).1 = true ∧
    forwardOkB (xDup.compact).1 = true ∧
    forwardOkB (xDup.optimize).1 = true ∧
    ((canon envAX xDup).map forwardOkB).getD false = true ∧
    (∃ (packed : List Nat) (y : Individual),
      xDup.pack = some packed ∧ unpackAll [exAdd, exX] packed = some y ∧
      forwardOkB y = true) := by
  refine ⟨by decide, by decide, by decide, by decide, by decide, by decide,
    ?_, ?_, ?_, ?_, ?_, ?_, ?_, ?_, ?_, ?_, ?_⟩
  · exact C1_forward_reference_invariant.2.2.1 envAX xDup [] [] (by decide)
  · exact C1_forward_reference_invariant.2.2.2.1 xDup xMix [] (by decide)
      (by decide) (by decide)
  · exact C1_forward_reference_invariant.2.2.2.2.1 xDup xMix 1 true
      (by decide) (by decide) (by decide)
  · exact C1_forward_reference_invariant.2.2.2.2.2.1 xDup xMix 1 2 false
      (by decide) (by decide) (by decide)
  · exact C1_forward_reference_invariant.2.2.2.2.2.2.1 xDup exX [] 1
      (by decide) (by decide) (by decide) (by decide)
  · exact C1_forward_reference_invariant.2.2.2.2.2.2.2.1 envAX xDup 0 default
      (by decide)
  · exact C1_forward_reference_invariant.2.2.2.2.2.2.2.2.1 xDup 2 []
      (by decide)
  · exact C1_forward_reference_invariant.2.2.2.2.2.2.2.2.2.1 xDup
      (by decide) (by decide) (by decide)
  · exact C1_forward_reference_invariant.2.2.2.2.2.2.2.2.2.2.1 xDup
      (by decide) (by decide) (by decide)
  · cases hc : canon envAX xDup with
    | none => exact absurd hc (by decide)
    | some y =>
      show forwardOkB y = true
      exact C1_forward_reference_invariant.2.2.2.2.2.2.2.2.2.2.2 envAX xDup
        (by decide) (by decide) (by decide) (by decide) y hc
  · exact C1_forward_reference_invariant.2.1 [exAdd, exX] xDup (by decide)
      (by decide) (by decide)

end Vita
